import Mathlib

/-!
# GJK collision detection: a shallow embedding

The development embeds `src/geometry/Polygon.cpp` and
`src/collision/GJKCollisionDetector.cpp` twice.

* The detector and the polygons it is analysed on are embedded over exact
  rational arithmetic: `float`/`double` values are rationals, the machine
  epsilons are the rationals `2^-23` (float) and `2^-52` (double), and rounding
  is not modelled. The vector arithmetic of the detector (`Vector2Util`,
  `Transform2`, `MinkowskiSum`) is not among the sources. The unbounded
  `while (true)` loop of `detect` is a function with an explicit iteration
  budget that answers `none` when the budget is used up before the loop
  returns.
* The functions of `Polygon.cpp` are embedded a second time, in the namespace
  `Fp`, over a model of IEEE 754 binary floating-point numbers with rounding
  to nearest, ties to even, overflow to infinity and NaN. The statements about
  `Polygon::valid`, `calcAreaWeightedCenter`, `createRectangle` and
  `getFarthestPoint` that depend on rounding are made of these. The function
  `Vector2Util::cross`, which `Polygon::valid` calls, is not among the sources;
  the format in which it computes is a parameter.
* The detector is embedded a second time, in the namespace `Fd`, over the same
  floating-point model, with the format of its vectors as a parameter (`dvec2`
  in the source file, `fvec2` in the header). It is used for the run of the
  loop on operands that overflow.
-/

namespace GJK

/-! ## Vectors -/

/-- A 2D vector (`fvec2` / `dvec2`). -/
@[ext]
structure Vec2 where
  x : ℚ
  y : ℚ
deriving DecidableEq

namespace Vec2

instance : Zero Vec2 := ⟨⟨0, 0⟩⟩
instance : Add Vec2 := ⟨fun a b => ⟨a.x + b.x, a.y + b.y⟩⟩
instance : Sub Vec2 := ⟨fun a b => ⟨a.x - b.x, a.y - b.y⟩⟩
instance : Neg Vec2 := ⟨fun a => ⟨-a.x, -a.y⟩⟩
instance : SMul ℚ Vec2 := ⟨fun k a => ⟨k * a.x, k * a.y⟩⟩
instance : Inhabited Vec2 := ⟨0⟩

/-- The dot product `glm::dot`. -/
def dot (a b : Vec2) : ℚ := a.x * b.x + a.y * b.y

end Vec2

open Vec2

/-- Modelled from the spec: `Vector2Util::cross` is not among the sources; the
2D cross product, with the sign written out in `calcAreaWeightedCenter`
(`p1.x * p2.y - p1.y * p2.x`). -/
def cross (a b : Vec2) : ℚ := a.x * b.y - a.y * b.x

/-- Modelled from the spec: `Vector2Util::isZero` is not among the sources;
the spec describes the test as "if this is the zero vector". -/
def isZero (a : Vec2) : Bool := decide (a = 0)

/-- Modelled from the spec: `Vector2Util::magnitudeSquared` is not among the
sources; the squared Euclidean length. -/
def magnitudeSquared (a : Vec2) : ℚ := a.x * a.x + a.y * a.y

/-- Modelled from the spec: `Vector2Util::left` is not among the sources; the
spec names it the left-hand normal of its argument, taken here as
`(y, -x)`. -/
def left (a : Vec2) : Vec2 := ⟨a.y, -a.x⟩

/-- Modelled from the spec: `Vector2Util::tripleProduct` is not among the
sources. The spec describes it as the 2D analogue of the vector triple
product that yields an edge perpendicular oriented by a reference vector, and
`checkSimplex` documents `tripleProduct(ab, ac, ac)` as the normal of edge
`ac` computed using `b`. The operand order that meets this description is
`(a × b) × c = b (a·c) - a (b·c)`. On the segment call
`tripleProduct(ab, ao, ab)` it equals the formula written in the spec,
`b (a·c) - c (a·b)`, which is kept below as `tripleSpec`. -/
def tripleProduct (a b c : Vec2) : Vec2 :=
  ⟨b.x * dot a c - a.x * dot b c, b.y * dot a c - a.y * dot b c⟩

/-- Modelled from the spec: the triple product formula as the spec writes it,
`triple(a,b,c) = b·dot(a,c) − c·dot(a,b)`. -/
def tripleSpec (a b c : Vec2) : Vec2 :=
  ⟨b.x * dot a c - c.x * dot a b, b.y * dot a c - c.y * dot a b⟩

/-- The value of `std::numeric_limits<float>::epsilon()`. -/
def epsilonFloat : ℚ := 1 / 2 ^ 23

/-- The value of `std::numeric_limits<double>::epsilon()`. -/
def epsilonDouble : ℚ := 1 / 2 ^ 52

/-- The function `glm::sign`: -1, 0 or 1. -/
def sign (v : ℚ) : ℚ := if 0 < v then 1 else if v < 0 then -1 else 0

/-! ## Transforms -/

/-- Modelled from the spec: `Transform2` is not among the sources. A rotation,
stored as the cosine and sine of its angle, followed by a translation. The
default-constructed transform is the identity. -/
structure Transform2 where
  cos : ℚ := 1
  sin : ℚ := 0
  translation : Vec2 := 0
deriving DecidableEq

namespace Transform2

/-- The rotation part is orthonormal. -/
def Rigid (t : Transform2) : Prop := t.cos * t.cos + t.sin * t.sin = 1

instance (t : Transform2) : Decidable t.Rigid := by
  unfold Rigid; infer_instance

/-- Modelled from the spec: `getTransformed`, rotate then translate. -/
def getTransformed (t : Transform2) (p : Vec2) : Vec2 :=
  ⟨t.cos * p.x - t.sin * p.y + t.translation.x,
   t.sin * p.x + t.cos * p.y + t.translation.y⟩

/-- Modelled from the spec: `getInverseTransformedR`, the inverse rotation
applied to a direction (no translation). -/
def getInverseTransformedR (t : Transform2) (d : Vec2) : Vec2 :=
  ⟨t.cos * d.x + t.sin * d.y, -t.sin * d.x + t.cos * d.y⟩

/-- Modelled from the spec: `translate(dx, dy)` accumulates a translation. -/
def translate (t : Transform2) (dx dy : ℚ) : Transform2 :=
  { t with translation := ⟨t.translation.x + dx, t.translation.y + dy⟩ }

end Transform2

/-! ## Polygons in exact arithmetic -/

/-- The data members of `Polygon`, with rational coordinates. -/
structure Polygon where
  vertices : List Vec2
  center : Vec2
deriving DecidableEq

/-- One round of the loop of `Polygon::valid` in exact arithmetic, with `k`
rounds left to run at index `i`; `area` and `sign` are the locals of the
source. The float version is `Fp.validLoop`. -/
def validLoop (vertices : List Vec2) (size : Nat) : Nat → Nat → ℚ → ℚ → Bool
  | 0, _, area, _ => decide (0 ≤ area)
  | k + 1, i, area, sgn =>
    let p0 := if i = 0 then vertices.getD (size - 1) 0 else vertices.getD (i - 1) 0
    let p1 := vertices.getD i 0
    let p2 := if i + 1 = size then vertices.getD 0 0 else vertices.getD (i + 1) 0
    if p1 = p2 then false
    else
      let cr := cross (p1 - p0) (p2 - p1)
      let tsign := sign cr
      if |cr| > epsilonFloat ∧ sgn ≠ 0 ∧ tsign ≠ sgn then false
      else validLoop vertices size k (i + 1) (area + cr) tsign

/-- The method `Polygon::valid` in exact arithmetic, on the vertex list. -/
def validVertices (vertices : List Vec2) : Bool :=
  if vertices.length < 3 then false
  else validLoop vertices vertices.length vertices.length 0 0 0

/-- The method `Polygon::valid` in exact arithmetic. -/
def Polygon.valid (p : Polygon) : Bool := validVertices p.vertices

/-- The body of the second loop of `calcAreaWeightedCenter` at index `i`, in
exact arithmetic: the state is `(center, area)`. -/
def centerStep (points : List Vec2) (ac : Vec2) (st : Vec2 × ℚ) (i : Nat) : Vec2 × ℚ :=
  let p1 := points.getD i 0 - ac
  let p2 := (if i + 1 < points.length then points.getD (i + 1) 0 else points.getD 0 0) - ac
  let d := p1.x * p2.y - p1.y * p2.x
  let triangleArea := (1 / 2) * d
  (st.1 + (((1 : ℚ) / 3) * triangleArea) • (p1 + p2), st.2 + triangleArea)

/-- The function `Polygon::calcAreaWeightedCenter` in exact arithmetic. The
float version is `Fp.calcAreaWeightedCenter`. -/
def calcAreaWeightedCenter (points : List Vec2) : Vec2 :=
  let size := points.length
  if size = 1 then points.getD 0 0
  else
    let ac := ((1 : ℚ) / size) • points.foldl (fun acc p => acc + p) 0
    let st := (List.range size).foldl (centerStep points ac) (0, 0)
    if |st.2| ≤ epsilonFloat then points.getD 0 0
    else (1 / st.2) • st.1 + ac

/-- The constructor `Polygon(type, points)`: the assertion `valid()` guards
construction, and the center is computed. -/
def Polygon.construct (points : List Vec2) : Option Polygon :=
  if validVertices points then some ⟨points, calcAreaWeightedCenter points⟩ else none

/-- The constructor `Polygon(type, center, points)` with an explicit center. -/
def Polygon.constructCentered (center : Vec2) (points : List Vec2) : Option Polygon :=
  if validVertices points then some ⟨points, center⟩ else none

/-- The factory `Polygon::createPolygon`. -/
def createPolygon (points : List Vec2) : Option Polygon := Polygon.construct points

/-- The factory `Polygon::createTriangle`. -/
def createTriangle (point1 point2 point3 : Vec2) : Option Polygon :=
  Polygon.construct [point1, point2, point3]

/-- The factory `Polygon::createRectangle` in exact arithmetic. The float
version is `Fp.createRectangle`. -/
def createRectangle (width height : ℚ) : Option Polygon :=
  if 0 < width ∧ 0 < height then
    Polygon.constructCentered 0
      [⟨-width * (1 / 2), -height * (1 / 2)⟩, ⟨width * (1 / 2), -height * (1 / 2)⟩,
       ⟨width * (1 / 2), height * (1 / 2)⟩, ⟨-width * (1 / 2), height * (1 / 2)⟩]
  else none

/-- The body of the scan of `getFarthestPoint` in exact arithmetic: the state
is `(point, max)`. -/
def farthestStep (localn : Vec2) (st : Vec2 × ℚ) (v : Vec2) : Vec2 × ℚ :=
  if dot localn v > st.2 then (v, dot localn v) else st

/-- The method `Polygon::getFarthestPoint` in exact arithmetic. The source
reads `vertices[0]` unguarded; every constructed polygon has a vertex, and the
empty list is given the local origin here. The float version is
`Fp.Polygon.getFarthestPoint`. -/
def Polygon.getFarthestPoint (p : Polygon) (direction : Vec2) (transform : Transform2) : Vec2 :=
  let localn := transform.getInverseTransformedR direction
  let v0 := p.vertices.headD 0
  let st := p.vertices.tail.foldl (farthestStep localn) (v0, dot localn v0)
  transform.getTransformed st.1

/-! ## Convex shapes and the Minkowski difference -/

/-- The interface `Convex`: a center and a support mapping. -/
structure Convex where
  getCenter : Vec2
  getFarthestPoint : Vec2 → Transform2 → Vec2

/-- A polygon seen through the `Convex` interface. -/
def Polygon.toConvex (p : Polygon) : Convex := ⟨p.center, p.getFarthestPoint⟩

/-- Modelled from the spec: `MinkowskiSum` is not among the sources; it holds
the two shapes and their transforms. -/
structure MinkowskiSum where
  convex1 : Convex
  transform1 : Transform2
  convex2 : Convex
  transform2 : Transform2

/-- Modelled from the spec: `MinkowskiSum::getSupportPoint`,
`support(d) = farthest(A, d, tA) − farthest(B, −d, tB)`. -/
def MinkowskiSum.getSupportPoint (m : MinkowskiSum) (direction : Vec2) : Vec2 :=
  m.convex1.getFarthestPoint direction m.transform1 -
    m.convex2.getFarthestPoint (-direction) m.transform2

/-- The record `Penetration`. -/
structure Penetration where
  normal : Vec2
  depth : ℚ
deriving DecidableEq

/-! ## The GJK detector -/

/-- The method `GJKCollisionDetector::checkSimplex`: the result is the returned
flag together with the simplex and the direction as the call leaves them. -/
def checkSimplex (simplex : List Vec2) (direction : Vec2) : Bool × List Vec2 × Vec2 :=
  let a := simplex.getLastD 0
  let ao := -a
  if simplex.length = 3 then
    let b := simplex.getD 1 0
    let c := simplex.getD 0 0
    let ab := b - a
    let ac := c - a
    let abPerp := tripleProduct ac ab ab
    let acPerp := tripleProduct ab ac ac
    let acLocation := dot acPerp ao
    if acLocation ≥ 0 then
      (false, simplex.eraseIdx 1, acPerp)
    else
      let abLocation := dot abPerp ao
      if abLocation < 0 then (true, simplex, direction)
      else (false, simplex.eraseIdx 0, abPerp)
  else
    let b := simplex.getD 0 0
    let ab := b - a
    let direction1 := tripleProduct ab ao ab
    if magnitudeSquared direction1 ≤ epsilonDouble then (false, simplex, left ab)
    else (false, simplex, direction1)

/-- The `while (true)` loop of `detect`, run for at most the given number of
rounds: `none` when the rounds are used up before the loop returns, otherwise
the returned flag and the simplex at that point. -/
def detectLoop (m : MinkowskiSum) : Nat → List Vec2 → Vec2 → Option (Bool × List Vec2)
  | 0, _, _ => none
  | fuel + 1, simplex, direction =>
    let simplex1 := simplex ++ [m.getSupportPoint direction]
    let lastPoint := simplex1.getLastD 0
    if dot lastPoint direction ≤ 0 then some (false, simplex1)
    else
      let r := checkSimplex simplex1 direction
      if r.1 then some (true, r.2.1) else detectLoop m fuel r.2.1 r.2.2

/-- The method `detect(minkowskiSum, simplex, direction)`. -/
def detectCore (m : MinkowskiSum) (fuel : Nat) (simplex : List Vec2) (direction : Vec2) :
    Option (Bool × List Vec2) :=
  let direction1 := if isZero direction then (⟨1, 0⟩ : Vec2) else direction
  let simplex1 := simplex ++ [m.getSupportPoint direction1]
  if dot (simplex1.getD 0 0) direction1 ≤ 0 then some (false, simplex1)
  else detectLoop m fuel simplex1 (-direction1)

/-- The method `calcInitialDirection`. -/
def calcInitialDirection (convex1 : Convex) (transform1 : Transform2)
    (convex2 : Convex) (transform2 : Transform2) : Vec2 :=
  transform2.getTransformed convex2.getCenter - transform1.getTransformed convex1.getCenter

/-- The method `detect(convex1, transform1, convex2, transform2)`. -/
def detect (fuel : Nat) (convex1 : Convex) (transform1 : Transform2)
    (convex2 : Convex) (transform2 : Transform2) : Option Bool :=
  (detectCore ⟨convex1, transform1, convex2, transform2⟩ fuel []
    (calcInitialDirection convex1 transform1 convex2 transform2)).map Prod.fst

/-- The method `detect(convex1, transform1, convex2, transform2, penetration)`:
the result is the returned flag and the penetration argument as the call leaves
it. The penetration solver `EPAMinkowskiPenetrationSolver::findPenetration` is
not among the sources and is a parameter. -/
def detectPenetration (findPenetration : List Vec2 → MinkowskiSum → Penetration → Penetration)
    (fuel : Nat) (convex1 : Convex) (transform1 : Transform2)
    (convex2 : Convex) (transform2 : Transform2) (penetration : Penetration) :
    Option (Bool × Penetration) :=
  let m : MinkowskiSum := ⟨convex1, transform1, convex2, transform2⟩
  match detectCore m fuel [] (calcInitialDirection convex1 transform1 convex2 transform2) with
  | none => none
  | some (true, simplex) => some (true, findPenetration simplex m penetration)
  | some (false, _) => some (false, penetration)

/-! ## The shapes of the demonstration driver -/

/-- The triangle of `main`. -/
def demoTriangle : Polygon :=
  ⟨[⟨4, 11⟩, ⟨4, 5⟩, ⟨9, 9⟩], calcAreaWeightedCenter [⟨4, 11⟩, ⟨4, 5⟩, ⟨9, 9⟩]⟩

/-- The quadrilateral of `main`. -/
def demoPolygon : Polygon :=
  ⟨[⟨5, 7⟩, ⟨7, 3⟩, ⟨10, 2⟩, ⟨12, 7⟩], calcAreaWeightedCenter [⟨5, 7⟩, ⟨7, 3⟩, ⟨10, 2⟩, ⟨12, 7⟩]⟩

/-- The rectangle of `main`, the value of `createRectangle(10, 12)`. -/
def demoRectangle : Polygon :=
  ⟨[⟨-5, -6⟩, ⟨5, -6⟩, ⟨5, 6⟩, ⟨-5, 6⟩], 0⟩

/-! ## Reference notions for polygons -/

/-- The turn at vertex `i` of a closed vertex list:
`cross(p_i - p_{i-1}, p_{i+1} - p_i)`, indices taken cyclically. It is positive
at a left turn and negative at a reflex vertex of a counter-clockwise
polygon. -/
def turnAt (vs : List Vec2) (i : Nat) : ℚ :=
  let p0 := vs.getD ((i + vs.length - 1) % vs.length) 0
  let p1 := vs.getD i 0
  let p2 := vs.getD ((i + 1) % vs.length) 0
  cross (p1 - p0) (p2 - p1)

/-- The sum `f 0 + ... + f (n - 1)`. -/
def sumRange (f : Nat → ℚ) : Nat → ℚ
  | 0 => 0
  | n + 1 => sumRange f n + f n

/-- The index after `i` on a closed list of `n` vertices. -/
def nextIndex (n i : Nat) : Nat := if i + 1 < n then i + 1 else 0

/-- The signed area of a closed vertex list, `(1/2) * sum_i cross(p_i, p_{i+1})`. -/
def signedArea (points : List Vec2) : ℚ :=
  (1 / 2) * sumRange (fun i =>
    cross (points.getD i 0) (points.getD (nextIndex points.length i) 0)) points.length

/-- The area-weighted centroid as the spec writes it:
`(1/(6A)) * sum_i (p_i + p_{i+1}) * cross(p_i, p_{i+1})` with `A` the signed
area. -/
def centroidSpec (points : List Vec2) : Vec2 :=
  ⟨(1 / (6 * signedArea points)) * sumRange (fun i =>
      (points.getD i 0 + points.getD (nextIndex points.length i) 0).x *
        cross (points.getD i 0) (points.getD (nextIndex points.length i) 0)) points.length,
   (1 / (6 * signedArea points)) * sumRange (fun i =>
      (points.getD i 0 + points.getD (nextIndex points.length i) 0).y *
        cross (points.getD i 0) (points.getD (nextIndex points.length i) 0)) points.length⟩

/-! ## Notions for the analysis of the loop -/

/-- The counter-clockwise quarter turn of a vector. -/
def perp (v : Vec2) : Vec2 := ⟨-v.y, v.x⟩

/-- The mapping `sup` answers, for every direction, a point of the finite set
`S` that is farthest along that direction. -/
def IsSupport (S : List Vec2) (sup : Vec2 → Vec2) : Prop :=
  ∀ d, sup d ∈ S ∧ ∀ q ∈ S, dot q d ≤ dot (sup d) d

/-- The point `c` is farthest in `S` along some non-zero direction. -/
def Extreme (S : List Vec2) (c : Vec2) : Prop :=
  ∃ f : Vec2, f ≠ 0 ∧ ∀ q ∈ S, dot q f ≤ dot c f

/-- The state of the loop between two rounds: a segment `[c, b]` of two
distinct extreme points of `S` and a non-zero direction normal to it. -/
structure EdgeState (S : List Vec2) (c b d : Vec2) : Prop where
  memc : c ∈ S
  memb : b ∈ S
  extc : Extreme S c
  extb : Extreme S b
  ne : c ≠ b
  normal : ∃ k : ℚ, k ≠ 0 ∧ d = k • perp (c - b)

/-- The number of points of `S` that are at least as far along `d` as `b`. -/
def capCount (S : List Vec2) (b d : Vec2) : Nat :=
  (S.filter (fun q => decide (dot b d ≤ dot q d))).length

/-- The segment `[c, b]` with a direction normal to it under which the origin
is not behind the segment. -/
def TowardOrigin (c b d : Vec2) : Prop :=
  c ≠ b ∧ (∃ k : ℚ, k ≠ 0 ∧ d = k • perp (c - b)) ∧ dot b d ≤ 0

/-- The differences `a - b` of the points of two lists: the candidate points of
the Minkowski difference. -/
def differences (wa wb : List Vec2) : List Vec2 :=
  wa.flatMap (fun a => wb.map (fun b => a - b))

/-- The world-space vertices of a polygon. -/
def Polygon.world (p : Polygon) (t : Transform2) : List Vec2 :=
  p.vertices.map t.getTransformed

/-- The point `p` is strictly to the left of every edge of the closed vertex
list: it is an interior point of a counter-clockwise convex polygon. -/
def strictlyInside (vs : List Vec2) (p : Vec2) : Bool :=
  (List.range vs.length).all (fun i =>
    decide (0 < cross (vs.getD (nextIndex vs.length i) 0 - vs.getD i 0) (p - vs.getD i 0)))

/-- The two world-space shapes share an interior point. -/
def ShareInterior (wa wb : List Vec2) : Prop :=
  ∃ p, strictlyInside wa p = true ∧ strictlyInside wb p = true

/-- Some vertical or horizontal line has every vertex of one list strictly on
one side and every vertex of the other strictly on the other side. -/
def AxisGap (wa wb : List Vec2) : Prop :=
  ∃ k : ℚ, ((∀ v ∈ wa, v.x < k) ∧ (∀ w ∈ wb, k < w.x)) ∨
    ((∀ v ∈ wa, k < v.x) ∧ (∀ w ∈ wb, w.x < k)) ∨
    ((∀ v ∈ wa, v.y < k) ∧ (∀ w ∈ wb, k < w.y)) ∨
    ((∀ v ∈ wa, k < v.y) ∧ (∀ w ∈ wb, w.y < k))

/-- The direction of the first support query of `detect`: the given one, or
(1, 0) when it is zero. -/
def firstDirection (direction : Vec2) : Vec2 :=
  if isZero direction then ⟨1, 0⟩ else direction

/-- The triple product that the segment case of `checkSimplex` computes in
the first round of the loop, from the first two support points. -/
def firstSegmentNormal (m : MinkowskiSum) (direction : Vec2) : Vec2 :=
  let s0 := m.getSupportPoint (firstDirection direction)
  let s1 := m.getSupportPoint (-(firstDirection direction))
  tripleProduct (s0 - s1) (-s1) (s0 - s1)

/-- The segment case of the first round does not take its fallback on a
non-zero vector: the triple product is zero or above the epsilon. -/
def SegmentClear (m : MinkowskiSum) (direction : Vec2) : Prop :=
  magnitudeSquared (firstSegmentNormal m direction) = 0 ∨
    epsilonDouble < magnitudeSquared (firstSegmentNormal m direction)

/-! ## Reference notions for the simplex test and for touching shapes -/

/-- The origin is a convex combination of the three points: it lies in the
closed triangle `a, b, c`. -/
def OriginInTriangle (a b c : Vec2) : Prop :=
  ∃ la lb lc : ℚ, 0 ≤ la ∧ 0 ≤ lb ∧ 0 ≤ lc ∧ la + lb + lc = 1 ∧
    la • a + lb • b + lc • c = 0

/-! ## The rounds of the loop -/

/-- One round of the `while (true)` loop of `detect`: the direction of its
support query, the simplex after the push of the support point, and the result
of the call to `checkSimplex` when the round reaches it. -/
structure Round where
  direction : Vec2
  simplex : List Vec2
  check : Option (Bool × List Vec2 × Vec2)

/-- The rounds that the `while (true)` loop of `detect` runs, at most as many
as the given number: the same recursion as `detectLoop`, recording every
round. -/
def loopRounds (m : MinkowskiSum) : Nat → List Vec2 → Vec2 → List Round
  | 0, _, _ => []
  | fuel + 1, simplex, direction =>
    let simplex1 := simplex ++ [m.getSupportPoint direction]
    let lastPoint := simplex1.getLastD 0
    if dot lastPoint direction ≤ 0 then [⟨direction, simplex1, none⟩]
    else
      let r := checkSimplex simplex1 direction
      ⟨direction, simplex1, some r⟩ :: (if r.1 then [] else loopRounds m fuel r.2.1 r.2.2)

/-- The value that the loop returns after the recorded rounds: the last round
decides, and a last round whose `checkSimplex` returned false means that the
rounds were used up. -/
def roundsResult : List Round → Option (Bool × List Vec2)
  | [] => none
  | [r] =>
    match r.check with
    | none => some (false, r.simplex)
    | some c => if c.1 then some (true, c.2.1) else none
  | _ :: r :: rs => roundsResult (r :: rs)

/-- The rounds of the loop in a run of `detect(minkowskiSum, simplex,
direction)`: none when the first support point already fails the test. -/
def coreRounds (m : MinkowskiSum) (fuel : Nat) (simplex : List Vec2) (direction : Vec2) :
    List Round :=
  let direction1 := if isZero direction then (⟨1, 0⟩ : Vec2) else direction
  let simplex1 := simplex ++ [m.getSupportPoint direction1]
  if dot (simplex1.getD 0 0) direction1 ≤ 0 then []
  else loopRounds m fuel simplex1 (-direction1)

/-- The directions of all support queries in a run of `detect(minkowskiSum,
simplex, direction)`: the first one, then one per round of the loop. -/
def supportQueries (m : MinkowskiSum) (fuel : Nat) (simplex : List Vec2) (direction : Vec2) :
    List Vec2 :=
  (if isZero direction then (⟨1, 0⟩ : Vec2) else direction) ::
    (coreRounds m fuel simplex direction).map Round.direction

/-- The link between two consecutive rounds: `checkSimplex` returned false in
the first, and the second pushes the support point of the direction it left
onto the simplex it left. -/
def RoundLink (m : MinkowskiSum) (r r1 : Round) : Prop :=
  ∃ res, r.check = some res ∧ res.1 = false ∧ r1.direction = res.2.2 ∧
    r1.simplex = res.2.1 ++ [m.getSupportPoint res.2.2]

/-- The point `p` is on or to the left of every edge of the closed vertex
list: it is a point of a counter-clockwise convex polygon, boundary
included. -/
def weaklyInside (vs : List Vec2) (p : Vec2) : Bool :=
  (List.range vs.length).all (fun i =>
    decide (0 ≤ cross (vs.getD (nextIndex vs.length i) 0 - vs.getD i 0) (p - vs.getD i 0)))

/-- The two world-space shapes touch: they have a point in common, and some
line has the one shape on one side and the other shape on the other side, so
that their interiors are disjoint. -/
def Touching (wa wb : List Vec2) : Prop :=
  (∃ p, weaklyInside wa p = true ∧ weaklyInside wb p = true) ∧
  ∃ (nv : Vec2) (k : ℚ), nv ≠ 0 ∧ (∀ v ∈ wa, dot v nv ≤ k) ∧ (∀ w ∈ wb, k ≤ dot w nv)

/-- The closed vertex list is convex and counter-clockwise: every vertex is on
or to the left of every edge. -/
def ConvexCCW (vs : List Vec2) : Prop :=
  ∀ i, i < vs.length → ∀ j, j < vs.length →
    0 ≤ cross (vs.getD (nextIndex vs.length i) 0 - vs.getD i 0) (vs.getD j 0 - vs.getD i 0)

instance (vs : List Vec2) : Decidable (ConvexCCW vs) := by
  unfold ConvexCCW; infer_instance

/-- The mean of the vertices. -/
def meanPoint (vs : List Vec2) : Vec2 :=
  ((1 : ℚ) / vs.length) • ⟨sumRange (fun j => (vs.getD j 0).x) vs.length,
    sumRange (fun j => (vs.getD j 0).y) vs.length⟩

/-! ## Floating-point numbers -/

/-- A floating-point value: a finite number, an infinity or NaN. The sign of
zero is not kept. -/
inductive Fl where
  | fin (q : ℚ)
  | pinf
  | ninf
  | nan
deriving DecidableEq

/-- A binary floating-point format: the number of significand bits, and the
exponents of the least positive value `2^-minExp` and of the overflow
threshold `2^maxExp`. -/
structure Format where
  prec : Nat
  minExp : Nat
  maxExp : Nat

/-- The format of `float`. -/
def binary32 : Format := ⟨24, 149, 128⟩

/-- The format of `double`. -/
def binary64 : Format := ⟨53, 1074, 1024⟩

/-- The position of the leading bit of `n`, found in at most `fuel` halvings. -/
def log2Fuel : Nat → Nat → Nat
  | 0, _ => 0
  | fuel + 1, n => if n < 2 then 0 else log2Fuel fuel (n / 2) + 1

/-- The position of the leading bit of `n`: `2^(ilog2 n) ≤ n < 2^(ilog2 n + 1)`
for `n ≥ 1`. -/
def ilog2 (n : Nat) : Nat := log2Fuel n n

/-- The spacing of the format at magnitude `a ≥ 0`: `2^j` times the least
positive value, with `j` the number of bits by which `a`, counted in least
positive values, exceeds the significand. -/
def ulp (f : Format) (a : ℚ) : ℚ :=
  2 ^ (ilog2 ⌊a * 2 ^ f.minExp⌋₊ + 1 - f.prec) / 2 ^ f.minExp

/-- The integer nearest to `x`, the even one at a tie. -/
def roundHalfEven (x : ℚ) : ℤ :=
  if x - ⌊x⌋ < 1 / 2 then ⌊x⌋
  else if 1 / 2 < x - ⌊x⌋ then ⌊x⌋ + 1
  else if ⌊x⌋ % 2 = 0 then ⌊x⌋ else ⌊x⌋ + 1

namespace Fl

/-- Rounding of a rational to the format, to nearest with ties to even:
overflow gives an infinity. -/
def round (f : Format) (q : ℚ) : Fl :=
  if 2 ^ f.maxExp ≤ (roundHalfEven (|q| / ulp f |q|) : ℚ) * ulp f |q| then
    (if 0 < q then pinf else ninf)
  else if 0 ≤ q then fin ((roundHalfEven (|q| / ulp f |q|) : ℚ) * ulp f |q|)
  else fin (-((roundHalfEven (|q| / ulp f |q|) : ℚ) * ulp f |q|))

/-- Conversion of a value to the format. -/
def cast (f : Format) : Fl → Fl
  | fin q => round f q
  | x => x

/-- Negation. -/
def neg : Fl → Fl
  | fin q => fin (-q)
  | pinf => ninf
  | ninf => pinf
  | nan => nan

/-- Addition in the format. -/
def add (f : Format) : Fl → Fl → Fl
  | fin a, fin b => round f (a + b)
  | nan, _ => nan
  | _, nan => nan
  | pinf, ninf => nan
  | ninf, pinf => nan
  | pinf, _ => pinf
  | _, pinf => pinf
  | ninf, _ => ninf
  | _, ninf => ninf

/-- Subtraction in the format. -/
def sub (f : Format) (a b : Fl) : Fl := add f a (neg b)

/-- The product of an infinity of the given sign (`true` for positive) and a
finite number. -/
def infTimes (positive : Bool) (b : ℚ) : Fl :=
  if b = 0 then nan else if decide (0 < b) = positive then pinf else ninf

/-- Multiplication in the format. -/
def mul (f : Format) : Fl → Fl → Fl
  | fin a, fin b => round f (a * b)
  | nan, _ => nan
  | _, nan => nan
  | pinf, fin b => infTimes true b
  | ninf, fin b => infTimes false b
  | fin a, pinf => infTimes true a
  | fin a, ninf => infTimes false a
  | pinf, pinf => pinf
  | ninf, ninf => pinf
  | pinf, ninf => ninf
  | ninf, pinf => ninf

/-- Division in the format; a zero divisor is taken as positive zero. -/
def div (f : Format) : Fl → Fl → Fl
  | fin a, fin b =>
    if b = 0 then (if a = 0 then nan else if 0 < a then pinf else ninf) else round f (a / b)
  | nan, _ => nan
  | _, nan => nan
  | fin _, pinf => fin 0
  | fin _, ninf => fin 0
  | pinf, fin b => if 0 ≤ b then pinf else ninf
  | ninf, fin b => if 0 ≤ b then ninf else pinf
  | _, _ => nan

/-- The comparison `a < b`: false when an operand is NaN. -/
def lt : Fl → Fl → Bool
  | fin a, fin b => decide (a < b)
  | fin _, pinf => true
  | ninf, fin _ => true
  | ninf, pinf => true
  | _, _ => false

/-- The comparison `a <= b`: false when an operand is NaN. -/
def le : Fl → Fl → Bool
  | fin a, fin b => decide (a ≤ b)
  | fin _, pinf => true
  | ninf, fin _ => true
  | ninf, pinf => true
  | pinf, pinf => true
  | ninf, ninf => true
  | _, _ => false

/-- The comparison `a == b`: false when an operand is NaN. -/
def eq : Fl → Fl → Bool
  | fin a, fin b => decide (a = b)
  | pinf, pinf => true
  | ninf, ninf => true
  | _, _ => false

/-- The absolute value. -/
def abs : Fl → Fl
  | fin q => fin |q|
  | pinf => pinf
  | ninf => pinf
  | nan => nan

/-- The function `glm::sign`: `(0 < x) - (x < 0)`. -/
def sign (x : Fl) : Fl :=
  if lt (fin 0) x then fin 1 else if lt x (fin 0) then fin (-1) else fin 0

end Fl

/-- The type `fvec2`: a vector of two floats. -/
structure FVec2 where
  x : Fl
  y : Fl
deriving DecidableEq

namespace FVec2

/-- The zero vector, the value of `fvec2()`. -/
def zero : FVec2 := ⟨Fl.fin 0, Fl.fin 0⟩

instance : Inhabited FVec2 := ⟨zero⟩

/-- The operator `+` of `fvec2`. -/
def add (a b : FVec2) : FVec2 := ⟨Fl.add binary32 a.x b.x, Fl.add binary32 a.y b.y⟩

/-- The operator `-` of `fvec2`. -/
def sub (a b : FVec2) : FVec2 := ⟨Fl.sub binary32 a.x b.x, Fl.sub binary32 a.y b.y⟩

/-- The product of an `fvec2` and a float. -/
def scale (a : FVec2) (k : Fl) : FVec2 := ⟨Fl.mul binary32 a.x k, Fl.mul binary32 a.y k⟩

/-- The operator `==` of `fvec2`: both components compare equal. -/
def eq (a b : FVec2) : Bool := Fl.eq a.x b.x && Fl.eq a.y b.y

/-- The function `glm::dot` on `fvec2`. -/
def dot (a b : FVec2) : Fl :=
  Fl.add binary32 (Fl.mul binary32 a.x b.x) (Fl.mul binary32 a.y b.y)

/-- Modelled from the spec: `Vector2Util::cross` is not among the sources. The
value `a.x * b.y - a.y * b.x` is computed in the format `f`, which is
`binary32` when the function works on `fvec2` and `binary64` when it works on
`dvec2`, and stored in a `float`. -/
def cross (f : Format) (a b : FVec2) : Fl :=
  Fl.cast binary32 (Fl.sub f (Fl.mul f a.x b.y) (Fl.mul f a.y b.x))

end FVec2

/-- The float vector with the given finite components. -/
def Vec2.toF (v : Vec2) : FVec2 := ⟨Fl.fin v.x, Fl.fin v.y⟩

/-- The number is a value of the format: rounding leaves it as it is. -/
def Representable (f : Format) (q : ℚ) : Prop := Fl.round f q = Fl.fin q

instance (f : Format) (q : ℚ) : Decidable (Representable f q) := by
  unfold Representable; infer_instance

/-! ## Polygon.cpp in float arithmetic -/

namespace Fp

/-- Modelled from the spec: `Transform2` in float arithmetic, a rotation
stored as cosine and sine, followed by a translation. -/
structure Transform2 where
  cos : Fl := Fl.fin 1
  sin : Fl := Fl.fin 0
  translation : FVec2 := FVec2.zero

/-- Modelled from the spec: `getTransformed` and the in-place `transform`,
rotate then translate; the result is an `fvec2`, so that a coordinate beyond
the range of `float` is infinite. -/
def Transform2.getTransformed (t : Transform2) (p : FVec2) : FVec2 :=
  ⟨Fl.add binary32 (Fl.sub binary32 (Fl.mul binary32 t.cos p.x) (Fl.mul binary32 t.sin p.y))
      t.translation.x,
   Fl.add binary32 (Fl.add binary32 (Fl.mul binary32 t.sin p.x) (Fl.mul binary32 t.cos p.y))
      t.translation.y⟩

/-- Modelled from the spec: `getInverseTransformedR`, the inverse rotation
applied to a direction. -/
def Transform2.getInverseTransformedR (t : Transform2) (d : FVec2) : FVec2 :=
  ⟨Fl.add binary32 (Fl.mul binary32 t.cos d.x) (Fl.mul binary32 t.sin d.y),
   Fl.add binary32 (Fl.mul binary32 (Fl.neg t.sin) d.x) (Fl.mul binary32 t.cos d.y)⟩

/-- The data members of `Polygon`, in float. -/
structure Polygon where
  vertices : List FVec2
  center : FVec2
deriving DecidableEq

/-- The constant `std::numeric_limits<float>::epsilon()`. -/
def epsilon : Fl := Fl.fin (1 / 2 ^ 23)

/-- One round of the loop of `Polygon::valid` in float arithmetic, with `k`
rounds left to run at index `i`; `f` is the format of `Vector2Util::cross`. -/
def validLoop (f : Format) (vertices : List FVec2) (size : Nat) : Nat → Nat → Fl → Fl → Bool
  | 0, _, area, _ => Fl.le (Fl.fin 0) area
  | k + 1, i, area, sgn =>
    let p0 := if i = 0 then vertices.getD (size - 1) default else vertices.getD (i - 1) default
    let p1 := vertices.getD i default
    let p2 := if i + 1 = size then vertices.getD 0 default else vertices.getD (i + 1) default
    if FVec2.eq p1 p2 then false
    else
      let cr := FVec2.cross f (FVec2.sub p1 p0) (FVec2.sub p2 p1)
      let tsign := Fl.sign cr
      let area1 := Fl.add binary32 area cr
      if Fl.lt epsilon (Fl.abs cr) = true ∧ Fl.eq sgn (Fl.fin 0) = false ∧
          Fl.eq tsign sgn = false
      then false
      else validLoop f vertices size k (i + 1) area1 tsign

/-- The method `Polygon::valid` in float arithmetic, on the vertex list; `f`
is the format of `Vector2Util::cross`. -/
def validVertices (f : Format) (vertices : List FVec2) : Bool :=
  if vertices.length < 3 then false
  else validLoop f vertices vertices.length vertices.length 0 (Fl.fin 0) (Fl.fin 0)

/-- The method `Polygon::valid` in float arithmetic. -/
def Polygon.valid (p : Polygon) (f : Format) : Bool := validVertices f p.vertices

/-- The constant `INV_3`, the float nearest to the double `1.0 / 3.0`. -/
def INV_3 : Fl := Fl.cast binary32 (Fl.div binary64 (Fl.fin 1) (Fl.fin 3))

/-- The body of the second loop of `calcAreaWeightedCenter` in float
arithmetic: the state is `(center, area)`. The product `0.5 * d` is taken in
double, where it is exact, and converted to float. -/
def centerStep (points : List FVec2) (ac : FVec2) (st : FVec2 × Fl) (i : Nat) : FVec2 × Fl :=
  let p1 := FVec2.sub (points.getD i default) ac
  let p2 := FVec2.sub
    (if i + 1 < points.length then points.getD (i + 1) default else points.getD 0 default) ac
  let d := Fl.sub binary32 (Fl.mul binary32 p1.x p2.y) (Fl.mul binary32 p1.y p2.x)
  let triangleArea := Fl.cast binary32 (Fl.mul binary64 (Fl.fin (1 / 2)) d)
  (FVec2.add st.1 (FVec2.scale (FVec2.scale (FVec2.add p1 p2) INV_3) triangleArea),
    Fl.add binary32 st.2 triangleArea)

/-- The function `Polygon::calcAreaWeightedCenter` in float arithmetic. The
factors `1.0 / size` and `1.0 / area` are double quotients converted to
float. -/
def calcAreaWeightedCenter (points : List FVec2) : FVec2 :=
  let size := points.length
  if size = 1 then points.getD 0 default
  else
    let ac := FVec2.scale (points.foldl FVec2.add FVec2.zero)
      (Fl.cast binary32 (Fl.div binary64 (Fl.fin 1) (Fl.fin size)))
    let st := (List.range size).foldl (centerStep points ac) (FVec2.zero, Fl.fin 0)
    if Fl.le (Fl.abs st.2) epsilon then points.getD 0 default
    else
      FVec2.add
        (FVec2.scale st.1 (Fl.cast binary32 (Fl.div binary64 (Fl.fin 1) st.2))) ac

/-- The constructor `Polygon(type, points)` in float arithmetic. -/
def Polygon.construct (f : Format) (points : List FVec2) : Option Polygon :=
  if validVertices f points then some ⟨points, calcAreaWeightedCenter points⟩ else none

/-- The constructor `Polygon(type, center, points)` in float arithmetic. -/
def Polygon.constructCentered (f : Format) (center : FVec2) (points : List FVec2) :
    Option Polygon :=
  if validVertices f points then some ⟨points, center⟩ else none

/-- The factory `Polygon::createPolygon` in float arithmetic. -/
def createPolygon (f : Format) (points : List FVec2) : Option Polygon :=
  Polygon.construct f points

/-- The factory `Polygon::createTriangle` in float arithmetic. -/
def createTriangle (f : Format) (point1 point2 point3 : FVec2) : Option Polygon :=
  Polygon.construct f [point1, point2, point3]

/-- The conversion to float of the double product `x * 0.5`, which is exact
in double for a float `x`. -/
def half (x : Fl) : Fl :=
  match x with
  | Fl.fin q => Fl.round binary32 (q * (1 / 2))
  | y => y

/-- The factory `Polygon::createRectangle` in float arithmetic. -/
def createRectangle (f : Format) (width height : Fl) : Option Polygon :=
  if Fl.lt (Fl.fin 0) width = true ∧ Fl.lt (Fl.fin 0) height = true then
    Polygon.constructCentered f FVec2.zero
      [⟨half (Fl.neg width), half (Fl.neg height)⟩, ⟨half width, half (Fl.neg height)⟩,
       ⟨half width, half height⟩, ⟨half (Fl.neg width), half height⟩]
  else none

/-- The body of the scan of `getFarthestPoint` in float arithmetic: the state
is `(point, max)`. -/
def farthestStep (localn : FVec2) (st : FVec2 × Fl) (v : FVec2) : FVec2 × Fl :=
  if Fl.lt st.2 (FVec2.dot localn v) then (v, FVec2.dot localn v) else st

/-- The method `Polygon::getFarthestPoint` in float arithmetic. -/
def Polygon.getFarthestPoint (p : Polygon) (direction : FVec2) (transform : Transform2) :
    FVec2 :=
  let localn := transform.getInverseTransformedR direction
  let v0 := p.vertices.headD default
  let st := p.vertices.tail.foldl (farthestStep localn) (v0, FVec2.dot localn v0)
  transform.getTransformed st.1

end Fp

/-- The turn at vertex `i` is computed without rounding before the final
subtraction: the differences `p1 - p0`, `p2 - p1` are values of the float
format and the two products of the cross product are values of the format `f`
of `Vector2Util::cross`. -/
def ExactTurn (f : Format) (vs : List Vec2) (i : Nat) : Prop :=
  Representable binary32
    ((vs.getD i 0).x - (if i = 0 then vs.getD (vs.length - 1) 0 else vs.getD (i - 1) 0).x) ∧
  Representable binary32
    ((vs.getD i 0).y - (if i = 0 then vs.getD (vs.length - 1) 0 else vs.getD (i - 1) 0).y) ∧
  Representable binary32
    ((if i + 1 = vs.length then vs.getD 0 0 else vs.getD (i + 1) 0).x - (vs.getD i 0).x) ∧
  Representable binary32
    ((if i + 1 = vs.length then vs.getD 0 0 else vs.getD (i + 1) 0).y - (vs.getD i 0).y) ∧
  Representable f
    (((vs.getD i 0).x - (if i = 0 then vs.getD (vs.length - 1) 0 else vs.getD (i - 1) 0).x) *
      ((if i + 1 = vs.length then vs.getD 0 0 else vs.getD (i + 1) 0).y - (vs.getD i 0).y)) ∧
  Representable f
    (((vs.getD i 0).y - (if i = 0 then vs.getD (vs.length - 1) 0 else vs.getD (i - 1) 0).y) *
      ((if i + 1 = vs.length then vs.getD 0 0 else vs.getD (i + 1) 0).x - (vs.getD i 0).x))

instance (f : Format) (vs : List Vec2) (i : Nat) : Decidable (ExactTurn f vs i) := by
  unfold ExactTurn; infer_instance

/-! ## Notions for runs that reach the segment case -/

/-- Both origin tests that precede the first call of `checkSimplex` pass: the
first two support points are past the origin along their directions, so that
the loop reaches the segment case. -/
def SegmentReached (m : MinkowskiSum) (direction : Vec2) : Prop :=
  0 < dot (m.getSupportPoint (firstDirection direction)) (firstDirection direction) ∧
  0 < dot (m.getSupportPoint (-(firstDirection direction))) (-(firstDirection direction))

instance (m : MinkowskiSum) (direction : Vec2) : Decidable (SegmentReached m direction) := by
  unfold SegmentReached; infer_instance

/-- The direction that the segment case of `checkSimplex` leaves in the first
round of the loop: the triple product, or `left(ab)` when the squared
magnitude of the triple product is at most the epsilon. -/
def firstSegmentDirection (m : MinkowskiSum) (direction : Vec2) : Vec2 :=
  if magnitudeSquared (firstSegmentNormal m direction) ≤ epsilonDouble then
    left (m.getSupportPoint (firstDirection direction) -
      m.getSupportPoint (-(firstDirection direction)))
  else firstSegmentNormal m direction

/-- When the run reaches the segment case, the direction that `checkSimplex`
leaves there does not point away from the origin: its dot product with
`ao = -a`, `a` the newest support point, is non-negative. -/
def SegmentToward (m : MinkowskiSum) (direction : Vec2) : Prop :=
  SegmentReached m direction →
    0 ≤ dot (firstSegmentDirection m direction) (-(m.getSupportPoint (-(firstDirection direction))))

instance (m : MinkowskiSum) (direction : Vec2) : Decidable (SegmentToward m direction) := by
  unfold SegmentToward; infer_instance

/-- When the run reaches the segment case, the direction that `checkSimplex`
leaves there points to the side of the origin: its dot product with `ao` is
positive. -/
def SegmentStrictlyToward (m : MinkowskiSum) (direction : Vec2) : Prop :=
  SegmentReached m direction →
    0 < dot (firstSegmentDirection m direction) (-(m.getSupportPoint (-(firstDirection direction))))

instance (m : MinkowskiSum) (direction : Vec2) :
    Decidable (SegmentStrictlyToward m direction) := by
  unfold SegmentStrictlyToward; infer_instance

instance (m : MinkowskiSum) (direction : Vec2) : Decidable (SegmentClear m direction) := by
  unfold SegmentClear; infer_instance

/-! ## The detector in floating-point arithmetic -/

namespace Fd

/-- Modelled from the spec: the difference of two vectors of the detector, in
the format `g` of these vectors (`dvec2` in the source file of the detector,
`fvec2` in its header). -/
def sub (g : Format) (a b : FVec2) : FVec2 := ⟨Fl.sub g a.x b.x, Fl.sub g a.y b.y⟩

/-- Modelled from the spec: the negation of a vector of the detector. -/
def neg (a : FVec2) : FVec2 := ⟨Fl.neg a.x, Fl.neg a.y⟩

/-- Modelled from the spec: the product of a vector of the detector and a
scalar. -/
def scale (g : Format) (a : FVec2) (k : Fl) : FVec2 := ⟨Fl.mul g a.x k, Fl.mul g a.y k⟩

/-- Modelled from the spec: the dot product of two vectors of the detector. -/
def dot (g : Format) (a b : FVec2) : Fl := Fl.add g (Fl.mul g a.x b.x) (Fl.mul g a.y b.y)

/-- Modelled from the spec: `Vector2Util::magnitudeSquared`. -/
def magnitudeSquared (g : Format) (a : FVec2) : Fl := dot g a a

/-- Modelled from the spec: `Vector2Util::left`, as `left` in exact
arithmetic. -/
def left (a : FVec2) : FVec2 := ⟨a.y, Fl.neg a.x⟩

/-- Modelled from the spec: `Vector2Util::isZero`. -/
def isZero (a : FVec2) : Bool := Fl.eq a.x (Fl.fin 0) && Fl.eq a.y (Fl.fin 0)

/-- Modelled from the spec: `Vector2Util::tripleProduct`, as `tripleProduct` in
exact arithmetic, `b * dot(a, c) - a * dot(b, c)`. -/
def tripleProduct (g : Format) (a b c : FVec2) : FVec2 :=
  sub g (scale g b (dot g a c)) (scale g a (dot g b c))

/-- The conversion of a vector of the detector to `fvec2`, at the call of
`getFarthestPoint`. -/
def toFloat (a : FVec2) : FVec2 := ⟨Fl.cast binary32 a.x, Fl.cast binary32 a.y⟩

/-- The interface `Convex` in float arithmetic: a center and a support
mapping. -/
structure Convex where
  getCenter : FVec2
  getFarthestPoint : FVec2 → Fp.Transform2 → FVec2

/-- Modelled from the spec: `MinkowskiSum` in float arithmetic. -/
structure MinkowskiSum where
  convex1 : Convex
  transform1 : Fp.Transform2
  convex2 : Convex
  transform2 : Fp.Transform2

/-- Modelled from the spec: `MinkowskiSum::getSupportPoint`,
`support(d) = farthest(A, d, tA) − farthest(B, −d, tB)`, the difference taken
in the format of the detector. -/
def MinkowskiSum.getSupportPoint (g : Format) (m : MinkowskiSum) (direction : FVec2) : FVec2 :=
  sub g (m.convex1.getFarthestPoint (toFloat direction) m.transform1)
    (m.convex2.getFarthestPoint (toFloat (neg direction)) m.transform2)

/-- The method `GJKCollisionDetector::checkSimplex` in floating-point
arithmetic: the result is the returned flag together with the simplex and the
direction as the call leaves them. A comparison with a NaN operand is
false. -/
def checkSimplex (g : Format) (simplex : List FVec2) (direction : FVec2) :
    Bool × List FVec2 × FVec2 :=
  let a := simplex.getLastD default
  let ao := neg a
  if simplex.length = 3 then
    let b := simplex.getD 1 default
    let c := simplex.getD 0 default
    let ab := sub g b a
    let ac := sub g c a
    let abPerp := tripleProduct g ac ab ab
    let acPerp := tripleProduct g ab ac ac
    let acLocation := dot g acPerp ao
    if Fl.le (Fl.fin 0) acLocation then
      (false, simplex.eraseIdx 1, acPerp)
    else
      let abLocation := dot g abPerp ao
      if Fl.lt abLocation (Fl.fin 0) then (true, simplex, direction)
      else (false, simplex.eraseIdx 0, abPerp)
  else
    let b := simplex.getD 0 default
    let ab := sub g b a
    let direction1 := tripleProduct g ab ao ab
    if Fl.le (magnitudeSquared g direction1) (Fl.fin (1 / 2 ^ 52)) then (false, simplex, left ab)
    else (false, simplex, direction1)

/-- The `while (true)` loop of `detect` in floating-point arithmetic, run for
at most the given number of rounds: `none` when the rounds are used up before
the loop returns. -/
def detectLoop (g : Format) (m : MinkowskiSum) :
    Nat → List FVec2 → FVec2 → Option (Bool × List FVec2)
  | 0, _, _ => none
  | fuel + 1, simplex, direction =>
    let simplex1 := simplex ++ [m.getSupportPoint g direction]
    let lastPoint := simplex1.getLastD default
    if Fl.le (dot g lastPoint direction) (Fl.fin 0) then some (false, simplex1)
    else
      let r := checkSimplex g simplex1 direction
      if r.1 then some (true, r.2.1) else detectLoop g m fuel r.2.1 r.2.2

/-- The method `detect(minkowskiSum, simplex, direction)` in floating-point
arithmetic. -/
def detectCore (g : Format) (m : MinkowskiSum) (fuel : Nat) (simplex : List FVec2)
    (direction : FVec2) : Option (Bool × List FVec2) :=
  let direction1 := if isZero direction then (⟨Fl.fin 1, Fl.fin 0⟩ : FVec2) else direction
  let simplex1 := simplex ++ [m.getSupportPoint g direction1]
  if Fl.le (dot g (simplex1.getD 0 default) direction1) (Fl.fin 0) then some (false, simplex1)
  else detectLoop g m fuel simplex1 (neg direction1)

/-- The method `calcInitialDirection` in floating-point arithmetic. -/
def calcInitialDirection (g : Format) (convex1 : Convex) (transform1 : Fp.Transform2)
    (convex2 : Convex) (transform2 : Fp.Transform2) : FVec2 :=
  sub g (transform2.getTransformed convex2.getCenter)
    (transform1.getTransformed convex1.getCenter)

/-- The method `detect(convex1, transform1, convex2, transform2)` in
floating-point arithmetic. -/
def detect (g : Format) (fuel : Nat) (convex1 : Convex) (transform1 : Fp.Transform2)
    (convex2 : Convex) (transform2 : Fp.Transform2) : Option Bool :=
  (detectCore g ⟨convex1, transform1, convex2, transform2⟩ fuel []
    (calcInitialDirection g convex1 transform1 convex2 transform2)).map Prod.fst

end Fd

/-- A float polygon seen through the `Convex` interface. -/
def Fp.Polygon.toConvex (p : Fp.Polygon) : Fd.Convex := ⟨p.center, p.getFarthestPoint⟩

/-- The rectangle with corners `(±3 * 2^125, ±2^125)`, the result of
`createRectangle(6 * 2^125, 2^126)`. -/
def wideRectangle : Fp.Polygon :=
  ⟨[⟨Fl.fin (-(3 * 2 ^ 125)), Fl.fin (-(2 ^ 125))⟩, ⟨Fl.fin (3 * 2 ^ 125), Fl.fin (-(2 ^ 125))⟩,
    ⟨Fl.fin (3 * 2 ^ 125), Fl.fin (2 ^ 125)⟩, ⟨Fl.fin (-(3 * 2 ^ 125)), Fl.fin (2 ^ 125)⟩],
    FVec2.zero⟩

/-- The translation by `(-5 * 2^125, 0)`. -/
def farLeft : Fp.Transform2 := { translation := ⟨Fl.fin (-(5 * 2 ^ 125)), Fl.fin 0⟩ }

/-! ## Vector algebra -/

@[simp] theorem Vec2.add_x (a b : Vec2) : (a + b).x = a.x + b.x := rfl
@[simp] theorem Vec2.add_y (a b : Vec2) : (a + b).y = a.y + b.y := rfl
@[simp] theorem Vec2.sub_x (a b : Vec2) : (a - b).x = a.x - b.x := rfl
@[simp] theorem Vec2.sub_y (a b : Vec2) : (a - b).y = a.y - b.y := rfl
@[simp] theorem Vec2.neg_x (a : Vec2) : (-a).x = -a.x := rfl
@[simp] theorem Vec2.neg_y (a : Vec2) : (-a).y = -a.y := rfl
@[simp] theorem Vec2.smul_x (k : ℚ) (a : Vec2) : (k • a).x = k * a.x := rfl
@[simp] theorem Vec2.smul_y (k : ℚ) (a : Vec2) : (k • a).y = k * a.y := rfl
@[simp] theorem Vec2.zero_x : (0 : Vec2).x = 0 := rfl
@[simp] theorem Vec2.zero_y : (0 : Vec2).y = 0 := rfl

theorem Vec2.neg_neg_eq (a : Vec2) : -(-a) = a := by
  ext <;> simp

theorem Vec2.eq_zero_iff (a : Vec2) : a = 0 ↔ a.x = 0 ∧ a.y = 0 := by
  constructor
  · rintro rfl; exact ⟨rfl, rfl⟩
  · rintro ⟨h1, h2⟩; ext <;> simp [h1, h2]

/-! ## The support scan of a polygon -/

/-- The projection tested in local space orders the vertices as their world
images are ordered along the direction. -/
theorem dot_local_eq (t : Transform2) (d v : Vec2) :
    dot (t.getTransformed v) d = dot (t.getInverseTransformedR d) v + dot t.translation d := by
  simp only [dot, Transform2.getTransformed, Transform2.getInverseTransformedR]
  ring

theorem farthest_foldl (localn : Vec2) (l : List Vec2) (p : Vec2) :
    (l.foldl (farthestStep localn) (p, dot localn p)).1 ∈ p :: l ∧
    (l.foldl (farthestStep localn) (p, dot localn p)).2 =
      dot localn (l.foldl (farthestStep localn) (p, dot localn p)).1 ∧
    ∀ w ∈ p :: l, dot localn w ≤ (l.foldl (farthestStep localn) (p, dot localn p)).2 := by
  induction l generalizing p with
  | nil => simp
  | cons v l ih =>
    simp only [List.foldl_cons, farthestStep]
    split_ifs with h
    · obtain ⟨h1, h2, h3⟩ := ih v
      refine ⟨?_, h2, ?_⟩
      · rcases List.mem_cons.1 h1 with h1 | h1
        · rw [h1]; simp
        · exact List.mem_cons_of_mem _ (List.mem_cons_of_mem _ h1)
      · intro w hw
        rcases List.mem_cons.1 hw with rfl | hw
        · exact le_trans (le_of_lt h) (h3 v (List.mem_cons_self _ _))
        · exact h3 w hw
    · obtain ⟨h1, h2, h3⟩ := ih p
      refine ⟨?_, h2, ?_⟩
      · rcases List.mem_cons.1 h1 with h1 | h1
        · rw [h1]; simp
        · exact List.mem_cons_of_mem _ (List.mem_cons_of_mem _ h1)
      · intro w hw
        rcases List.mem_cons.1 hw with rfl | hw
        · exact h3 w (List.mem_cons_self _ _)
        · rcases List.mem_cons.1 hw with rfl | hw
          · exact le_trans (not_lt.1 h) (h3 p (List.mem_cons_self _ _))
          · exact h3 w (List.mem_cons_of_mem _ hw)

/-- On a polygon with at least one vertex, `getFarthestPoint` returns the world
image of a vertex whose world image is farthest along the direction. -/
theorem getFarthestPoint_spec (p : Polygon) (d : Vec2) (t : Transform2) (hne : p.vertices ≠ []) :
    ∃ v ∈ p.vertices, p.getFarthestPoint d t = t.getTransformed v ∧
      ∀ w ∈ p.vertices, dot (t.getTransformed w) d ≤ dot (t.getTransformed v) d := by
  obtain ⟨v0, l, hvl⟩ := List.exists_cons_of_ne_nil hne
  obtain ⟨h1, h2, h3⟩ := farthest_foldl (t.getInverseTransformedR d) l v0
  refine ⟨(l.foldl (farthestStep (t.getInverseTransformedR d))
      (v0, dot (t.getInverseTransformedR d) v0)).1, ?_, ?_, ?_⟩
  · rw [hvl]; exact h1
  · simp [Polygon.getFarthestPoint, hvl]
  · intro w hw
    rw [dot_local_eq, dot_local_eq, ← h2]
    rw [hvl] at hw
    linarith [h3 w hw]

theorem validVertices_length (vs : List Vec2) (h : validVertices vs = true) : 3 ≤ vs.length := by
  unfold validVertices at h
  split_ifs at h with h1
  omega

theorem validVertices_ne_nil (vs : List Vec2) (h : validVertices vs = true) : vs ≠ [] := by
  have := validVertices_length vs h
  intro h0
  rw [h0] at this
  simp at this

/-! ## Validation -/

/-- C9: the vertex list (0,0),(2,0),(1,3),(1,2),(1,1) is accepted by
`Polygon::valid` and so by `createPolygon`, although its last vertex is a
reflex vertex (its turn is negative): the convexity test remembers only the
sign of the turn just before, and the collinear vertex (1,2) resets it. -/
theorem valid_accepts_reflex :
    validVertices [⟨0, 0⟩, ⟨2, 0⟩, ⟨1, 3⟩, ⟨1, 2⟩, ⟨1, 1⟩] = true ∧
    (createPolygon [⟨0, 0⟩, ⟨2, 0⟩, ⟨1, 3⟩, ⟨1, 2⟩, ⟨1, 1⟩]).isSome = true ∧
    turnAt [⟨0, 0⟩, ⟨2, 0⟩, ⟨1, 3⟩, ⟨1, 2⟩, ⟨1, 1⟩] 3 = 0 ∧
    turnAt [⟨0, 0⟩, ⟨2, 0⟩, ⟨1, 3⟩, ⟨1, 2⟩, ⟨1, 1⟩] 4 = -1 ∧
    0 < signedArea [⟨0, 0⟩, ⟨2, 0⟩, ⟨1, 3⟩, ⟨1, 2⟩, ⟨1, 1⟩] := by
  decide!

/-! ## The center of a polygon -/

theorem sumRange_succ_front (f : Nat → ℚ) (n : Nat) :
    sumRange f (n + 1) = f 0 + sumRange (fun i => f (i + 1)) n := by
  induction n with
  | zero => simp [sumRange]
  | succ n ih =>
    rw [sumRange, ih, sumRange]
    ring

theorem sumRange_congr (f g : Nat → ℚ) (n : Nat) (h : ∀ i, i < n → f i = g i) :
    sumRange f n = sumRange g n := by
  induction n with
  | zero => rfl
  | succ n ih =>
    rw [sumRange, sumRange, ih (fun i hi => h i (Nat.lt_succ_of_lt hi)), h n (Nat.lt_succ_self n)]

theorem sumRange_add (f g : Nat → ℚ) (n : Nat) :
    sumRange (fun i => f i + g i) n = sumRange f n + sumRange g n := by
  induction n with
  | zero => simp [sumRange]
  | succ n ih => simp only [sumRange, ih]; ring

theorem sumRange_mul_left (k : ℚ) (f : Nat → ℚ) (n : Nat) :
    sumRange (fun i => k * f i) n = k * sumRange f n := by
  induction n with
  | zero => simp [sumRange]
  | succ n ih => simp only [sumRange, ih]; ring

/-- Going once round a closed list visits every vertex: a sum over the
successors is the sum over the vertices. -/
theorem sumRange_next (g : Nat → ℚ) (n : Nat) :
    sumRange (fun i => g (nextIndex n i)) n = sumRange g n := by
  cases n with
  | zero => rfl
  | succ n =>
    rw [sumRange_succ_front g n, sumRange]
    have h1 : sumRange (fun i => g (nextIndex (n + 1) i)) n = sumRange (fun i => g (i + 1)) n := by
      apply sumRange_congr
      intro i hi
      simp [nextIndex, hi]
    have h2 : nextIndex (n + 1) n = 0 := by simp [nextIndex]
    rw [h1, h2]
    ring

theorem sumRange_telescope (g : Nat → ℚ) (f h : Nat → ℚ) (n : Nat)
    (hfh : ∀ i, f i = h i + g (nextIndex n i) - g i) :
    sumRange f n = sumRange h n := by
  have e : sumRange f n = sumRange (fun i => (h i + g (nextIndex n i)) + (-1) * g i) n :=
    sumRange_congr _ _ _ (fun i _ => by rw [hfh i]; ring)
  rw [e, sumRange_add, sumRange_add, sumRange_mul_left, sumRange_next]
  ring

theorem centerStep_foldl (points : List Vec2) (ac : Vec2) (n : Nat) (st : Vec2 × ℚ) :
    (List.range n).foldl (centerStep points ac) st =
      (⟨st.1.x + sumRange (fun i => (1 / 6) *
            ((points.getD i 0 - ac) + (points.getD (nextIndex points.length i) 0 - ac)).x *
            cross (points.getD i 0 - ac) (points.getD (nextIndex points.length i) 0 - ac)) n,
        st.1.y + sumRange (fun i => (1 / 6) *
            ((points.getD i 0 - ac) + (points.getD (nextIndex points.length i) 0 - ac)).y *
            cross (points.getD i 0 - ac) (points.getD (nextIndex points.length i) 0 - ac)) n⟩,
       st.2 + sumRange (fun i => (1 / 2) *
            cross (points.getD i 0 - ac) (points.getD (nextIndex points.length i) 0 - ac)) n) := by
  induction n with
  | zero => simp [sumRange]
  | succ n ih =>
    rw [List.range_succ, List.foldl_append, ih]
    simp only [List.foldl_cons, List.foldl_nil, centerStep, sumRange, nextIndex, cross]
    split_ifs <;>
    · refine Prod.ext (Vec2.ext ?_ ?_) ?_ <;> simp <;> ring

/-- Shifting every vertex by `m` leaves the signed area unchanged. -/
theorem area_shift (points : List Vec2) (m : Vec2) :
    sumRange (fun i => (1 / 2) *
        cross (points.getD i 0 - m) (points.getD (nextIndex points.length i) 0 - m))
      points.length = signedArea points := by
  unfold signedArea
  rw [← sumRange_mul_left]
  apply sumRange_telescope (fun i => -(1 / 2) * cross m (points.getD i 0))
  intro i
  simp only [cross, Vec2.sub_x, Vec2.sub_y]
  ring

theorem centroid_shift_x (points : List Vec2) (m : Vec2) :
    sumRange (fun i => (points.getD i 0 + points.getD (nextIndex points.length i) 0).x *
        cross (points.getD i 0) (points.getD (nextIndex points.length i) 0)) points.length =
    6 * sumRange (fun i => (1 / 6) *
        ((points.getD i 0 - m) + (points.getD (nextIndex points.length i) 0 - m)).x *
        cross (points.getD i 0 - m) (points.getD (nextIndex points.length i) 0 - m))
      points.length + 6 * m.x * signedArea points := by
  rw [← area_shift points m, ← sumRange_mul_left, ← sumRange_mul_left, ← sumRange_add]
  apply sumRange_telescope (fun i => ((points.getD i 0).x + m.x) * cross m (points.getD i 0 - m))
  intro i
  simp only [cross, Vec2.sub_x, Vec2.sub_y, Vec2.add_x]
  ring

theorem centroid_shift_y (points : List Vec2) (m : Vec2) :
    sumRange (fun i => (points.getD i 0 + points.getD (nextIndex points.length i) 0).y *
        cross (points.getD i 0) (points.getD (nextIndex points.length i) 0)) points.length =
    6 * sumRange (fun i => (1 / 6) *
        ((points.getD i 0 - m) + (points.getD (nextIndex points.length i) 0 - m)).y *
        cross (points.getD i 0 - m) (points.getD (nextIndex points.length i) 0 - m))
      points.length + 6 * m.y * signedArea points := by
  rw [← area_shift points m, ← sumRange_mul_left, ← sumRange_mul_left, ← sumRange_add]
  apply sumRange_telescope (fun i => ((points.getD i 0).y + m.y) * cross m (points.getD i 0 - m))
  intro i
  simp only [cross, Vec2.sub_x, Vec2.sub_y, Vec2.add_y]
  ring

/-- Outside the zero-area guard, `calcAreaWeightedCenter` is the centroid
formula. -/
theorem calcAreaWeightedCenter_eq (points : List Vec2) (hlen : points.length ≠ 1)
    (harea : epsilonFloat < |signedArea points|) :
    calcAreaWeightedCenter points = centroidSpec points := by
  have hA : signedArea points ≠ 0 := by
    intro h0
    rw [h0, abs_zero] at harea
    exact absurd harea (by unfold epsilonFloat; norm_num)
  simp only [calcAreaWeightedCenter, if_neg hlen]
  generalize ((1 : ℚ) / (points.length : ℚ)) • points.foldl (fun acc p => acc + p) 0 = m
  rw [centerStep_foldl]
  simp only [area_shift, zero_add, if_neg (not_le.2 harea)]
  unfold centroidSpec
  rw [centroid_shift_x points m, centroid_shift_y points m]
  generalize sumRange (fun i => (1 / 6) *
      ((points.getD i 0 - m) + (points.getD (nextIndex points.length i) 0 - m)).x *
      cross (points.getD i 0 - m) (points.getD (nextIndex points.length i) 0 - m))
    points.length = sx
  generalize sumRange (fun i => (1 / 6) *
      ((points.getD i 0 - m) + (points.getD (nextIndex points.length i) 0 - m)).y *
      cross (points.getD i 0 - m) (points.getD (nextIndex points.length i) 0 - m))
    points.length = sy
  ext
  · simp only [Vec2.add_x, Vec2.smul_x, Vec2.zero_x, zero_add]
    field_simp
    ring
  · simp only [Vec2.add_y, Vec2.smul_y, Vec2.zero_y, zero_add]
    field_simp
    ring

theorem centroidSpec_triangle (p1 p2 p3 : Vec2) (hA : signedArea [p1, p2, p3] ≠ 0) :
    centroidSpec [p1, p2, p3] = ((1 : ℚ) / 3) • (p1 + p2 + p3) := by
  have hA2 : signedArea [p1, p2, p3] =
      (1 / 2) * (cross p1 p2 + cross p2 p3 + cross p3 p1) := by
    simp [signedArea, sumRange, nextIndex]
  have hD : cross p1 p2 + cross p2 p3 + cross p3 p1 ≠ 0 := by
    intro h0
    rw [hA2, h0] at hA
    simp at hA
  have hx : sumRange (fun i => (([p1, p2, p3] : List Vec2).getD i 0 +
      ([p1, p2, p3] : List Vec2).getD (nextIndex 3 i) 0).x *
      cross (([p1, p2, p3] : List Vec2).getD i 0)
        (([p1, p2, p3] : List Vec2).getD (nextIndex 3 i) 0)) 3 =
      (cross p1 p2 + cross p2 p3 + cross p3 p1) * (p1.x + p2.x + p3.x) := by
    simp [sumRange, nextIndex, cross]
    ring
  have hy : sumRange (fun i => (([p1, p2, p3] : List Vec2).getD i 0 +
      ([p1, p2, p3] : List Vec2).getD (nextIndex 3 i) 0).y *
      cross (([p1, p2, p3] : List Vec2).getD i 0)
        (([p1, p2, p3] : List Vec2).getD (nextIndex 3 i) 0)) 3 =
      (cross p1 p2 + cross p2 p3 + cross p3 p1) * (p1.y + p2.y + p3.y) := by
    simp [sumRange, nextIndex, cross]
    ring
  unfold centroidSpec
  rw [hA2]
  simp only [List.length_cons, List.length_nil, Nat.zero_add, Nat.reduceAdd]
  rw [hx, hy]
  generalize cross p1 p2 + cross p2 p3 + cross p3 p1 = D at hD
  ext
  · simp only [Vec2.add_x, Vec2.smul_x]
    field_simp
    ring
  · simp only [Vec2.add_y, Vec2.smul_y]
    field_simp
    ring

/-! ## The two overloads of detect -/

/-- C6: the penetration-reporting overload returns exactly what the plain
overload returns, whatever the solver and for every number of rounds (so it
returns if and only if the plain overload does); when the flag is false the
penetration argument is left as it was, and when it is true the argument is
what the penetration solver made of it. -/
theorem detectPenetration_spec
    (findPenetration : List Vec2 → MinkowskiSum → Penetration → Penetration)
    (fuel : Nat) (c1 : Convex) (t1 : Transform2) (c2 : Convex) (t2 : Transform2)
    (pen : Penetration) :
    (detectPenetration findPenetration fuel c1 t1 c2 t2 pen).map Prod.fst =
        detect fuel c1 t1 c2 t2 ∧
    (∀ pen1, detectPenetration findPenetration fuel c1 t1 c2 t2 pen = some (false, pen1) →
        pen1 = pen) ∧
    (∀ pen1, detectPenetration findPenetration fuel c1 t1 c2 t2 pen = some (true, pen1) →
        ∃ simplex, detectCore ⟨c1, t1, c2, t2⟩ fuel []
            (calcInitialDirection c1 t1 c2 t2) = some (true, simplex) ∧
          pen1 = findPenetration simplex ⟨c1, t1, c2, t2⟩ pen) := by
  simp only [detectPenetration, detect]
  rcases detectCore ⟨c1, t1, c2, t2⟩ fuel [] (calcInitialDirection c1 t1 c2 t2) with
    _ | ⟨b, simplex⟩
  · simp
  · cases b
    · refine ⟨rfl, ?_, ?_⟩
      · intro pen1 h
        simp only [Option.some.injEq, Prod.mk.injEq, true_and] at h
        exact h.symm
      · intro pen1 h
        simp at h
    · refine ⟨rfl, ?_, ?_⟩
      · intro pen1 h
        simp at h
      · intro pen1 h
        simp only [Option.some.injEq, Prod.mk.injEq, true_and] at h
        exact ⟨simplex, rfl, h.symm⟩

/-! ## Running the loop for longer -/

theorem detectLoop_mono (m : MinkowskiSum) (fuel k : Nat) (simplex : List Vec2) (direction : Vec2)
    (r : Bool × List Vec2) (h : detectLoop m fuel simplex direction = some r) :
    detectLoop m (fuel + k) simplex direction = some r := by
  induction fuel generalizing simplex direction with
  | zero => simp [detectLoop] at h
  | succ n ih =>
    rw [Nat.add_right_comm]
    simp only [detectLoop] at h ⊢
    split_ifs at h ⊢ with h1 h2
    · exact h
    · exact h
    · exact ih _ _ h

theorem detectCore_mono (m : MinkowskiSum) (fuel k : Nat) (simplex : List Vec2) (direction : Vec2)
    (r : Bool × List Vec2) (h : detectCore m fuel simplex direction = some r) :
    detectCore m (fuel + k) simplex direction = some r := by
  simp only [detectCore] at h ⊢
  split_ifs at h ⊢ <;> first | exact h | exact detectLoop_mono _ _ _ _ _ _ h

theorem detect_mono (fuel k : Nat) (c1 : Convex) (t1 : Transform2) (c2 : Convex) (t2 : Transform2)
    (r : Bool) (h : detect fuel c1 t1 c2 t2 = some r) :
    detect (fuel + k) c1 t1 c2 t2 = some r := by
  simp only [detect, Option.map_eq_some'] at h ⊢
  obtain ⟨a, ha, hr⟩ := h
  exact ⟨a, detectCore_mono _ _ _ _ _ _ ha, hr⟩

/-! ## Algebra of the simplex test -/

theorem tripleProduct_eq (a b c : Vec2) : tripleProduct a b c = cross a b • perp c := by
  ext <;> simp [tripleProduct, cross, perp, dot] <;> ring

/-- On the segment call the operand order does not matter: the triple product
used by `checkSimplex` and the formula written in the spec agree. -/
theorem tripleProduct_segment (ab ao : Vec2) :
    tripleProduct ab ao ab = tripleSpec ab ao ab := by
  ext <;> simp only [tripleProduct, tripleSpec, dot] <;> ring

/-- On the triangle calls the formula written in the spec would give the zero
vector, not an edge normal. -/
theorem tripleSpec_triangle (ab ac : Vec2) : tripleSpec ab ac ac = 0 := by
  ext <;> simp only [tripleSpec, dot, Vec2.zero_x, Vec2.zero_y] <;> ring

theorem left_eq (a : Vec2) : left a = (-1 : ℚ) • perp a := by
  ext <;> simp [left, perp]

theorem dot_smul_perp (k : ℚ) (v r : Vec2) : dot r (k • perp v) = k * cross v r := by
  simp [dot, cross, perp]; ring

theorem dot_zero_right (r : Vec2) : dot r 0 = 0 := by
  simp [dot]

theorem perp_ne_zero (v : Vec2) (h : v ≠ 0) : perp v ≠ 0 := by
  intro h0
  apply h
  have hx := congrArg Vec2.x h0
  have hy := congrArg Vec2.y h0
  simp [perp] at hx hy
  ext <;> simp [hx, hy]

theorem smul_perp_ne_zero (k : ℚ) (c b : Vec2) (hk : k ≠ 0) (hne : c ≠ b) :
    k • perp (c - b) ≠ 0 := by
  intro h0
  have hx := congrArg Vec2.x h0
  have hy := congrArg Vec2.y h0
  simp [perp, hk] at hx hy
  apply hne
  ext
  · linarith
  · linarith

/-- The three-point case of `checkSimplex`, on the simplex `[c, b, a]`. -/
theorem checkSimplex_three (c b a d : Vec2) :
    checkSimplex [c, b, a] d =
      if 0 ≤ cross (b - a) (c - a) * cross a c then
        (false, [c, a], cross (b - a) (c - a) • perp (c - a))
      else if cross (b - a) (c - a) * cross a b > 0 then (true, [c, b, a], d)
      else (false, [b, a], (-cross (b - a) (c - a)) • perp (b - a)) := by
  have e1 : dot (tripleProduct (b - a) (c - a) (c - a)) (-a) =
      cross (b - a) (c - a) * cross a c := by
    simp [tripleProduct, dot, cross]; ring
  have e2 : dot (tripleProduct (c - a) (b - a) (b - a)) (-a) =
      -(cross (b - a) (c - a) * cross a b) := by
    simp [tripleProduct, dot, cross]; ring
  have e3 : tripleProduct (c - a) (b - a) (b - a) = (-cross (b - a) (c - a)) • perp (b - a) := by
    rw [tripleProduct_eq]
    congr 1
    simp [cross]; ring
  simp only [checkSimplex, List.length_cons, List.length_nil, List.getLastD_cons,
    List.getLastD_nil, List.getD_cons_zero, List.getD_cons_succ, e1, e2]
  simp only [e3, tripleProduct_eq]
  simp [List.eraseIdx]

/-- The two-point case of `checkSimplex`, on the simplex `[b, a]`. -/
theorem checkSimplex_two (b a d : Vec2) :
    checkSimplex [b, a] d =
      if magnitudeSquared (tripleProduct (b - a) (-a) (b - a)) ≤ epsilonDouble then
        (false, [b, a], left (b - a))
      else (false, [b, a], tripleProduct (b - a) (-a) (b - a)) := by
  simp [checkSimplex]

/-! ## The cap cut off by the segment shrinks -/

theorem filter_length_lt (S : List Vec2) (f g : Vec2 → Bool) (b : Vec2)
    (hfg : ∀ q ∈ S, f q = true → g q = true) (hb : b ∈ S) (hgb : g b = true)
    (hfb : f b = false) : (S.filter f).length < (S.filter g).length := by
  induction S with
  | nil => simp at hb
  | cons x S ih =>
    have hle : ∀ (T : List Vec2), (∀ q ∈ T, f q = true → g q = true) →
        (T.filter f).length ≤ (T.filter g).length := by
      intro T
      induction T with
      | nil => intro _; simp
      | cons y T ihT =>
        intro h
        have h1 := ihT (fun q hq => h q (List.mem_cons_of_mem _ hq))
        have h2 := h y (List.mem_cons_self _ _)
        by_cases hfy : f y = true
        · simp [List.filter_cons, hfy, h2 hfy, h1]
        · by_cases hgy : g y = true
          · simp [List.filter_cons, hfy, hgy]; omega
          · simp [List.filter_cons, hfy, hgy, h1]
    have hS := hle S (fun q hq => hfg q (List.mem_cons_of_mem _ hq))
    rcases List.mem_cons.1 hb with rfl | hbS
    · simp [List.filter_cons, hgb, hfb]
      omega
    · have h1 := ih (fun q hq => hfg q (List.mem_cons_of_mem _ hq)) hbS
      have h2 := hfg x (List.mem_cons_self _ _)
      by_cases hfx : f x = true
      · simp [List.filter_cons, hfx, h2 hfx, h1]
      · by_cases hgx : g x = true
        · simp [List.filter_cons, hfx, hgx]; omega
        · simp [List.filter_cons, hfx, hgx, h1]

theorem capCount_le (S : List Vec2) (b d : Vec2) : capCount S b d ≤ S.length := by
  unfold capCount
  exact List.length_filter_le _ _

/-- The point dropped from the triangle is strictly behind the new segment. -/
theorem dropped_behind (k p a : Vec2) (hX : cross (p - a) (k - a) ≠ 0) :
    dot p (cross (p - a) (k - a) • perp (k - a)) <
      dot a (cross (p - a) (k - a) • perp (k - a)) := by
  have h : dot a (cross (p - a) (k - a) • perp (k - a)) -
      dot p (cross (p - a) (k - a) • perp (k - a)) = cross (p - a) (k - a) ^ 2 := by
    simp [dot, cross, perp]; ring
  have h2 : 0 < cross (p - a) (k - a) ^ 2 := by positivity
  linarith

/-- With `k` an extreme point, `p` the dropped point and `a` the new support
point: the points at least as far as `a` along the new normal were at least
as far as `p` along the old one, unless `a` is itself farthest along the new
normal. -/
theorem cap_shrink (S : List Vec2) (k p a d : Vec2) (κ : ℚ)
    (hd : d = κ • perp (k - p)) (hpa : dot p d < dot a d) (hext : Extreme S k)
    (hp : p ∈ S) (ha : a ∈ S) :
    (∀ q ∈ S, dot a (cross (p - a) (k - a) • perp (k - a)) ≤
        dot q (cross (p - a) (k - a) • perp (k - a)) → dot p d ≤ dot q d) ∨
    (∀ r ∈ S, dot r (cross (p - a) (k - a) • perp (k - a)) ≤
        dot a (cross (p - a) (k - a) • perp (k - a))) := by
  by_cases hall : ∀ q ∈ S, dot a (cross (p - a) (k - a) • perp (k - a)) ≤
      dot q (cross (p - a) (k - a) • perp (k - a)) → dot p d ≤ dot q d
  · exact Or.inl hall
  · right
    push_neg at hall
    obtain ⟨q, hqS, hq1, hq2⟩ := hall
    obtain ⟨f, hf0, hf⟩ := hext
    intro r hr
    -- the quantities of the argument, relative to `k`
    have hfQ : dot q f - dot k f ≤ 0 := by linarith [hf q hqS]
    have hfP : dot p f - dot k f ≤ 0 := by linarith [hf p hp]
    have hfA : dot a f - dot k f ≤ 0 := by linarith [hf a ha]
    have hfR : dot r f - dot k f ≤ 0 := by linarith [hf r hr]
    have eY : dot a d - dot p d = -(κ * cross (p - k) (a - k)) := by
      rw [hd]; simp [dot, cross, perp]; ring
    have e1 : dot q (cross (p - a) (k - a) • perp (k - a)) -
        dot a (cross (p - a) (k - a) • perp (k - a)) =
        cross (p - k) (a - k) * cross (a - k) (q - k) := by
      simp [dot, cross, perp]; ring
    have e2 : dot q d - dot p d = -(κ * cross (p - k) (q - k)) := by
      rw [hd]; simp [dot, cross, perp]; ring
    have e3 : dot r (cross (p - a) (k - a) • perp (k - a)) -
        dot a (cross (p - a) (k - a) • perp (k - a)) =
        cross (p - k) (a - k) * cross (a - k) (r - k) := by
      simp [dot, cross, perp]; ring
    have pl1 : cross (p - k) (a - k) * (dot q f - dot k f) +
        cross (a - k) (q - k) * (dot p f - dot k f) +
        cross (q - k) (p - k) * (dot a f - dot k f) = 0 := by
      simp [dot, cross]; ring
    have pl2 : cross (a - k) (p - k) * (dot r f - dot k f) +
        cross (p - k) (r - k) * (dot a f - dot k f) +
        cross (r - k) (a - k) * (dot p f - dot k f) = 0 := by
      simp [dot, cross]; ring
    have cr1 : f.x * cross (p - k) (a - k) =
        (dot p f - dot k f) * (a - k).y - (dot a f - dot k f) * (p - k).y := by
      simp [dot, cross]; ring
    have cr2 : f.y * cross (p - k) (a - k) =
        -((dot p f - dot k f) * (a - k).x) + (dot a f - dot k f) * (p - k).x := by
      simp [dot, cross]; ring
    have anti1 : cross (q - k) (p - k) = -cross (p - k) (q - k) := by
      simp [cross]; ring
    have anti2 : cross (a - k) (p - k) = -cross (p - k) (a - k) := by
      simp [cross]; ring
    have anti3 : cross (r - k) (a - k) = -cross (a - k) (r - k) := by
      simp [cross]; ring
    generalize cross (p - k) (a - k) = Y at *
    generalize cross (a - k) (q - k) = cAQ at *
    generalize cross (p - k) (q - k) = cPQ at *
    generalize cross (a - k) (r - k) = cAR at *
    generalize dot q f - dot k f = fQ at *
    generalize dot p f - dot k f = fP at *
    generalize dot a f - dot k f = fA at *
    generalize dot r f - dot k f = fR at *
    rw [anti1] at pl1
    rw [anti2, anti3] at pl2
    have hκY : κ * Y < 0 := by linarith
    have hκPQ : 0 < κ * cPQ := by linarith
    have hYAQ : 0 ≤ Y * cAQ := by linarith
    have hY0 : Y ≠ 0 := by
      intro h0; rw [h0] at hκY; simp at hκY
    have hYPQ : Y * cPQ < 0 := by
      by_contra hcon
      push_neg at hcon
      have h1 : 0 ≤ κ ^ 2 * (Y * cPQ) := mul_nonneg (sq_nonneg κ) hcon
      have h2 : (κ * Y) * (κ * cPQ) < 0 := mul_neg_of_neg_of_pos hκY hκPQ
      nlinarith
    -- the third term of the identity vanishes, so `f` is normal to `a - k`
    have hfA0 : fA = 0 := by
      have t1 : Y * (Y * fQ) ≤ 0 := by
        have : 0 ≤ Y * Y := mul_self_nonneg Y
        nlinarith
      have t2 : (Y * cAQ) * fP ≤ 0 := mul_nonpos_of_nonneg_of_nonpos hYAQ hfP
      have t3 : Y * (Y * fQ) + (Y * cAQ) * fP + (-(Y * cPQ)) * fA = 0 := by
        have := congrArg (fun t => Y * t) pl1
        simp only [mul_zero] at this
        linarith [this]
      have t4 : 0 ≤ (-(Y * cPQ)) * fA := by linarith
      have t5 : 0 < -(Y * cPQ) := by linarith
      by_contra hne
      have hlt : fA < 0 := lt_of_le_of_ne hfA hne
      have : (-(Y * cPQ)) * fA < 0 := mul_neg_of_pos_of_neg t5 hlt
      linarith
    rw [hfA0] at pl2 cr1 cr2
    have hfP0 : fP ≠ 0 := by
      intro h0
      rw [h0] at cr1 cr2
      simp at cr1 cr2
      apply hf0
      rcases cr1 with h | h
      · rcases cr2 with h' | h'
        · ext <;> simp [h, h']
        · exact absurd h' hY0
      · exact absurd h hY0
    have hfPneg : fP < 0 := lt_of_le_of_ne hfP hfP0
    have t6 : (Y * cAR) * fP = -(Y * Y * fR) := by
      have := congrArg (fun t => Y * t) pl2
      simp only [mul_zero] at this
      linarith [this]
    have t7 : 0 ≤ (Y * cAR) * fP := by
      rw [t6]
      have : 0 ≤ Y * Y := mul_self_nonneg Y
      nlinarith
    have t8 : Y * cAR ≤ 0 := by
      by_contra hcon
      push_neg at hcon
      have : (Y * cAR) * fP < 0 := mul_neg_of_pos_of_neg hcon hfPneg
      linarith
    linarith

/-! ## The loop returns -/

theorem detectLoop_zero_direction (m : MinkowskiSum) (n : Nat) (simplex : List Vec2) (d : Vec2)
    (hd : d = 0) : (detectLoop m (n + 1) simplex d).isSome = true := by
  subst hd
  simp [detectLoop, dot_zero_right]

theorem cross_edge_eq (c b a : Vec2) : cross (b - a) (c - a) = cross (c - b) (a - b) := by
  simp [cross]; ring

theorem dot_sub_normal (κ : ℚ) (c b a : Vec2) :
    dot a (κ • perp (c - b)) - dot b (κ • perp (c - b)) = κ * cross (b - a) (c - a) := by
  simp [dot, cross, perp]; ring

theorem dot_normal_ends (κ : ℚ) (c b : Vec2) :
    dot c (κ • perp (c - b)) = dot b (κ • perp (c - b)) := by
  simp [dot, perp]; ring

theorem smul_perp_swap (κ : ℚ) (c b : Vec2) : κ • perp (c - b) = (-κ) • perp (b - c) := by
  ext <;> simp [perp] <;> ring

/-- When the new support point is no farther along the normal than the
segment itself, the triangle is flat: the next direction is zero and the
following round returns. -/
theorem degenerate_terminates (m : MinkowskiSum) (c b d : Vec2) (κ : ℚ)
    (hd : d = κ • perp (c - b)) (hdeg : dot (m.getSupportPoint d) d = dot b d) (n : Nat) :
    (detectLoop m (n + 2) [c, b] d).isSome = true := by
  have hX : κ * cross (b - m.getSupportPoint d) (c - m.getSupportPoint d) = 0 := by
    have := dot_sub_normal κ c b (m.getSupportPoint d)
    rw [← hd] at this
    linarith
  rw [detectLoop]
  simp only [List.cons_append, List.nil_append, List.getLastD_cons, List.getLastD_nil]
  split_ifs with h1 h2
  · rfl
  · rfl
  · rw [checkSimplex_three] at h2 ⊢
    rcases mul_eq_zero.1 hX with hκ | hX0
    · exfalso
      apply h1
      rw [hd, hκ]
      simp [dot]
    · rw [hX0] at h2 ⊢
      simp only [zero_mul, le_refl, if_true] at h2 ⊢
      apply detectLoop_zero_direction
      ext <;> simp

theorem extreme_of_support (S : List Vec2) (sup : Vec2 → Vec2) (hS : IsSupport S sup)
    (d : Vec2) (hd : d ≠ 0) : Extreme S (sup d) :=
  ⟨d, hd, (hS d).2⟩

/-- One round that keeps `k`, drops `p` and adds the support point `a`: the
loop returns from the new state, by the induction hypothesis when the cap has
shrunk and by flatness of the next triangle otherwise. -/
theorem step_terminates (m : MinkowskiSum) (S : List Vec2)
    (hS : IsSupport S m.getSupportPoint) (n : Nat)
    (ih : ∀ c b d, EdgeState S c b d → capCount S b d ≤ n →
      (detectLoop m (n + 3) [c, b] d).isSome = true)
    (k p d : Vec2) (κ : ℚ) (hκ : κ ≠ 0) (hne : k ≠ p) (hd : d = κ • perp (k - p))
    (hpa : dot p d < dot (m.getSupportPoint d) d) (hk : k ∈ S) (hp : p ∈ S)
    (hext : Extreme S k) (hcap : capCount S p d ≤ n + 1) :
    (detectLoop m (n + 3) [k, m.getSupportPoint d]
      (cross (p - m.getSupportPoint d) (k - m.getSupportPoint d) •
        perp (k - m.getSupportPoint d))).isSome = true := by
  have hdne : d ≠ 0 := by rw [hd]; exact smul_perp_ne_zero κ k p hκ hne
  have ha : m.getSupportPoint d ∈ S := (hS d).1
  generalize hadef : m.getSupportPoint d = a at *
  have hX : cross (p - a) (k - a) ≠ 0 := by
    intro h0
    have h1 := dot_sub_normal κ k p a
    rw [← hd, h0] at h1
    linarith
  have hka : k ≠ a := by
    intro h
    apply hX
    rw [h]
    simp [cross]
  have hdrop := dropped_behind k p a hX
  rcases cap_shrink S k p a d κ hd hpa hext hp ha with hsub | hmax
  · apply ih
    · exact ⟨hk, ha, hext, by rw [← hadef]; exact extreme_of_support S _ hS d hdne, hka,
        ⟨_, hX, rfl⟩⟩
    · have hlt : capCount S a (cross (p - a) (k - a) • perp (k - a)) < capCount S p d := by
        unfold capCount
        apply filter_length_lt S _ _ p
        · intro q hq hfq
          simp only [decide_eq_true_eq] at hfq ⊢
          exact hsub q hq hfq
        · exact hp
        · simp
        · simp only [decide_eq_false_iff_not, not_le]
          exact hdrop
      omega
  · have hdeg : dot (m.getSupportPoint (cross (p - a) (k - a) • perp (k - a)))
        (cross (p - a) (k - a) • perp (k - a)) =
        dot a (cross (p - a) (k - a) • perp (k - a)) :=
      le_antisymm (hmax _ (hS _).1) ((hS _).2 a ha)
    exact degenerate_terminates m k a _ _ rfl hdeg (n + 1)

theorem capCount_pos (S : List Vec2) (b d : Vec2) (hb : b ∈ S) : 0 < capCount S b d := by
  unfold capCount
  apply List.length_pos_of_mem (a := b)
  simp [List.mem_filter, hb]

/-- From a segment of two extreme points with a normal direction, the loop
returns within as many rounds as the cap holds points, and three more. -/
theorem loop_terminates (m : MinkowskiSum) (S : List Vec2)
    (hS : IsSupport S m.getSupportPoint) :
    ∀ n c b d, EdgeState S c b d → capCount S b d ≤ n →
      (detectLoop m (n + 3) [c, b] d).isSome = true := by
  intro n
  induction n with
  | zero =>
    intro c b d hst hcap
    have := capCount_pos S b d hst.memb
    omega
  | succ n ih =>
    intro c b d hst hcap
    obtain ⟨κ, hκ, hd⟩ := hst.normal
    rcases lt_or_eq_of_le ((hS d).2 b hst.memb) with hlt | heq
    · rw [show n + 1 + 3 = (n + 3) + 1 from rfl, detectLoop]
      simp only [List.cons_append, List.nil_append, List.getLastD_cons, List.getLastD_nil]
      split_ifs with h1 h2
      · rfl
      · rfl
      · rw [checkSimplex_three] at h2 ⊢
        split_ifs at h2 ⊢ with h3 h4
        · exact step_terminates m S hS n ih c b d κ hκ hst.ne hd hlt hst.memc hst.memb
            hst.extc hcap
        · simp at h2
        · have hswap : d = (-κ) • perp (b - c) := by rw [hd]; exact smul_perp_swap κ c b
          have hcb : dot c d = dot b d := by rw [hd]; exact dot_normal_ends κ c b
          have hcap2 : capCount S c d ≤ n + 1 := by
            unfold capCount at hcap ⊢
            rw [hcb]
            exact hcap
          have hX : cross (c - m.getSupportPoint d) (b - m.getSupportPoint d) =
              -cross (b - m.getSupportPoint d) (c - m.getSupportPoint d) := by
            simp [cross]; ring
          have := step_terminates m S hS n ih b c d (-κ) (neg_ne_zero.2 hκ) (Ne.symm hst.ne)
            hswap (by rw [hcb]; exact hlt) hst.memb hst.memc hst.extb hcap2
          rw [hX] at this
          exact this
    · exact degenerate_terminates m c b d κ hd heq.symm (n + 2)

/-! ## The first round -/

theorem firstDirection_ne_zero (direction : Vec2) : firstDirection direction ≠ 0 := by
  unfold firstDirection isZero
  split_ifs with h
  · intro h0
    have := congrArg Vec2.x h0
    simp at this
  · simpa using h

theorem neg_ne_zero_vec (d : Vec2) (h : d ≠ 0) : -d ≠ 0 := by
  intro h0
  apply h
  have hx := congrArg Vec2.x h0
  have hy := congrArg Vec2.y h0
  simp at hx hy
  ext <;> simp [hx, hy]

theorem dot_neg_right (a d : Vec2) : dot a (-d) = -dot a d := by
  simp [dot]; ring

theorem magnitudeSquared_smul_perp (k : ℚ) (v : Vec2) :
    magnitudeSquared (k • perp v) = k ^ 2 * magnitudeSquared v := by
  simp [magnitudeSquared, perp]; ring

theorem epsilonDouble_pos : 0 < epsilonDouble := by
  unfold epsilonDouble; norm_num

/-- What `detect(minkowskiSum, simplex, direction)` does on an empty simplex,
up to the end of the first round of the loop. -/
theorem detectCore_unfold (m : MinkowskiSum) (fuel : Nat) (direction : Vec2) :
    detectCore m (fuel + 1) [] direction =
      if dot (m.getSupportPoint (firstDirection direction)) (firstDirection direction) ≤ 0 then
        some (false, [m.getSupportPoint (firstDirection direction)])
      else if dot (m.getSupportPoint (-(firstDirection direction)))
          (-(firstDirection direction)) ≤ 0 then
        some (false, [m.getSupportPoint (firstDirection direction),
          m.getSupportPoint (-(firstDirection direction))])
      else if magnitudeSquared (firstSegmentNormal m direction) ≤ epsilonDouble then
        detectLoop m fuel [m.getSupportPoint (firstDirection direction),
          m.getSupportPoint (-(firstDirection direction))]
          (left (m.getSupportPoint (firstDirection direction) -
            m.getSupportPoint (-(firstDirection direction))))
      else
        detectLoop m fuel [m.getSupportPoint (firstDirection direction),
          m.getSupportPoint (-(firstDirection direction))]
          (firstSegmentNormal m direction) := by
  simp only [detectCore, firstSegmentNormal]
  rw [show (if isZero direction = true then (⟨1, 0⟩ : Vec2) else direction) =
    firstDirection direction from rfl]
  simp only [List.nil_append, List.getD_cons_zero]
  split_ifs with h1 h2 h3
  · rfl
  · simp [detectLoop, h2]
  · simp [detectLoop, h2, checkSimplex_two, h3]
  · simp [detectLoop, h2, checkSimplex_two, h3]

/-- After the first round the loop holds a segment of two extreme points and
a normal direction. -/
theorem first_edgeState (m : MinkowskiSum) (S : List Vec2)
    (hS : IsSupport S m.getSupportPoint) (direction : Vec2)
    (h1 : ¬ dot (m.getSupportPoint (firstDirection direction)) (firstDirection direction) ≤ 0)
    (h2 : ¬ dot (m.getSupportPoint (-(firstDirection direction)))
      (-(firstDirection direction)) ≤ 0) :
    EdgeState S (m.getSupportPoint (firstDirection direction))
        (m.getSupportPoint (-(firstDirection direction)))
        (left (m.getSupportPoint (firstDirection direction) -
          m.getSupportPoint (-(firstDirection direction)))) ∧
    (epsilonDouble < magnitudeSquared (firstSegmentNormal m direction) →
      EdgeState S (m.getSupportPoint (firstDirection direction))
        (m.getSupportPoint (-(firstDirection direction))) (firstSegmentNormal m direction)) := by
  have hd0 := firstDirection_ne_zero direction
  simp only [firstSegmentNormal]
  generalize firstDirection direction = d0 at *
  have hne : m.getSupportPoint d0 ≠ m.getSupportPoint (-d0) := by
    intro h
    rw [dot_neg_right, ← h] at h2
    linarith
  have base : ∀ d' : Vec2, (∃ k : ℚ, k ≠ 0 ∧
      d' = k • perp (m.getSupportPoint d0 - m.getSupportPoint (-d0))) →
      EdgeState S (m.getSupportPoint d0) (m.getSupportPoint (-d0)) d' := fun d' hn =>
    ⟨(hS d0).1, (hS (-d0)).1, extreme_of_support S _ hS d0 hd0,
      extreme_of_support S _ hS (-d0) (neg_ne_zero_vec d0 hd0), hne, hn⟩
  refine ⟨base _ ⟨-1, by norm_num, left_eq _⟩, ?_⟩
  intro hmag
  apply base
  refine ⟨cross (m.getSupportPoint d0 - m.getSupportPoint (-d0)) (-m.getSupportPoint (-d0)),
    ?_, ?_⟩
  · intro h0
    rw [tripleProduct_eq, h0, magnitudeSquared_smul_perp] at hmag
    have := epsilonDouble_pos
    simp at hmag
    linarith
  · exact tripleProduct_eq _ _ _

/-- The method `detect(minkowskiSum, simplex, direction)` returns on every
support mapping of a finite set, within as many rounds as the set has points
and four more. -/
theorem detectCore_terminates (m : MinkowskiSum) (S : List Vec2)
    (hS : IsSupport S m.getSupportPoint) (direction : Vec2) :
    (detectCore m (S.length + 4) [] direction).isSome = true := by
  rw [detectCore_unfold]
  split_ifs with h1 h2 h3
  · rfl
  · rfl
  · exact loop_terminates m S hS _ _ _ _ (first_edgeState m S hS direction h1 h2).1
      (capCount_le _ _ _)
  · exact loop_terminates m S hS _ _ _ _
      ((first_edgeState m S hS direction h1 h2).2 (not_le.1 h3)) (capCount_le _ _ _)

/-! ## What the loop answers -/

theorem towardOrigin_dir_ne_zero (c b d : Vec2) (h : TowardOrigin c b d) : d ≠ 0 := by
  obtain ⟨hne, ⟨k, hk, hd⟩, _⟩ := h
  rw [hd]
  exact smul_perp_ne_zero k c b hk hne

theorem towardOrigin_cross_ne_zero (c b a d : Vec2) (h : TowardOrigin c b d)
    (ha : 0 < dot a d) : cross (b - a) (c - a) ≠ 0 := by
  obtain ⟨_, ⟨k, _, hd⟩, hb⟩ := h
  intro h0
  have h1 := dot_sub_normal k c b a
  rw [← hd, h0] at h1
  linarith

theorem cross_ne_zero_ne (p k a : Vec2) (h : cross (p - a) (k - a) ≠ 0) : k ≠ a := by
  intro hka
  apply h
  rw [hka]
  simp [cross]

/-- One round of the loop on a segment `[c, b]`. -/
theorem detectLoop_edge (m : MinkowskiSum) (n : Nat) (c b d : Vec2) :
    detectLoop m (n + 1) [c, b] d =
      if dot (m.getSupportPoint d) d ≤ 0 then some (false, [c, b, m.getSupportPoint d])
      else if 0 ≤ cross (b - m.getSupportPoint d) (c - m.getSupportPoint d) *
          cross (m.getSupportPoint d) c then
        detectLoop m n [c, m.getSupportPoint d]
          (cross (b - m.getSupportPoint d) (c - m.getSupportPoint d) •
            perp (c - m.getSupportPoint d))
      else if cross (b - m.getSupportPoint d) (c - m.getSupportPoint d) *
          cross (m.getSupportPoint d) b > 0 then
        some (true, [c, b, m.getSupportPoint d])
      else
        detectLoop m n [b, m.getSupportPoint d]
          ((-cross (b - m.getSupportPoint d) (c - m.getSupportPoint d)) •
            perp (b - m.getSupportPoint d)) := by
  rw [detectLoop]
  simp only [List.cons_append, List.nil_append, List.getLastD_cons, List.getLastD_nil,
    checkSimplex_three]
  split_ifs <;> simp_all

theorem towardOrigin_keep (c b a : Vec2) (hX : cross (b - a) (c - a) ≠ 0)
    (h3 : 0 ≤ cross (b - a) (c - a) * cross a c) :
    TowardOrigin c a (cross (b - a) (c - a) • perp (c - a)) := by
  refine ⟨cross_ne_zero_ne _ _ _ hX, ⟨_, hX, rfl⟩, ?_⟩
  rw [dot_smul_perp]
  have : cross (c - a) a = -cross a c := by simp [cross]; ring
  rw [this]
  linarith

theorem towardOrigin_drop (c b a : Vec2) (hX : cross (b - a) (c - a) ≠ 0)
    (h4 : ¬ cross (b - a) (c - a) * cross a b > 0) :
    TowardOrigin b a ((-cross (b - a) (c - a)) • perp (b - a)) := by
  have hX2 : cross (c - a) (b - a) ≠ 0 := by
    intro h0
    apply hX
    have : cross (b - a) (c - a) = -cross (c - a) (b - a) := by simp [cross]; ring
    rw [this, h0, neg_zero]
  refine ⟨cross_ne_zero_ne _ _ _ hX2, ⟨_, neg_ne_zero.2 hX, rfl⟩, ?_⟩
  rw [dot_smul_perp]
  have : cross (b - a) a = -cross a b := by simp [cross]; ring
  rw [this]
  push_neg at h4
  linarith

/-- When the origin is strictly inside the Minkowski difference (every support
point is strictly past the origin along its direction), the loop never
answers false. -/
theorem loop_never_false (m : MinkowskiSum)
    (hpos : ∀ d, d ≠ 0 → 0 < dot (m.getSupportPoint d) d) :
    ∀ n c b d, TowardOrigin c b d → ∀ r, detectLoop m n [c, b] d = some r → r.1 = true := by
  intro n
  induction n with
  | zero => intro c b d _ r h; simp [detectLoop] at h
  | succ n ih =>
    intro c b d hst r h
    have ha := hpos d (towardOrigin_dir_ne_zero c b d hst)
    have hX := towardOrigin_cross_ne_zero c b _ d hst ha
    rw [detectLoop_edge, if_neg (not_le.2 ha)] at h
    split_ifs at h with h3 h4
    · exact ih c _ _ (towardOrigin_keep c b _ hX h3) r h
    · rw [← Option.some.inj h]
    · exact ih b _ _ (towardOrigin_drop c b _ hX h4) r h

/-- When every support point lies strictly on one side of a line through the
origin, the loop never answers true. -/
theorem loop_never_true (m : MinkowskiSum) (nv : Vec2)
    (hsep : ∀ d, dot (m.getSupportPoint d) nv < 0) :
    ∀ n c b d, TowardOrigin c b d → dot c nv < 0 → dot b nv < 0 →
      ∀ r, detectLoop m n [c, b] d = some r → r.1 = false := by
  intro n
  induction n with
  | zero => intro c b d _ _ _ r h; simp [detectLoop] at h
  | succ n ih =>
    intro c b d hst hc hb r h
    rw [detectLoop_edge] at h
    have hna := hsep d
    split_ifs at h with h1 h3 h4
    · rw [← Option.some.inj h]
    · have ha : 0 < dot (m.getSupportPoint d) d := not_le.1 h1
      have hX := towardOrigin_cross_ne_zero c b _ d hst ha
      exact ih c _ _ (towardOrigin_keep c b _ hX h3) hc hna r h
    · -- the simplex test has answered true: the origin would be in the triangle
      exfalso
      have ha : 0 < dot (m.getSupportPoint d) d := not_le.1 h1
      obtain ⟨_, ⟨k, hk, hd⟩, hbd⟩ := hst
      generalize m.getSupportPoint d = a at *
      have eX : cross (b - a) (c - a) = cross a b + cross b c + cross c a := by
        simp [cross]; ring
      have eb : dot b d = -(k * cross b c) := by
        rw [hd]; simp [dot, cross, perp]; ring
      have ea : dot a d = k * (cross c a + cross a b) := by
        rw [hd]; simp [dot, cross, perp]; ring
      have eac : cross a c = -cross c a := by simp [cross]; ring
      have pl : cross b c * dot a nv + cross c a * dot b nv + cross a b * dot c nv = 0 := by
        simp [dot, cross]; ring
      rw [eX, eac] at h3
      rw [eX] at h4
      generalize cross a b = u at *
      generalize cross b c = v at *
      generalize cross c a = w at *
      generalize dot a nv = na at *
      generalize dot b nv = nb at *
      generalize dot c nv = nc at *
      push_neg at h3
      have hXw : 0 < (u + v + w) * w := by linarith
      have hXu : 0 < (u + v + w) * u := h4
      have hkv : 0 ≤ k * v := by linarith
      have hkuw : 0 < k * (w + u) := by linarith
      have hkX : 0 < k * (u + v + w) := by
        by_contra hcon
        push_neg at hcon
        have h5 : 0 < (u + v + w) * (w + u) := by linarith
        have h6 : 0 < (k * (w + u)) * ((u + v + w) * (w + u)) := mul_pos hkuw h5
        have h7 : 0 ≤ (w + u) ^ 2 := sq_nonneg _
        nlinarith
      have hXv : 0 ≤ (u + v + w) * v := by
        by_contra hcon
        push_neg at hcon
        have h5 : (k * (u + v + w)) * ((u + v + w) * v) < 0 := mul_neg_of_pos_of_neg hkX hcon
        have h6 : 0 ≤ (u + v + w) ^ 2 := sq_nonneg _
        nlinarith
      have t1 : ((u + v + w) * v) * na ≤ 0 := mul_nonpos_of_nonneg_of_nonpos hXv (le_of_lt hna)
      have t2 : ((u + v + w) * w) * nb < 0 := mul_neg_of_pos_of_neg hXw hb
      have t3 : ((u + v + w) * u) * nc < 0 := mul_neg_of_pos_of_neg hXu hc
      have t4 : ((u + v + w) * v) * na + ((u + v + w) * w) * nb + ((u + v + w) * u) * nc = 0 := by
        have := congrArg (fun t => (u + v + w) * t) pl
        simp only [mul_zero] at this
        linarith [this]
      linarith
    · have ha : 0 < dot (m.getSupportPoint d) d := not_le.1 h1
      have hX := towardOrigin_cross_ne_zero c b _ d hst ha
      exact ih b _ _ (towardOrigin_drop c b _ hX h4) hb hna r h

/-! ## Interior points and separating lines -/

theorem getD_mem (vs : List Vec2) (i : Nat) (h : i < vs.length) : vs.getD i 0 ∈ vs := by
  rw [List.getD_eq_getElem _ _ h]
  exact List.getElem_mem h

theorem strictlyInside_iff (vs : List Vec2) (p : Vec2) :
    strictlyInside vs p = true ↔ ∀ i, i < vs.length →
      0 < cross (vs.getD i 0 - p) (vs.getD (nextIndex vs.length i) 0 - p) := by
  have e : ∀ v w : Vec2, cross (w - v) (p - v) = cross (v - p) (w - p) := by
    intro v w; simp [cross]; ring
  simp only [strictlyInside, List.all_eq_true, List.mem_range, decide_eq_true_eq, e]

theorem cross_chain (d q0 qk q1 : Vec2) :
    cross q0 qk * dot q1 d + cross qk q1 * dot q0 d = cross q0 q1 * dot qk d := by
  simp [cross, dot]; ring

theorem cross_decompose (d u v : Vec2) :
    cross u v * magnitudeSquared d = dot u d * cross d v - dot v d * cross d u := by
  simp [cross, dot, magnitudeSquared]; ring

theorem magnitudeSquared_pos (d : Vec2) (hd : d ≠ 0) : 0 < magnitudeSquared d := by
  unfold magnitudeSquared
  by_contra hcon
  push_neg at hcon
  have hx : d.x * d.x = 0 := le_antisymm (by nlinarith [mul_self_nonneg d.y]) (mul_self_nonneg _)
  have hy : d.y * d.y = 0 := le_antisymm (by nlinarith [mul_self_nonneg d.x]) (mul_self_nonneg _)
  apply hd
  ext
  · simpa using hx
  · simpa using hy

/-- A closed vertex list that winds strictly counter-clockwise around `p` has a
vertex strictly farther than `p` along every non-zero direction. -/
theorem interior_support (vs : List Vec2) (p d : Vec2) (hin : strictlyInside vs p = true)
    (hne : vs ≠ []) (hd : d ≠ 0) : ∃ v ∈ vs, dot p d < dot v d := by
  by_contra hcon
  push_neg at hcon
  rw [strictlyInside_iff] at hin
  have hn : 0 < vs.length := List.length_pos.2 hne
  have hle : ∀ i, i < vs.length → dot (vs.getD i 0 - p) d ≤ 0 := by
    intro i hi
    have := hcon _ (getD_mem vs i hi)
    have e : dot (vs.getD i 0 - p) d = dot (vs.getD i 0) d - dot p d := by
      simp [dot]; ring
    linarith
  have hmag := magnitudeSquared_pos d hd
  -- no vertex lies on the line through `p` normal to `d`
  have hlt : ∀ i, i < vs.length → dot (vs.getD i 0 - p) d < 0 := by
    intro i hi
    refine lt_of_le_of_ne (hle i hi) ?_
    intro h0
    obtain ⟨j, hj, hji⟩ : ∃ j, j < vs.length ∧ nextIndex vs.length j = i := by
      rcases Nat.eq_zero_or_pos i with rfl | hpos
      · refine ⟨vs.length - 1, by omega, ?_⟩
        unfold nextIndex
        rw [if_neg (by omega)]
      · refine ⟨i - 1, by omega, ?_⟩
        unfold nextIndex
        rw [if_pos (by omega)]
        omega
    have hnext : nextIndex vs.length i < vs.length := by
      unfold nextIndex
      split_ifs with h
      · exact h
      · exact hn
    have c1 := hin j hj
    rw [hji] at c1
    have c2 := hin i hi
    have d1 := cross_decompose d (vs.getD j 0 - p) (vs.getD i 0 - p)
    have d2 := cross_decompose d (vs.getD i 0 - p) (vs.getD (nextIndex vs.length i) 0 - p)
    rw [h0] at d1 d2
    have e1 := hle j hj
    have e2 := hle _ hnext
    have p1 : 0 < cross (vs.getD j 0 - p) (vs.getD i 0 - p) * magnitudeSquared d :=
      mul_pos c1 hmag
    have p2 : 0 < cross (vs.getD i 0 - p) (vs.getD (nextIndex vs.length i) 0 - p) *
        magnitudeSquared d := mul_pos c2 hmag
    rw [d1] at p1
    rw [d2] at p2
    simp only [zero_mul, sub_zero, zero_sub] at p1 p2
    generalize cross d (vs.getD i 0 - p) = t at p1 p2
    generalize dot (vs.getD j 0 - p) d = ej at p1 e1
    generalize dot (vs.getD (nextIndex vs.length i) 0 - p) d = en at p2 e2
    rcases lt_trichotomy t 0 with ht | ht | ht
    · have : 0 ≤ en * t := mul_nonneg_of_nonpos_of_nonpos e2 (le_of_lt ht)
      linarith
    · rw [ht] at p1; simp at p1
    · have : ej * t ≤ 0 := mul_nonpos_of_nonpos_of_nonneg e1 (le_of_lt ht)
      linarith
  -- seen from the first vertex, every later vertex is strictly to the left
  have hchain : ∀ k, 1 ≤ k → k < vs.length → 0 < cross (vs.getD 0 0 - p) (vs.getD k 0 - p) := by
    intro k
    induction k with
    | zero => intro h; omega
    | succ k ih =>
      intro _ hk
      have hstep := hin k (by omega)
      have hnk : nextIndex vs.length k = k + 1 := by
        unfold nextIndex; rw [if_pos hk]
      rw [hnk] at hstep
      rcases Nat.eq_zero_or_pos k with rfl | hkpos
      · exact hstep
      · have h0k := ih hkpos (by omega)
        have id1 := cross_chain d (vs.getD 0 0 - p) (vs.getD k 0 - p) (vs.getD (k + 1) 0 - p)
        have a1 := hlt 0 hn
        have a2 := hlt k (by omega)
        have a3 := hlt (k + 1) hk
        have n1 : cross (vs.getD 0 0 - p) (vs.getD k 0 - p) * dot (vs.getD (k + 1) 0 - p) d < 0 :=
          mul_neg_of_pos_of_neg h0k a3
        have n2 : cross (vs.getD k 0 - p) (vs.getD (k + 1) 0 - p) * dot (vs.getD 0 0 - p) d < 0 :=
          mul_neg_of_pos_of_neg hstep a1
        by_contra hneg
        push_neg at hneg
        have : 0 ≤ cross (vs.getD 0 0 - p) (vs.getD (k + 1) 0 - p) * dot (vs.getD k 0 - p) d :=
          mul_nonneg_of_nonpos_of_nonpos hneg (le_of_lt a2)
        linarith
  have hclose := hin (vs.length - 1) (by omega)
  have hnl : nextIndex vs.length (vs.length - 1) = 0 := by
    unfold nextIndex; rw [if_neg (by omega)]
  rw [hnl] at hclose
  rcases Nat.lt_or_ge 1 vs.length with h2 | h1
  · have := hchain (vs.length - 1) (by omega) (by omega)
    have anti : cross (vs.getD (vs.length - 1) 0 - p) (vs.getD 0 0 - p) =
        -cross (vs.getD 0 0 - p) (vs.getD (vs.length - 1) 0 - p) := by simp [cross]; ring
    linarith
  · have h1' : vs.length - 1 = 0 := by omega
    rw [h1'] at hclose
    simp [cross] at hclose
    linarith [hclose, mul_comm (vs.getD 0 0 - p).x (vs.getD 0 0 - p).y]

/-! ## Polygons as support mappings -/

theorem dot_sub_left (a b d : Vec2) : dot (a - b) d = dot a d - dot b d := by
  simp [dot]; ring

theorem mem_differences (wa wb : List Vec2) (q : Vec2) :
    q ∈ differences wa wb ↔ ∃ a ∈ wa, ∃ b ∈ wb, a - b = q := by
  simp [differences, List.mem_flatMap, List.mem_map]

theorem length_differences (wa wb : List Vec2) :
    (differences wa wb).length = wa.length * wb.length := by
  unfold differences
  induction wa with
  | nil => simp
  | cons a wa ih =>
    simp only [List.flatMap_cons, List.length_append, List.length_map, ih, List.length_cons]
    ring

/-- The support mapping of two polygons answers, for every direction, a
farthest point among the differences of their world-space vertices. -/
theorem polygon_isSupport (pa pb : Polygon) (ta tb : Transform2)
    (ha : pa.vertices ≠ []) (hb : pb.vertices ≠ []) :
    IsSupport (differences (pa.world ta) (pb.world tb))
      (MinkowskiSum.getSupportPoint ⟨pa.toConvex, ta, pb.toConvex, tb⟩) := by
  intro d
  obtain ⟨v, hv, hfv, hmaxv⟩ := getFarthestPoint_spec pa d ta ha
  obtain ⟨w, hw, hfw, hmaxw⟩ := getFarthestPoint_spec pb (-d) tb hb
  have hsup : MinkowskiSum.getSupportPoint ⟨pa.toConvex, ta, pb.toConvex, tb⟩ d =
      ta.getTransformed v - tb.getTransformed w := by
    simp [MinkowskiSum.getSupportPoint, Polygon.toConvex, hfv, hfw]
  rw [hsup]
  constructor
  · rw [mem_differences]
    exact ⟨_, List.mem_map_of_mem _ hv, _, List.mem_map_of_mem _ hw, rfl⟩
  · intro q hq
    rw [mem_differences] at hq
    obtain ⟨a, hamem, b, hbmem, rfl⟩ := hq
    obtain ⟨v', hv', rfl⟩ := List.mem_map.1 hamem
    obtain ⟨w', hw', rfl⟩ := List.mem_map.1 hbmem
    have h1 := hmaxv v' hv'
    have h2 := hmaxw w' hw'
    rw [dot_neg_right, dot_neg_right] at h2
    rw [dot_sub_left, dot_sub_left]
    linarith

theorem polygon_support_mem (pa pb : Polygon) (ta tb : Transform2)
    (ha : pa.vertices ≠ []) (hb : pb.vertices ≠ []) (d : Vec2) :
    ∃ a ∈ pa.world ta, ∃ b ∈ pb.world tb,
      MinkowskiSum.getSupportPoint ⟨pa.toConvex, ta, pb.toConvex, tb⟩ d = a - b ∧
      (∀ a' ∈ pa.world ta, dot a' d ≤ dot a d) ∧ (∀ b' ∈ pb.world tb, dot b d ≤ dot b' d) := by
  obtain ⟨v, hv, hfv, hmaxv⟩ := getFarthestPoint_spec pa d ta ha
  obtain ⟨w, hw, hfw, hmaxw⟩ := getFarthestPoint_spec pb (-d) tb hb
  refine ⟨_, List.mem_map_of_mem _ hv, _, List.mem_map_of_mem _ hw, ?_, ?_, ?_⟩
  · simp [MinkowskiSum.getSupportPoint, Polygon.toConvex, hfv, hfw]
  · intro a' ha'
    obtain ⟨v', hv', rfl⟩ := List.mem_map.1 ha'
    exact hmaxv v' hv'
  · intro b' hb'
    obtain ⟨w', hw', rfl⟩ := List.mem_map.1 hb'
    have := hmaxw w' hw'
    rw [dot_neg_right, dot_neg_right] at this
    linarith

/-- Polygons that share an interior point: every support point of their
Minkowski difference is strictly past the origin. -/
theorem shareInterior_pos (pa pb : Polygon) (ta tb : Transform2)
    (ha : pa.vertices ≠ []) (hb : pb.vertices ≠ [])
    (hshare : ShareInterior (pa.world ta) (pb.world tb)) (d : Vec2) (hd : d ≠ 0) :
    0 < dot (MinkowskiSum.getSupportPoint ⟨pa.toConvex, ta, pb.toConvex, tb⟩ d) d := by
  obtain ⟨p, hpa, hpb⟩ := hshare
  have hwa : pa.world ta ≠ [] := by simpa [Polygon.world] using ha
  have hwb : pb.world tb ≠ [] := by simpa [Polygon.world] using hb
  obtain ⟨a, _, b, _, hsup, hmaxa, hminb⟩ := polygon_support_mem pa pb ta tb ha hb d
  obtain ⟨v, hv, hpv⟩ := interior_support _ p d hpa hwa hd
  obtain ⟨w, hw, hpw⟩ := interior_support _ p (-d) hpb hwb (neg_ne_zero_vec d hd)
  rw [dot_neg_right, dot_neg_right] at hpw
  rw [hsup, dot_sub_left]
  linarith [hmaxa v hv, hminb w hw]

/-- Polygons separated by an axis-aligned gap: every support point of their
Minkowski difference lies strictly on one side of a line through the origin. -/
theorem axisGap_separates (pa pb : Polygon) (ta tb : Transform2)
    (ha : pa.vertices ≠ []) (hb : pb.vertices ≠ [])
    (hgap : AxisGap (pa.world ta) (pb.world tb)) :
    ∃ nv : Vec2, ∀ d,
      dot (MinkowskiSum.getSupportPoint ⟨pa.toConvex, ta, pb.toConvex, tb⟩ d) nv < 0 := by
  obtain ⟨k, h | h | h | h⟩ := hgap
  · refine ⟨⟨1, 0⟩, fun d => ?_⟩
    obtain ⟨a, hamem, b, hbmem, hsup, _, _⟩ := polygon_support_mem pa pb ta tb ha hb d
    rw [hsup]
    simp [dot]
    linarith [h.1 a hamem, h.2 b hbmem]
  · refine ⟨⟨-1, 0⟩, fun d => ?_⟩
    obtain ⟨a, hamem, b, hbmem, hsup, _, _⟩ := polygon_support_mem pa pb ta tb ha hb d
    rw [hsup]
    simp [dot]
    linarith [h.1 a hamem, h.2 b hbmem]
  · refine ⟨⟨0, 1⟩, fun d => ?_⟩
    obtain ⟨a, hamem, b, hbmem, hsup, _, _⟩ := polygon_support_mem pa pb ta tb ha hb d
    rw [hsup]
    simp [dot]
    linarith [h.1 a hamem, h.2 b hbmem]
  · refine ⟨⟨0, -1⟩, fun d => ?_⟩
    obtain ⟨a, hamem, b, hbmem, hsup, _, _⟩ := polygon_support_mem pa pb ta tb ha hb d
    rw [hsup]
    simp [dot]
    linarith [h.1 a hamem, h.2 b hbmem]

/-! ## The answer of the core -/

/-- After the first round the direction points from the segment toward the
origin, unless the fallback was taken on a non-zero triple product. -/
theorem first_towardOrigin (m : MinkowskiSum) (direction : Vec2)
    (h1 : ¬ dot (m.getSupportPoint (firstDirection direction)) (firstDirection direction) ≤ 0)
    (h2 : ¬ dot (m.getSupportPoint (-(firstDirection direction)))
      (-(firstDirection direction)) ≤ 0)
    (hclear : SegmentClear m direction) :
    (magnitudeSquared (firstSegmentNormal m direction) ≤ epsilonDouble →
      TowardOrigin (m.getSupportPoint (firstDirection direction))
        (m.getSupportPoint (-(firstDirection direction)))
        (left (m.getSupportPoint (firstDirection direction) -
          m.getSupportPoint (-(firstDirection direction))))) ∧
    (epsilonDouble < magnitudeSquared (firstSegmentNormal m direction) →
      TowardOrigin (m.getSupportPoint (firstDirection direction))
        (m.getSupportPoint (-(firstDirection direction))) (firstSegmentNormal m direction)) := by
  unfold SegmentClear at hclear
  simp only [firstSegmentNormal] at hclear ⊢
  generalize firstDirection direction = d0 at *
  have hne : m.getSupportPoint d0 ≠ m.getSupportPoint (-d0) := by
    intro h
    rw [dot_neg_right, ← h] at h2
    linarith
  have hsub : m.getSupportPoint d0 - m.getSupportPoint (-d0) ≠ 0 := by
    intro h0
    apply hne
    have hx := congrArg Vec2.x h0
    have hy := congrArg Vec2.y h0
    simp at hx hy
    ext <;> linarith
  rw [tripleProduct_eq, magnitudeSquared_smul_perp] at hclear ⊢
  have hmag := magnitudeSquared_pos _ hsub
  generalize m.getSupportPoint d0 = s0 at *
  generalize m.getSupportPoint (-d0) = s1 at *
  constructor
  · intro hle
    have hk0 : cross (s0 - s1) (-s1) = 0 := by
      rcases hclear with h0 | hgt
      · rcases mul_eq_zero.1 h0 with h | h
        · exact pow_eq_zero_iff (n := 2) (by norm_num) |>.1 h
        · linarith
      · linarith
    refine ⟨hne, ⟨-1, by norm_num, left_eq _⟩, ?_⟩
    rw [left_eq, dot_smul_perp]
    have : cross (s0 - s1) s1 = -cross (s0 - s1) (-s1) := by simp [cross]; ring
    rw [this, hk0]
    simp
  · intro hgt
    have hk : cross (s0 - s1) (-s1) ≠ 0 := by
      intro h0
      rw [h0] at hgt
      have := epsilonDouble_pos
      simp at hgt
      linarith
    refine ⟨hne, ⟨_, hk, rfl⟩, ?_⟩
    rw [dot_smul_perp]
    have : cross (s0 - s1) s1 = -cross (s0 - s1) (-s1) := by simp [cross]; ring
    rw [this]
    nlinarith [mul_self_nonneg (cross (s0 - s1) (-s1))]

/-- With the origin strictly inside the Minkowski difference, the core answers
true. -/
theorem detectCore_true (m : MinkowskiSum) (S : List Vec2)
    (hS : IsSupport S m.getSupportPoint)
    (hpos : ∀ d, d ≠ 0 → 0 < dot (m.getSupportPoint d) d)
    (direction : Vec2) (hclear : SegmentClear m direction) (k : Nat) :
    ∃ simplex, detectCore m (S.length + 4 + k) [] direction = some (true, simplex) := by
  obtain ⟨r, hr⟩ := Option.isSome_iff_exists.1 (detectCore_terminates m S hS direction)
  have hd0 := firstDirection_ne_zero direction
  have h1 : ¬ dot (m.getSupportPoint (firstDirection direction)) (firstDirection direction) ≤ 0 :=
    not_le.2 (hpos _ hd0)
  have h2 : ¬ dot (m.getSupportPoint (-(firstDirection direction)))
      (-(firstDirection direction)) ≤ 0 := not_le.2 (hpos _ (neg_ne_zero_vec _ hd0))
  have htrue : r.1 = true := by
    have hr2 := hr
    rw [detectCore_unfold, if_neg h1, if_neg h2] at hr2
    split_ifs at hr2 with h3
    · exact loop_never_false m hpos _ _ _ _
        ((first_towardOrigin m direction h1 h2 hclear).1 h3) r hr2
    · exact loop_never_false m hpos _ _ _ _
        ((first_towardOrigin m direction h1 h2 hclear).2 (not_le.1 h3)) r hr2
  refine ⟨r.2, ?_⟩
  rw [detectCore_mono m _ k _ _ r hr, ← htrue]

/-! ## Exchanging the two shapes -/

/-- Reading a point of the reflected simplex. -/
theorem getD_map_neg (s : List Vec2) (i : Nat) :
    (s.map (fun v => -v)).getD i 0 = -(s.getD i 0) := by
  induction s generalizing i with
  | nil => simp; ext <;> simp
  | cons v s ih =>
    cases i with
    | zero => simp
    | succ i => simpa using ih i

theorem getLastD_map_neg_aux (s : List Vec2) (v0 : Vec2) :
    (s.map (fun v => -v)).getLastD (-v0) = -(s.getLastD v0) := by
  induction s generalizing v0 with
  | nil => rfl
  | cons w s ih =>
    simp only [List.map_cons, List.getLastD_cons]
    exact ih w

theorem getLastD_map_neg (s : List Vec2) :
    (s.map (fun v => -v)).getLastD 0 = -(s.getLastD 0) := by
  have h := getLastD_map_neg_aux s 0
  have h0 : (-0 : Vec2) = 0 := by ext <;> simp
  rw [h0] at h
  exact h

theorem eraseIdx_map_neg (s : List Vec2) (i : Nat) :
    (s.map (fun v => -v)).eraseIdx i = (s.eraseIdx i).map (fun v => -v) := by
  induction s generalizing i with
  | nil => simp
  | cons v s ih =>
    cases i with
    | zero => simp
    | succ i => simp [ih]

theorem tripleProduct_neg (a b c : Vec2) :
    tripleProduct (-a) (-b) (-c) = -tripleProduct a b c := by
  ext <;> simp [tripleProduct, dot] <;> ring

theorem neg_sub_neg_vec (a b : Vec2) : -a - -b = -(a - b) := by
  ext <;> simp <;> ring

theorem dot_neg_neg (a b : Vec2) : dot (-a) (-b) = dot a b := by
  simp [dot]

theorem magnitudeSquared_neg (a : Vec2) : magnitudeSquared (-a) = magnitudeSquared a := by
  simp [magnitudeSquared]

theorem left_neg (a : Vec2) : left (-a) = -left a := by
  ext <;> simp [left]

theorem dot_neg_left (a b : Vec2) : dot (-a) b = -dot a b := by
  simp [dot]; ring

/-- The simplex test commutes with the point reflection of its arguments. -/
theorem checkSimplex_neg (s : List Vec2) (d : Vec2) :
    checkSimplex (s.map (fun v => -v)) (-d) =
      ((checkSimplex s d).1, (checkSimplex s d).2.1.map (fun v => -v), -(checkSimplex s d).2.2) := by
  simp only [checkSimplex, getD_map_neg, getLastD_map_neg, List.length_map, neg_sub_neg_vec,
    tripleProduct_neg, magnitudeSquared_neg, left_neg, eraseIdx_map_neg,
    dot_neg_left, dot_neg_right, neg_neg]
  split_ifs <;> rfl

theorem support_swap (c1 : Convex) (t1 : Transform2) (c2 : Convex) (t2 : Transform2) (d : Vec2) :
    MinkowskiSum.getSupportPoint ⟨c2, t2, c1, t1⟩ (-d) =
      -MinkowskiSum.getSupportPoint ⟨c1, t1, c2, t2⟩ d := by
  simp only [MinkowskiSum.getSupportPoint, Vec2.neg_neg_eq]
  ext <;> simp

/-- Run on the exchanged pair from the reflected state, the loop mirrors the
run on the original pair round by round. -/
theorem detectLoop_swap (c1 : Convex) (t1 : Transform2) (c2 : Convex) (t2 : Transform2)
    (n : Nat) (s : List Vec2) (d : Vec2) :
    detectLoop ⟨c2, t2, c1, t1⟩ n (s.map (fun v => -v)) (-d) =
      (detectLoop ⟨c1, t1, c2, t2⟩ n s d).map (fun r => (r.1, r.2.map (fun v => -v))) := by
  induction n generalizing s d with
  | zero => simp [detectLoop]
  | succ n ih =>
    have hpush : s.map (fun v => -v) ++ [MinkowskiSum.getSupportPoint ⟨c2, t2, c1, t1⟩ (-d)] =
        (s ++ [MinkowskiSum.getSupportPoint ⟨c1, t1, c2, t2⟩ d]).map (fun v => -v) := by
      rw [support_swap]; simp
    simp only [detectLoop]
    rw [hpush, getLastD_map_neg, dot_neg_neg, checkSimplex_neg]
    simp only []
    split_ifs with h1 h2
    · simp
    · simp
    · rw [ih]

/-- C5 (amended): when the initial direction is not the zero vector (the
world-space centers of the two shapes do not coincide), `detect(A,tA,B,tB)`
and `detect(B,tB,A,tA)` agree, for every number of rounds: one returns if and
only if the other does, with the same flag. -/
theorem detect_symmetric (fuel : Nat) (c1 : Convex) (t1 : Transform2) (c2 : Convex)
    (t2 : Transform2) (hne : calcInitialDirection c1 t1 c2 t2 ≠ 0) :
    detect fuel c1 t1 c2 t2 = detect fuel c2 t2 c1 t1 := by
  have hdir : calcInitialDirection c2 t2 c1 t1 = -calcInitialDirection c1 t1 c2 t2 := by
    simp only [calcInitialDirection]
    ext <;> simp
  have hne2 : -calcInitialDirection c1 t1 c2 t2 ≠ 0 := neg_ne_zero_vec _ hne
  have hz1 : isZero (calcInitialDirection c1 t1 c2 t2) = false := by simp [isZero, hne]
  have hz2 : isZero (-calcInitialDirection c1 t1 c2 t2) = false := by simp [isZero, hne2]
  simp only [detect, detectCore, hdir, hz1, hz2, List.nil_append, List.getD_cons_zero,
    Bool.false_eq_true, if_false]
  generalize calcInitialDirection c1 t1 c2 t2 = d
  rw [support_swap, dot_neg_neg]
  split_ifs with h
  · simp
  · have := detectLoop_swap c1 t1 c2 t2 fuel [MinkowskiSum.getSupportPoint ⟨c1, t1, c2, t2⟩ d] (-d)
    simp only [List.map_cons, List.map_nil] at this
    rw [this, Option.map_map]
    rfl

/-! ## The contract of detect on polygons -/

theorem detect_of_core (fuel : Nat) (c1 : Convex) (t1 : Transform2) (c2 : Convex)
    (t2 : Transform2) (r : Bool) (simplex : List Vec2)
    (h : detectCore ⟨c1, t1, c2, t2⟩ fuel [] (calcInitialDirection c1 t1 c2 t2) =
      some (r, simplex)) : detect fuel c1 t1 c2 t2 = some r := by
  simp [detect, h]

theorem detect_symmetric_witness :
    calcInitialDirection demoTriangle.toConvex {} demoPolygon.toConvex {} ≠ 0 ∧
    detect 3 demoTriangle.toConvex {} demoPolygon.toConvex {} =
      detect 3 demoPolygon.toConvex {} demoTriangle.toConvex {} :=
  ⟨by decide!, detect_symmetric 3 demoTriangle.toConvex {} demoPolygon.toConvex {} (by decide!)⟩

/-- C5 (as stated) fails: the triangles (1,0),(-1,4),(-2,1) and
(-1,-2),(1,3),(-2,4), both scaled by 1/2048, are accepted by `createTriangle`
and have the same center; under identity transforms `detect(A,B)` returns
false and `detect(B,A)` returns true. -/
theorem detect_not_symmetric :
    createTriangle ⟨1 / 2048, 0⟩ ⟨-1 / 2048, 4 / 2048⟩ ⟨-2 / 2048, 1 / 2048⟩ =
      some ⟨[⟨1 / 2048, 0⟩, ⟨-1 / 2048, 4 / 2048⟩, ⟨-2 / 2048, 1 / 2048⟩],
        ⟨-1 / 3072, 5 / 6144⟩⟩ ∧
    createTriangle ⟨-1 / 2048, -2 / 2048⟩ ⟨1 / 2048, 3 / 2048⟩ ⟨-2 / 2048, 4 / 2048⟩ =
      some ⟨[⟨-1 / 2048, -2 / 2048⟩, ⟨1 / 2048, 3 / 2048⟩, ⟨-2 / 2048, 4 / 2048⟩],
        ⟨-1 / 3072, 5 / 6144⟩⟩ ∧
    (∀ k, detect (3 + k)
      (Polygon.toConvex ⟨[⟨1 / 2048, 0⟩, ⟨-1 / 2048, 4 / 2048⟩, ⟨-2 / 2048, 1 / 2048⟩],
        ⟨-1 / 3072, 5 / 6144⟩⟩) {}
      (Polygon.toConvex ⟨[⟨-1 / 2048, -2 / 2048⟩, ⟨1 / 2048, 3 / 2048⟩, ⟨-2 / 2048, 4 / 2048⟩],
        ⟨-1 / 3072, 5 / 6144⟩⟩) {} = some false) ∧
    (∀ k, detect (3 + k)
      (Polygon.toConvex ⟨[⟨-1 / 2048, -2 / 2048⟩, ⟨1 / 2048, 3 / 2048⟩, ⟨-2 / 2048, 4 / 2048⟩],
        ⟨-1 / 3072, 5 / 6144⟩⟩) {}
      (Polygon.toConvex ⟨[⟨1 / 2048, 0⟩, ⟨-1 / 2048, 4 / 2048⟩, ⟨-2 / 2048, 1 / 2048⟩],
        ⟨-1 / 3072, 5 / 6144⟩⟩) {} = some true) :=
  ⟨by decide!, by decide!, fun k => detect_mono 3 k _ _ _ _ _ (by decide!),
    fun k => detect_mono 3 k _ _ _ _ _ (by decide!)⟩

/-- In exact arithmetic, for every pair of valid polygons and every pair of
transforms the loop of `detect` returns within `|A|*|B| + 4` rounds, and the
flag is the same however many more rounds it is allowed. -/
theorem detect_terminates (pa pb : Polygon) (ta tb : Transform2)
    (hva : pa.valid = true) (hvb : pb.valid = true) :
    ∃ r, ∀ k, detect (pa.vertices.length * pb.vertices.length + 4 + k)
      pa.toConvex ta pb.toConvex tb = some r := by
  have ha := validVertices_ne_nil _ hva
  have hb := validVertices_ne_nil _ hvb
  have h := detectCore_terminates _ _ (polygon_isSupport pa pb ta tb ha hb)
    (calcInitialDirection pa.toConvex ta pb.toConvex tb)
  rw [length_differences] at h
  simp only [Polygon.world, List.length_map] at h
  obtain ⟨r, hr⟩ := Option.isSome_iff_exists.1 h
  refine ⟨r.1, fun k => ?_⟩
  exact detect_of_core _ _ _ _ _ _ r.2 (detectCore_mono _ _ k _ _ _ hr)

/-! ## The demonstration pairs -/

/-- C3: the triangle (4,11),(4,5),(9,9) and the quadrilateral
(5,7),(7,3),(10,2),(12,7) are both accepted by their factories, and under
identity transforms `detect` returns true for them: the loop returns in its
third round, whatever larger number of rounds it is allowed. -/
theorem detect_triangle_polygon :
    createTriangle ⟨4, 11⟩ ⟨4, 5⟩ ⟨9, 9⟩ = some demoTriangle ∧
    createPolygon [⟨5, 7⟩, ⟨7, 3⟩, ⟨10, 2⟩, ⟨12, 7⟩] = some demoPolygon ∧
    ∀ k, detect (3 + k) demoTriangle.toConvex {} demoPolygon.toConvex {} = some true :=
  ⟨by decide!, by decide!, fun k => detect_mono 3 k _ _ _ _ _ (by decide!)⟩

/-- C4: the quadrilateral (5,7),(7,3),(10,2),(12,7) and the rectangle produced
by `createRectangle(10, 12)`, with corners (-5,-6),(5,-6),(5,6),(-5,6) and
center (0,0), are reported as not intersecting under identity transforms:
`detect` returns false, before its loop is entered. -/
theorem detect_polygon_rectangle :
    createPolygon [⟨5, 7⟩, ⟨7, 3⟩, ⟨10, 2⟩, ⟨12, 7⟩] = some demoPolygon ∧
    createRectangle 10 12 = some demoRectangle ∧
    demoRectangle.vertices = [⟨-5, -6⟩, ⟨5, -6⟩, ⟨5, 6⟩, ⟨-5, 6⟩] ∧
    demoRectangle.center = ⟨0, 0⟩ ∧
    ∀ fuel, detect fuel demoPolygon.toConvex {} demoRectangle.toConvex {} = some false :=
  ⟨by decide!, by decide!, rfl, rfl, fun k => by
    have h := detect_mono 0 k demoPolygon.toConvex {} demoRectangle.toConvex {} false (by decide!)
    simpa using h⟩

/-! ## The segment case of the simplex test -/

theorem tripleProduct_segment_expand (ab ao : Vec2) :
    tripleProduct ab ao ab = magnitudeSquared ab • ao - dot ao ab • ab := by
  ext <;> simp only [tripleProduct, magnitudeSquared, dot, Vec2.smul_x, Vec2.smul_y,
    Vec2.sub_x, Vec2.sub_y] <;> ring

theorem left_ne_zero (v : Vec2) (h : v ≠ 0) : left v ≠ 0 := by
  intro h0
  apply h
  have hx := congrArg Vec2.x h0
  have hy := congrArg Vec2.y h0
  simp [left] at hx hy
  ext <;> simp [hx, hy]

theorem sub_ne_zero_vec (b a : Vec2) (h : a ≠ b) : b - a ≠ 0 := by
  intro h0
  apply h
  have hx := congrArg Vec2.x h0
  have hy := congrArg Vec2.y h0
  simp at hx hy
  ext
  · linarith
  · linarith

/-- C18: on a 2-point simplex `[b, a]` with `a ≠ b`, `checkSimplex` returns
false and keeps both points; the new direction is non-zero and perpendicular
to `ab = b - a`. When the squared magnitude of the triple product is above the
epsilon, the direction is `|ab|^2 * ao - dot(ao, ab) * ab`, the component of
`ao = -a` perpendicular to `ab` scaled by `|ab|^2`, and `dot(direction, ao) > 0`;
otherwise the direction is the left-hand normal of `ab`. -/
theorem checkSimplex_segment (b a d : Vec2) (hab : a ≠ b) :
    (checkSimplex [b, a] d).1 = false ∧ (checkSimplex [b, a] d).2.1 = [b, a] ∧
    (checkSimplex [b, a] d).2.2 ≠ 0 ∧ dot (checkSimplex [b, a] d).2.2 (b - a) = 0 ∧
    (epsilonDouble < magnitudeSquared (tripleProduct (b - a) (-a) (b - a)) →
      (checkSimplex [b, a] d).2.2 =
        magnitudeSquared (b - a) • (-a) - dot (-a) (b - a) • (b - a) ∧
      0 < dot (checkSimplex [b, a] d).2.2 (-a)) ∧
    (magnitudeSquared (tripleProduct (b - a) (-a) (b - a)) ≤ epsilonDouble →
      (checkSimplex [b, a] d).2.2 = left (b - a)) := by
  have hne : b - a ≠ 0 := sub_ne_zero_vec b a hab
  rw [checkSimplex_two]
  by_cases h : magnitudeSquared (tripleProduct (b - a) (-a) (b - a)) ≤ epsilonDouble
  · rw [if_pos h]
    refine ⟨rfl, rfl, left_ne_zero _ hne, ?_, fun h2 => absurd h (not_le.2 h2), fun _ => rfl⟩
    simp only [left, dot]; ring
  · rw [if_neg h]
    have hpos : 0 < magnitudeSquared (tripleProduct (b - a) (-a) (b - a)) :=
      lt_trans epsilonDouble_pos (not_le.1 h)
    have hT : tripleProduct (b - a) (-a) (b - a) ≠ 0 := by
      intro h0
      rw [h0] at hpos
      simp [magnitudeSquared] at hpos
    have hX : cross (b - a) (-a) ≠ 0 := by
      intro h0
      apply hT
      rw [tripleProduct_eq, h0]
      ext <;> simp
    refine ⟨rfl, rfl, hT, ?_, fun _ => ⟨tripleProduct_segment_expand _ _, ?_⟩,
      fun h2 => absurd h2 h⟩
    · simp only [tripleProduct, dot]; ring
    · have e : dot (tripleProduct (b - a) (-a) (b - a)) (-a) = cross (b - a) (-a) ^ 2 := by
        simp only [tripleProduct, dot, cross]; ring
      show 0 < dot (tripleProduct (b - a) (-a) (b - a)) (-a)
      rw [e]
      positivity

theorem checkSimplex_segment_witness :
    (checkSimplex [⟨1, 1⟩, ⟨0, 1⟩] 0).1 = false ∧ (checkSimplex [⟨1, 1⟩, ⟨0, 1⟩] 0).2.1 = [⟨1, 1⟩, ⟨0, 1⟩] ∧
    (checkSimplex [⟨1, 1⟩, ⟨0, 1⟩] 0).2.2 ≠ 0 ∧
    dot (checkSimplex [⟨1, 1⟩, ⟨0, 1⟩] 0).2.2 ((⟨1, 1⟩ : Vec2) - ⟨0, 1⟩) = 0 ∧
    (epsilonDouble < magnitudeSquared
        (tripleProduct ((⟨1, 1⟩ : Vec2) - ⟨0, 1⟩) (-⟨0, 1⟩) ((⟨1, 1⟩ : Vec2) - ⟨0, 1⟩)) →
      (checkSimplex [⟨1, 1⟩, ⟨0, 1⟩] 0).2.2 =
        magnitudeSquared ((⟨1, 1⟩ : Vec2) - ⟨0, 1⟩) • (-⟨0, 1⟩) -
          dot (-⟨0, 1⟩) ((⟨1, 1⟩ : Vec2) - ⟨0, 1⟩) • ((⟨1, 1⟩ : Vec2) - ⟨0, 1⟩) ∧
      0 < dot (checkSimplex [⟨1, 1⟩, ⟨0, 1⟩] 0).2.2 (-⟨0, 1⟩)) ∧
    (magnitudeSquared
        (tripleProduct ((⟨1, 1⟩ : Vec2) - ⟨0, 1⟩) (-⟨0, 1⟩) ((⟨1, 1⟩ : Vec2) - ⟨0, 1⟩)) ≤ epsilonDouble →
      (checkSimplex [⟨1, 1⟩, ⟨0, 1⟩] 0).2.2 = left ((⟨1, 1⟩ : Vec2) - ⟨0, 1⟩)) :=
  checkSimplex_segment ⟨1, 1⟩ ⟨0, 1⟩ 0 (by decide)

/-! ## The edge normals of the triangle case -/

/-- C17, as written: with `triple(a,b,c) = b*dot(a,c) - c*dot(a,b)` the vector
`acPerp = triple(ab, ac, ac)` of a non-degenerate triangle is the zero vector,
so it is not a non-zero perpendicular with `dot(acPerp, ab) < 0`. -/
theorem tripleSpec_not_outward :
    ¬ ∀ a b c : Vec2, cross (b - a) (c - a) ≠ 0 →
      tripleSpec (b - a) (c - a) (c - a) ≠ 0 ∧
        dot (tripleSpec (b - a) (c - a) (c - a)) (b - a) < 0 := by
  intro h
  exact (h 0 ⟨1, 0⟩ ⟨0, 1⟩ (by decide!)).1 (tripleSpec_triangle _ _)

/-- C17, amended: with the triple product `triple(a,b,c) = b*dot(a,c) -
a*dot(b,c)`, for every non-degenerate triangle the vectors
`acPerp = triple(ab, ac, ac)` and `abPerp = triple(ac, ab, ab)` are non-zero,
perpendicular to their edge and point away from the third vertex. -/
theorem tripleProduct_outward (a b c : Vec2) (hX : cross (b - a) (c - a) ≠ 0) :
    tripleProduct (b - a) (c - a) (c - a) ≠ 0 ∧
    dot (tripleProduct (b - a) (c - a) (c - a)) (c - a) = 0 ∧
    dot (tripleProduct (b - a) (c - a) (c - a)) (b - a) < 0 ∧
    tripleProduct (c - a) (b - a) (b - a) ≠ 0 ∧
    dot (tripleProduct (c - a) (b - a) (b - a)) (b - a) = 0 ∧
    dot (tripleProduct (c - a) (b - a) (b - a)) (c - a) < 0 := by
  have e1 : dot (tripleProduct (b - a) (c - a) (c - a)) (b - a) = -(cross (b - a) (c - a)) ^ 2 := by
    simp only [tripleProduct, dot, cross]; ring
  have e2 : dot (tripleProduct (c - a) (b - a) (b - a)) (c - a) = -(cross (b - a) (c - a)) ^ 2 := by
    simp only [tripleProduct, dot, cross]; ring
  have hsq : 0 < (cross (b - a) (c - a)) ^ 2 := by positivity
  have n1 : dot (tripleProduct (b - a) (c - a) (c - a)) (b - a) < 0 := by rw [e1]; linarith
  have n2 : dot (tripleProduct (c - a) (b - a) (b - a)) (c - a) < 0 := by rw [e2]; linarith
  refine ⟨?_, ?_, n1, ?_, ?_, n2⟩
  · intro h0
    rw [h0] at n1
    simp [dot] at n1
  · simp only [tripleProduct, dot]; ring
  · intro h0
    rw [h0] at n2
    simp [dot] at n2
  · simp only [tripleProduct, dot]; ring

theorem tripleProduct_outward_witness :
    tripleProduct ((⟨1, 0⟩ : Vec2) - 0) ((⟨0, 1⟩ : Vec2) - 0) ((⟨0, 1⟩ : Vec2) - 0) ≠ 0 ∧
    dot (tripleProduct ((⟨1, 0⟩ : Vec2) - 0) ((⟨0, 1⟩ : Vec2) - 0) ((⟨0, 1⟩ : Vec2) - 0))
      ((⟨0, 1⟩ : Vec2) - 0) = 0 ∧
    dot (tripleProduct ((⟨1, 0⟩ : Vec2) - 0) ((⟨0, 1⟩ : Vec2) - 0) ((⟨0, 1⟩ : Vec2) - 0))
      ((⟨1, 0⟩ : Vec2) - 0) < 0 ∧
    tripleProduct ((⟨0, 1⟩ : Vec2) - 0) ((⟨1, 0⟩ : Vec2) - 0) ((⟨1, 0⟩ : Vec2) - 0) ≠ 0 ∧
    dot (tripleProduct ((⟨0, 1⟩ : Vec2) - 0) ((⟨1, 0⟩ : Vec2) - 0) ((⟨1, 0⟩ : Vec2) - 0))
      ((⟨1, 0⟩ : Vec2) - 0) = 0 ∧
    dot (tripleProduct ((⟨0, 1⟩ : Vec2) - 0) ((⟨1, 0⟩ : Vec2) - 0) ((⟨1, 0⟩ : Vec2) - 0))
      ((⟨0, 1⟩ : Vec2) - 0) < 0 :=
  tripleProduct_outward 0 ⟨1, 0⟩ ⟨0, 1⟩ (by decide!)

/-! ## The triangle case of the simplex test -/

theorem pluecker (a b c : Vec2) :
    cross b c • a + cross c a • b + cross a b • c = 0 := by
  ext <;> simp only [cross, Vec2.add_x, Vec2.add_y, Vec2.smul_x, Vec2.smul_y,
    Vec2.zero_x, Vec2.zero_y] <;> ring

theorem cross_sum (a b c : Vec2) :
    cross (b - a) (c - a) = cross a b + cross b c + cross c a := by
  simp only [cross, Vec2.sub_x, Vec2.sub_y]; ring

/-- C16, as written: on the simplex `[c, b, a]` with `c = (1, 1)`,
`b = (-1, 1)`, `a = (0, 2)`, `checkSimplex` returns true, and the origin is
not in the triangle: it is beyond the edge `bc`, which is not tested. -/
theorem checkSimplex_true_outside :
    (checkSimplex [⟨1, 1⟩, ⟨-1, 1⟩, ⟨0, 2⟩] ⟨0, 1⟩).1 = true ∧
      ¬ OriginInTriangle ⟨0, 2⟩ ⟨-1, 1⟩ ⟨1, 1⟩ := by
  refine ⟨by decide!, ?_⟩
  rintro ⟨la, lb, lc, ha, hb, hc, hs, h0⟩
  have hy := congrArg Vec2.y h0
  simp at hy
  linarith

theorem originInTriangle_weights (a b c : Vec2) (h : OriginInTriangle a b c) :
    ∃ la lb lc : ℚ, 0 ≤ la ∧ 0 ≤ lb ∧ 0 ≤ lc ∧
      cross b c = la * cross (b - a) (c - a) ∧ cross c a = lb * cross (b - a) (c - a) ∧
      cross a b = lc * cross (b - a) (c - a) := by
  obtain ⟨la, lb, lc, ha, hb, hc, hs, h0⟩ := h
  have hx := congrArg Vec2.x h0
  have hy := congrArg Vec2.y h0
  simp only [Vec2.add_x, Vec2.add_y, Vec2.smul_x, Vec2.smul_y, Vec2.zero_x, Vec2.zero_y] at hx hy
  refine ⟨la, lb, lc, ha, hb, hc, ?_, ?_, ?_⟩
  · simp only [cross, Vec2.sub_x, Vec2.sub_y]
    linear_combination (c.y - b.y) * hx + (b.x - c.x) * hy - (b.x * c.y - b.y * c.x) * hs
  · simp only [cross, Vec2.sub_x, Vec2.sub_y]
    linear_combination (a.y - c.y) * hx + (c.x - a.x) * hy - (c.x * a.y - c.y * a.x) * hs
  · simp only [cross, Vec2.sub_x, Vec2.sub_y]
    linear_combination (b.y - a.y) * hx + (a.x - b.x) * hy - (a.x * b.y - a.y * b.x) * hs

theorem weight_pos (l X u : ℚ) (hl : 0 ≤ l) (hX : X ≠ 0) (hu : u = l * X) (hne : u ≠ 0) :
    0 < X * u := by
  have hl0 : l ≠ 0 := by
    intro h0
    apply hne
    rw [hu, h0, zero_mul]
  have hlpos : 0 < l := lt_of_le_of_ne hl (Ne.symm hl0)
  have hsq : 0 < X ^ 2 := by positivity
  have : X * u = l * X ^ 2 := by rw [hu]; ring
  rw [this]
  exact mul_pos hlpos hsq

/-- C16, amended: on a 3-point simplex `[c, b, a]` of a non-degenerate
triangle whose edge `bc` does not have the origin strictly beyond it (as for
every triangle the loop of `detect` builds), `checkSimplex` returns true
exactly when the origin is in the triangle and on neither of the lines
through `a, b` and `a, c`, and then leaves the simplex and the direction as
they are; when it returns false the simplex has lost `b` or `c` and the
direction is the normal `acPerp` or `abPerp` of the edge that is kept. -/
theorem checkSimplex_triangle (c b a d : Vec2) (hX : cross (b - a) (c - a) ≠ 0)
    (hbc : 0 ≤ cross (b - a) (c - a) * cross b c) :
    ((checkSimplex [c, b, a] d).1 = true ↔
      (OriginInTriangle a b c ∧ cross a b ≠ 0 ∧ cross c a ≠ 0)) ∧
    ((checkSimplex [c, b, a] d).1 = true → checkSimplex [c, b, a] d = (true, [c, b, a], d)) ∧
    ((checkSimplex [c, b, a] d).1 = false →
      ((checkSimplex [c, b, a] d).2 = ([c, a], tripleProduct (b - a) (c - a) (c - a)) ∨
       (checkSimplex [c, b, a] d).2 = ([b, a], tripleProduct (c - a) (b - a) (b - a)))) := by
  have e3 : tripleProduct (c - a) (b - a) (b - a) = (-cross (b - a) (c - a)) • perp (b - a) := by
    rw [tripleProduct_eq]
    congr 1
    simp only [cross, Vec2.sub_x, Vec2.sub_y]; ring
  have eac : cross a c = -cross c a := by simp only [cross]; ring
  rw [checkSimplex_three, e3, tripleProduct_eq]
  by_cases h1 : 0 ≤ cross (b - a) (c - a) * cross a c
  · rw [if_pos h1]
    refine ⟨⟨fun h => by simp at h, ?_⟩, fun h => by simp at h, fun _ => Or.inl rfl⟩
    rintro ⟨hin, _, hw⟩
    obtain ⟨la, lb, lc, _, hb, _, _, ew, _⟩ := originInTriangle_weights a b c hin
    have := weight_pos lb _ _ hb hX ew hw
    rw [eac] at h1
    linarith
  · rw [if_neg h1]
    by_cases h2 : cross (b - a) (c - a) * cross a b > 0
    · rw [if_pos h2]
      refine ⟨⟨fun _ => ⟨?_, ?_, ?_⟩, fun _ => rfl⟩, fun _ => rfl, fun h => by simp at h⟩
      · have hw : 0 < cross (b - a) (c - a) * cross c a := by
          rw [eac] at h1
          linarith [not_le.1 h1]
        have hsq : 0 < cross (b - a) (c - a) ^ 2 := by positivity
        refine ⟨cross b c / cross (b - a) (c - a), cross c a / cross (b - a) (c - a),
          cross a b / cross (b - a) (c - a), ?_, ?_, ?_, ?_, ?_⟩
        · rw [div_eq_mul_inv, show cross b c * (cross (b - a) (c - a))⁻¹ =
            (cross (b - a) (c - a) * cross b c) * ((cross (b - a) (c - a)) ^ 2)⁻¹ by
              field_simp; ring]
          exact mul_nonneg hbc (le_of_lt (inv_pos.2 hsq))
        · rw [div_eq_mul_inv, show cross c a * (cross (b - a) (c - a))⁻¹ =
            (cross (b - a) (c - a) * cross c a) * ((cross (b - a) (c - a)) ^ 2)⁻¹ by
              field_simp; ring]
          exact mul_nonneg (le_of_lt hw) (le_of_lt (inv_pos.2 hsq))
        · rw [div_eq_mul_inv, show cross a b * (cross (b - a) (c - a))⁻¹ =
            (cross (b - a) (c - a) * cross a b) * ((cross (b - a) (c - a)) ^ 2)⁻¹ by
              field_simp; ring]
          exact mul_nonneg (le_of_lt h2) (le_of_lt (inv_pos.2 hsq))
        · rw [← add_div, ← add_div, div_eq_one_iff_eq hX, cross_sum]
          ring
        · have hp := pluecker a b c
          have hx := congrArg Vec2.x hp
          have hy := congrArg Vec2.y hp
          simp only [Vec2.add_x, Vec2.add_y, Vec2.smul_x, Vec2.smul_y, Vec2.zero_x,
            Vec2.zero_y] at hx hy
          ext
          · simp only [Vec2.add_x, Vec2.smul_x, Vec2.zero_x]
            field_simp
            linarith
          · simp only [Vec2.add_y, Vec2.smul_y, Vec2.zero_y]
            field_simp
            linarith
      · intro h0
        rw [h0, mul_zero] at h2
        exact lt_irrefl _ h2
      · intro h0
        apply h1
        rw [eac, h0, neg_zero, mul_zero]
    · rw [if_neg h2]
      refine ⟨⟨fun h => by simp at h, ?_⟩, fun h => by simp at h, fun _ => Or.inr rfl⟩
      rintro ⟨hin, hu, _⟩
      obtain ⟨la, lb, lc, _, _, hc, _, _, eu⟩ := originInTriangle_weights a b c hin
      exact absurd (weight_pos lc _ _ hc hX eu hu) h2

theorem checkSimplex_triangle_witness :
    ((checkSimplex [⟨1, -1⟩, ⟨-1, -1⟩, ⟨0, 2⟩] ⟨0, 1⟩).1 = true ↔
      (OriginInTriangle ⟨0, 2⟩ ⟨-1, -1⟩ ⟨1, -1⟩ ∧ cross (⟨0, 2⟩ : Vec2) ⟨-1, -1⟩ ≠ 0 ∧
        cross (⟨1, -1⟩ : Vec2) ⟨0, 2⟩ ≠ 0)) ∧
    ((checkSimplex [⟨1, -1⟩, ⟨-1, -1⟩, ⟨0, 2⟩] ⟨0, 1⟩).1 = true →
      checkSimplex [⟨1, -1⟩, ⟨-1, -1⟩, ⟨0, 2⟩] ⟨0, 1⟩ =
        (true, [⟨1, -1⟩, ⟨-1, -1⟩, ⟨0, 2⟩], ⟨0, 1⟩)) ∧
    ((checkSimplex [⟨1, -1⟩, ⟨-1, -1⟩, ⟨0, 2⟩] ⟨0, 1⟩).1 = false →
      ((checkSimplex [⟨1, -1⟩, ⟨-1, -1⟩, ⟨0, 2⟩] ⟨0, 1⟩).2 =
          ([⟨1, -1⟩, ⟨0, 2⟩],
            tripleProduct ((⟨-1, -1⟩ : Vec2) - ⟨0, 2⟩) ((⟨1, -1⟩ : Vec2) - ⟨0, 2⟩)
              ((⟨1, -1⟩ : Vec2) - ⟨0, 2⟩)) ∨
       (checkSimplex [⟨1, -1⟩, ⟨-1, -1⟩, ⟨0, 2⟩] ⟨0, 1⟩).2 =
          ([⟨-1, -1⟩, ⟨0, 2⟩],
            tripleProduct ((⟨1, -1⟩ : Vec2) - ⟨0, 2⟩) ((⟨-1, -1⟩ : Vec2) - ⟨0, 2⟩)
              ((⟨-1, -1⟩ : Vec2) - ⟨0, 2⟩)))) :=
  checkSimplex_triangle ⟨1, -1⟩ ⟨-1, -1⟩ ⟨0, 2⟩ ⟨0, 1⟩ (by decide!) (by decide!)

/-- In the loop the precondition of the triangle test holds: when the
direction of the segment `[c, b]` points toward the origin and the new support
point `a` is past the origin, the origin is not strictly beyond the edge `bc`
of the triangle. -/
theorem towardOrigin_edge_passed (c b a d : Vec2) (hst : TowardOrigin c b d)
    (ha : 0 < dot a d) : 0 ≤ cross (b - a) (c - a) * cross b c := by
  obtain ⟨_, ⟨k, hk, hd⟩, hbd⟩ := hst
  have eb : dot b d = -(k * cross b c) := by
    rw [hd]; simp [dot, cross, perp]; ring
  have ea : dot a d = k * (cross c a + cross a b) := by
    rw [hd]; simp [dot, cross, perp]; ring
  rw [cross_sum]
  rw [eb] at hbd
  rw [ea] at ha
  generalize cross a b = u at *
  generalize cross b c = v at *
  generalize cross c a = w at *
  have hkv : 0 ≤ k * v := by linarith
  have hkX : 0 < k * (u + v + w) := by linarith
  have h5 : 0 ≤ (k * v) * (k * (u + v + w)) := mul_nonneg hkv (le_of_lt hkX)
  have hk2 : 0 < k ^ 2 := by positivity
  have h6 : (k * v) * (k * (u + v + w)) = k ^ 2 * ((u + v + w) * v) := by ring
  rw [h6] at h5
  exact nonneg_of_mul_nonneg_right h5 hk2

/-! ## The simplex during a run -/

/-- The recorded rounds are those of `detectLoop`: the loop returns what the
last recorded round decides. -/
theorem detectLoop_eq_rounds (m : MinkowskiSum) (fuel : Nat) (simplex : List Vec2)
    (direction : Vec2) :
    detectLoop m fuel simplex direction = roundsResult (loopRounds m fuel simplex direction) := by
  induction fuel generalizing simplex direction with
  | zero => rfl
  | succ n ih =>
    simp only [detectLoop, loopRounds]
    split_ifs with h1 h2
    · rfl
    · simp [roundsResult, h2]
    · rw [ih]
      cases hl : loopRounds m n (checkSimplex (simplex ++ [m.getSupportPoint direction]) direction).2.1
          (checkSimplex (simplex ++ [m.getSupportPoint direction]) direction).2.2 with
      | nil => simp [roundsResult, h2]
      | cons r rs => simp [roundsResult]

theorem detectCore_eq_rounds (m : MinkowskiSum) (fuel : Nat) (simplex : List Vec2)
    (direction : Vec2) :
    detectCore m fuel simplex direction =
      if dot ((simplex ++ [m.getSupportPoint (firstDirection direction)]).getD 0 0)
          (firstDirection direction) ≤ 0 then
        some (false, simplex ++ [m.getSupportPoint (firstDirection direction)])
      else roundsResult (coreRounds m fuel simplex direction) := by
  simp only [detectCore, coreRounds, firstDirection]
  split_ifs <;> first | rfl | exact detectLoop_eq_rounds _ _ _ _

/-- The shape of the result of `checkSimplex` on a simplex of 2 or 3 points. -/
theorem checkSimplex_shape (s : List Vec2) (d : Vec2) (hs : s.length = 2 ∨ s.length = 3) :
    (checkSimplex s d).2.1.length ≤ 3 ∧
    ((checkSimplex s d).1 = true → (checkSimplex s d).2.1 = s) ∧
    ((checkSimplex s d).1 = false →
      (checkSimplex s d).2.1.length = 2 ∧ (checkSimplex s d).2.1.getLast? = s.getLast? ∧
      (s.length = 2 → (checkSimplex s d).2.1 = s) ∧
      (s.length = 3 →
        (checkSimplex s d).2.1 = s.eraseIdx 0 ∨ (checkSimplex s d).2.1 = s.eraseIdx 1)) := by
  rcases hs with hs | hs
  · match s, hs with
    | [b, a], _ =>
      rw [checkSimplex_two]
      split_ifs <;> simp
  · match s, hs with
    | [c, b, a], _ =>
      rw [checkSimplex_three]
      split_ifs <;> simp

theorem loopRounds_invariant (m : MinkowskiSum) (n : Nat) (s : List Vec2) (d : Vec2)
    (hs : s.length = 1 ∨ s.length = 2) :
    ∀ r ∈ loopRounds m n s d,
      (r.simplex.length = 2 ∨ r.simplex.length = 3) ∧
      r.simplex.getLast? = some (m.getSupportPoint r.direction) ∧
      ∀ res, r.check = some res → res = checkSimplex r.simplex r.direction := by
  induction n generalizing s d with
  | zero => intro r hr; simp [loopRounds] at hr
  | succ n ih =>
    have hlen : (s ++ [m.getSupportPoint d]).length = 2 ∨
        (s ++ [m.getSupportPoint d]).length = 3 := by
      rcases hs with hs | hs
      · left; simp [hs]
      · right; simp [hs]
    intro r hr
    simp only [loopRounds] at hr
    split_ifs at hr with h1 h2
    · simp only [List.mem_singleton] at hr
      subst hr
      exact ⟨hlen, by simp, fun res h => by simp at h⟩
    · simp only [List.mem_singleton] at hr
      subst hr
      refine ⟨hlen, by simp, fun res h => ?_⟩
      simp only [Option.some.injEq] at h
      exact h.symm
    · rcases List.mem_cons.1 hr with hr | hr
      · subst hr
        refine ⟨hlen, by simp, fun res h => ?_⟩
        simp only [Option.some.injEq] at h
        exact h.symm
      · have hf : (checkSimplex (s ++ [m.getSupportPoint d]) d).1 = false := by
          simpa using h2
        exact ih _ _ (Or.inr ((checkSimplex_shape _ d hlen).2.2 hf).1) r hr

theorem loopRounds_head (m : MinkowskiSum) (n : Nat) (s : List Vec2) (d : Vec2) :
    ∀ r ∈ (loopRounds m n s d).head?, r.direction = d ∧ r.simplex = s ++ [m.getSupportPoint d] := by
  cases n with
  | zero => intro r hr; simp [loopRounds] at hr
  | succ n =>
    intro r hr
    simp only [loopRounds] at hr
    split_ifs at hr <;> simp at hr <;> subst hr <;> exact ⟨rfl, rfl⟩

theorem loopRounds_chain (m : MinkowskiSum) (n : Nat) (s : List Vec2) (d : Vec2) :
    List.Chain' (RoundLink m) (loopRounds m n s d) := by
  induction n generalizing s d with
  | zero => simp [loopRounds]
  | succ n ih =>
    simp only [loopRounds]
    split_ifs with h1 h2
    · simp
    · simp
    · rw [List.chain'_cons']
      refine ⟨fun r1 hr1 => ?_, ih _ _⟩
      obtain ⟨e1, e2⟩ := loopRounds_head m n _ _ r1 hr1
      exact ⟨_, rfl, by simpa using h2, e1, e2⟩

theorem coreRounds_unfold (m : MinkowskiSum) (fuel : Nat) (direction : Vec2) :
    coreRounds m fuel [] direction =
      if dot (m.getSupportPoint (firstDirection direction)) (firstDirection direction) ≤ 0 then []
      else loopRounds m fuel [m.getSupportPoint (firstDirection direction)]
        (-(firstDirection direction)) := by
  simp only [coreRounds, firstDirection, List.nil_append, List.getD_cons_zero]

/-- C15: in every run of `detect`, every round of the loop holds a simplex of 2
or 3 points whose last element is the support point just pushed, and
`checkSimplex` is called on that simplex; its result never has more than 3
points, is the simplex unchanged when it returns true, and when it returns
false has exactly 2 points with the newest point still last: both points of a
2-point simplex, or a 3-point simplex with one of the two older points erased.
Consecutive rounds are linked: the next round pushes onto the simplex that
`checkSimplex` left. -/
theorem simplex_invariant (m : MinkowskiSum) (fuel : Nat) (direction : Vec2) :
    (∀ r ∈ coreRounds m fuel [] direction,
      (r.simplex.length = 2 ∨ r.simplex.length = 3) ∧
      r.simplex.getLast? = some (m.getSupportPoint r.direction) ∧
      ∀ res, r.check = some res →
        res = checkSimplex r.simplex r.direction ∧ res.2.1.length ≤ 3 ∧
        (res.1 = true → res.2.1 = r.simplex) ∧
        (res.1 = false →
          res.2.1.length = 2 ∧ res.2.1.getLast? = r.simplex.getLast? ∧
          (r.simplex.length = 2 → res.2.1 = r.simplex) ∧
          (r.simplex.length = 3 →
            res.2.1 = r.simplex.eraseIdx 0 ∨ res.2.1 = r.simplex.eraseIdx 1))) ∧
    List.Chain' (RoundLink m) (coreRounds m fuel [] direction) ∧
    detectCore m fuel [] direction =
      (if dot (m.getSupportPoint (firstDirection direction)) (firstDirection direction) ≤ 0 then
        some (false, [m.getSupportPoint (firstDirection direction)])
      else roundsResult (coreRounds m fuel [] direction)) := by
  refine ⟨?_, ?_, ?_⟩
  · intro r hr
    rw [coreRounds_unfold] at hr
    by_cases h1 : dot (m.getSupportPoint (firstDirection direction)) (firstDirection direction) ≤ 0
    · rw [if_pos h1] at hr
      simp at hr
    · rw [if_neg h1] at hr
      obtain ⟨h2, h3, h4⟩ := loopRounds_invariant m fuel _ _ (Or.inl (by simp)) r hr
      refine ⟨h2, h3, fun res hres => ?_⟩
      have e := h4 res hres
      rw [e]
      exact ⟨rfl, checkSimplex_shape _ _ h2⟩
  · rw [coreRounds_unfold]
    by_cases h1 : dot (m.getSupportPoint (firstDirection direction)) (firstDirection direction) ≤ 0
    · rw [if_pos h1]
      simp
    · rw [if_neg h1]
      exact loopRounds_chain _ _ _ _
  · rw [detectCore_eq_rounds]
    simp

/-- On the triangle and the quadrilateral of the demonstration the loop runs
three rounds, of 2, 3 and 3 points. -/
theorem coreRounds_demo :
    (coreRounds ⟨demoTriangle.toConvex, {}, demoPolygon.toConvex, {}⟩ 3 []
      (calcInitialDirection demoTriangle.toConvex {} demoPolygon.toConvex {})).map
        (fun r => r.simplex.length) = [2, 3, 3] := by
  decide!

/-! ## The directions of the support queries -/

theorem loopRounds_mem (m : MinkowskiSum) (n : Nat) (s : List Vec2) (d : Vec2) (r : Round)
    (hr : r ∈ loopRounds m (n + 1) s d) :
    r.direction = d ∨
      (0 < dot (m.getSupportPoint d) d ∧
        (checkSimplex (s ++ [m.getSupportPoint d]) d).1 = false ∧
        r ∈ loopRounds m n (checkSimplex (s ++ [m.getSupportPoint d]) d).2.1
          (checkSimplex (s ++ [m.getSupportPoint d]) d).2.2) := by
  simp only [loopRounds, List.getLastD_concat] at hr
  split_ifs at hr with h1 h2
  · simp only [List.mem_singleton] at hr
    left; rw [hr]
  · simp only [List.mem_singleton] at hr
    left; rw [hr]
  · rcases List.mem_cons.1 hr with hr | hr
    · left; rw [hr]
    · right
      exact ⟨not_le.1 h1, by simpa using h2, hr⟩

/-- From a segment whose direction points toward the origin, every later
round of the loop queries a non-zero direction. -/
theorem loopRounds_direction_ne_zero (m : MinkowskiSum) :
    ∀ n c b d, TowardOrigin c b d → ∀ r ∈ loopRounds m n [c, b] d, r.direction ≠ 0 := by
  intro n
  induction n with
  | zero => intro c b d _ r hr; simp [loopRounds] at hr
  | succ n ih =>
    intro c b d hst r hr
    rcases loopRounds_mem m n _ d r hr with h | ⟨ha, hf, hmem⟩
    · rw [h]; exact towardOrigin_dir_ne_zero c b d hst
    · have hX := towardOrigin_cross_ne_zero c b _ d hst ha
      simp only [List.cons_append, List.nil_append] at hf hmem
      rw [checkSimplex_three] at hf hmem
      by_cases h3 : 0 ≤ cross (b - m.getSupportPoint d) (c - m.getSupportPoint d) *
          cross (m.getSupportPoint d) c
      · rw [if_pos h3] at hmem
        exact ih c _ _ (towardOrigin_keep c b _ hX h3) r hmem
      · rw [if_neg h3] at hf hmem
        by_cases h4 : cross (b - m.getSupportPoint d) (c - m.getSupportPoint d) *
            cross (m.getSupportPoint d) b > 0
        · rw [if_pos h4] at hf
          simp at hf
        · rw [if_neg h4] at hmem
          exact ih b _ _ (towardOrigin_drop c b _ hX h4) r hmem

/-- With every support point on one closed side of a line through the origin,
the triangle test cannot answer true on a segment that had the origin strictly
ahead, or that has replaced a point lying strictly behind it. -/
theorem touching_triangle_false (c b a d nv : Vec2) (hnv : nv ≠ 0)
    (hst : TowardOrigin c b d) (ha : 0 < dot a d)
    (hc : dot c nv ≤ 0) (hb : dot b nv ≤ 0) (hna : dot a nv ≤ 0)
    (hex : dot b d < 0 ∨ ∃ p, dot p nv ≤ 0 ∧ dot p d < dot b d)
    (h3 : ¬ 0 ≤ cross (b - a) (c - a) * cross a c)
    (h4 : cross (b - a) (c - a) * cross a b > 0) : False := by
  obtain ⟨_, ⟨k, hk, hd⟩, hbd⟩ := hst
  have eX : cross (b - a) (c - a) = cross a b + cross b c + cross c a := by
    simp [cross]; ring
  have eb : dot b d = -(k * cross b c) := by
    rw [hd]; simp [dot, cross, perp]; ring
  have ea : dot a d = k * (cross c a + cross a b) := by
    rw [hd]; simp [dot, cross, perp]; ring
  have eac : cross a c = -cross c a := by simp [cross]; ring
  have pl : cross b c * dot a nv + cross c a * dot b nv + cross a b * dot c nv = 0 := by
    simp [dot, cross]; ring
  have bc : ∀ p : Vec2, dot a nv * dot p d - dot p nv * dot a d =
      k * (dot c nv - dot b nv) * cross a p := by
    intro p
    rw [hd]; simp [dot, cross, perp]; ring
  have ux : nv.x * cross a b = dot a nv * b.y - dot b nv * a.y := by
    simp [dot, cross]; ring
  have uy : nv.y * cross a b = dot b nv * a.x - dot a nv * b.x := by
    simp [dot, cross]; ring
  rw [eX, eac] at h3
  rw [eX] at h4
  rw [eb] at hex hbd
  rw [ea] at ha
  have hex2 : 0 < k * cross b c ∨ ∃ p : Vec2, dot p nv ≤ 0 ∧ dot p d < 0 := by
    rcases hex with h | ⟨p, hp1, hp2⟩
    · left; linarith
    · right; exact ⟨p, hp1, by linarith⟩
  clear hex
  generalize cross a b = u at *
  generalize cross b c = v at *
  generalize cross c a = w at *
  generalize dot a nv = na at *
  generalize dot b nv = nb at *
  generalize dot c nv = nc at *
  push_neg at h3
  have hXw : 0 < (u + v + w) * w := by linarith
  have hXu : 0 < (u + v + w) * u := h4
  have hkv : 0 ≤ k * v := by linarith
  have hkuw : 0 < k * (w + u) := by linarith
  have hX2 : 0 < (u + v + w) ^ 2 := by
    have : u + v + w ≠ 0 := by
      intro h0
      rw [h0, zero_mul] at hXu
      exact lt_irrefl _ hXu
    positivity
  have hkX : 0 < k * (u + v + w) := by
    have h5 : 0 < (u + v + w) * (w + u) := by linarith
    have h6 : 0 < (k * (w + u)) * ((u + v + w) * (w + u)) := mul_pos hkuw h5
    have h7 : 0 < (w + u) ^ 2 := by
      have : w + u ≠ 0 := by
        intro h0
        rw [h0, mul_zero] at hkuw
        exact lt_irrefl _ hkuw
      positivity
    have h8 : (k * (w + u)) * ((u + v + w) * (w + u)) = (k * (u + v + w)) * (w + u) ^ 2 := by
      ring
    rw [h8] at h6
    exact (mul_pos_iff_of_pos_right h7).1 h6
  have hXv : 0 ≤ (u + v + w) * v := by
    have h5 : 0 ≤ (k * v) * (k * (u + v + w)) := mul_nonneg hkv (le_of_lt hkX)
    have hk2 : 0 < k ^ 2 := by positivity
    have h6 : (k * v) * (k * (u + v + w)) = k ^ 2 * ((u + v + w) * v) := by ring
    rw [h6] at h5
    exact nonneg_of_mul_nonneg_right h5 hk2
  have t1 : ((u + v + w) * v) * na ≤ 0 := mul_nonpos_of_nonneg_of_nonpos hXv hna
  have t2 : ((u + v + w) * w) * nb ≤ 0 := mul_nonpos_of_nonneg_of_nonpos (le_of_lt hXw) hb
  have t3 : ((u + v + w) * u) * nc ≤ 0 := mul_nonpos_of_nonneg_of_nonpos (le_of_lt hXu) hc
  have t4 : ((u + v + w) * v) * na + ((u + v + w) * w) * nb + ((u + v + w) * u) * nc = 0 := by
    have := congrArg (fun t => (u + v + w) * t) pl
    simp only [mul_zero] at this
    linarith [this]
  have hnb : nb = 0 := by
    have : ((u + v + w) * w) * nb = 0 := by linarith
    rcases mul_eq_zero.1 this with h | h
    · linarith
    · exact h
  have hnc : nc = 0 := by
    have : ((u + v + w) * u) * nc = 0 := by linarith
    rcases mul_eq_zero.1 this with h | h
    · linarith
    · exact h
  have hva : ((u + v + w) * v) * na = 0 := by linarith
  have hna0 : na = 0 := by
    rcases hex2 with hpos | ⟨p, hp1, hp2⟩
    · have h5 : 0 < (k * v) * (k * (u + v + w)) := mul_pos hpos hkX
      have hk2 : 0 < k ^ 2 := by positivity
      have h6 : (k * v) * (k * (u + v + w)) = k ^ 2 * ((u + v + w) * v) := by ring
      rw [h6] at h5
      have h7 : 0 < (u + v + w) * v := (mul_pos_iff_of_pos_left hk2).1 h5
      rcases mul_eq_zero.1 hva with h | h
      · linarith
      · exact h
    · have h5 := bc p
      rw [hnc, hnb, sub_self, mul_zero, zero_mul, ea] at h5
      have h6 : 0 ≤ na * dot p d := mul_nonneg_of_nonpos_of_nonpos hna (le_of_lt hp2)
      have h7 : dot p nv * (k * (w + u)) ≤ 0 :=
        mul_nonpos_of_nonpos_of_nonneg hp1 (le_of_lt hkuw)
      have h8 : na * dot p d = 0 := by linarith
      rcases mul_eq_zero.1 h8 with h | h
      · exact h
      · linarith
  rw [hna0, hnb] at ux uy
  simp only [zero_mul, sub_self] at ux uy
  have hu0 : u = 0 := by
    by_contra hu
    apply hnv
    ext
    · simpa [hu] using ux
    · simpa [hu] using uy
  rw [hu0, mul_zero] at hXu
  exact lt_irrefl _ hXu

/-- When every support point lies on one closed side of a line through the
origin, the loop never answers true from a segment that has the origin
strictly ahead, or that has replaced a point lying strictly behind it. -/
theorem loop_never_true_weak (m : MinkowskiSum) (nv : Vec2) (hnv : nv ≠ 0)
    (hsep : ∀ d, dot (m.getSupportPoint d) nv ≤ 0) :
    ∀ n c b d, TowardOrigin c b d → dot c nv ≤ 0 → dot b nv ≤ 0 →
      (dot b d < 0 ∨ ∃ p, dot p nv ≤ 0 ∧ dot p d < dot b d) →
      ∀ r, detectLoop m n [c, b] d = some r → r.1 = false := by
  intro n
  induction n with
  | zero => intro c b d _ _ _ _ r h; simp [detectLoop] at h
  | succ n ih =>
    intro c b d hst hc hb hex r h
    rw [detectLoop_edge] at h
    have hna := hsep d
    split_ifs at h with h1 h3 h4
    · rw [← Option.some.inj h]
    · have ha : 0 < dot (m.getSupportPoint d) d := not_le.1 h1
      have hX := towardOrigin_cross_ne_zero c b _ d hst ha
      exact ih c _ _ (towardOrigin_keep c b _ hX h3) hc hna
        (Or.inr ⟨b, hb, dropped_behind c b _ hX⟩) r h
    · exact (touching_triangle_false c b _ d nv hnv hst (not_le.1 h1) hc hb hna hex h3 h4).elim
    · have ha : 0 < dot (m.getSupportPoint d) d := not_le.1 h1
      have hX := towardOrigin_cross_ne_zero c b _ d hst ha
      have e : -cross (b - m.getSupportPoint d) (c - m.getSupportPoint d) =
          cross (c - m.getSupportPoint d) (b - m.getSupportPoint d) := by
        simp [cross]; ring
      refine ih b _ _ (towardOrigin_drop c b _ hX h4) hb hna (Or.inr ⟨c, hc, ?_⟩) r h
      rw [e]
      exact dropped_behind b c _ (by rw [← e]; exact neg_ne_zero.2 hX)

/-- Polygons that touch: every support point of their Minkowski difference
lies on one closed side of a line through the origin. -/
theorem touching_separates (pa pb : Polygon) (ta tb : Transform2)
    (ha : pa.vertices ≠ []) (hb : pb.vertices ≠ [])
    (ht : Touching (pa.world ta) (pb.world tb)) :
    ∃ nv : Vec2, nv ≠ 0 ∧ ∀ d,
      dot (MinkowskiSum.getSupportPoint ⟨pa.toConvex, ta, pb.toConvex, tb⟩ d) nv ≤ 0 := by
  obtain ⟨_, nv, k, hnv, hA, hB⟩ := ht
  refine ⟨nv, hnv, fun d => ?_⟩
  obtain ⟨a, hamem, b, hbmem, hsup, _, _⟩ := polygon_support_mem pa pb ta tb ha hb d
  rw [hsup, dot_sub_left]
  linarith [hA a hamem, hB b hbmem]

/-! ## A polygon against itself -/

theorem validLoop_adjacent (vs : List Vec2) (size : Nat) :
    ∀ k i area sgn, validLoop vs size k i area sgn = true →
      ∀ j, i ≤ j → j < i + k →
        vs.getD j 0 ≠ (if j + 1 = size then vs.getD 0 0 else vs.getD (j + 1) 0) := by
  intro k
  induction k with
  | zero => intro i area sgn _ j h1 h2; omega
  | succ k ih =>
    intro i area sgn h j h1 h2
    simp only [validLoop] at h
    by_cases hp : vs.getD i 0 = (if i + 1 = size then vs.getD 0 0 else vs.getD (i + 1) 0)
    · rw [if_pos hp] at h
      exact absurd h (by simp)
    · rw [if_neg hp] at h
      rcases Nat.eq_or_lt_of_le h1 with h5 | h5
      · rw [← h5]; exact hp
      · rcases ite_eq_iff.1 h with ⟨_, hf⟩ | ⟨_, hV⟩
        · exact absurd hf (by simp)
        · exact ih _ _ _ hV j h5 (by omega)

theorem valid_adjacent (vs : List Vec2) (h : validVertices vs = true) (i : Nat)
    (hi : i < vs.length) : vs.getD (nextIndex vs.length i) 0 ≠ vs.getD i 0 := by
  unfold validVertices at h
  split_ifs at h with h1
  have := validLoop_adjacent vs vs.length _ _ _ _ h i (Nat.zero_le _) (by omega)
  intro e
  apply this
  rw [← e]
  unfold nextIndex
  by_cases h2 : i + 1 = vs.length
  · rw [if_pos h2, if_neg (by omega)]
  · rw [if_neg h2, if_pos (by omega)]

theorem sumRange_nonneg (f : Nat → ℚ) (n : Nat) (h : ∀ j, j < n → 0 ≤ f j) :
    0 ≤ sumRange f n := by
  induction n with
  | zero => simp [sumRange]
  | succ n ih =>
    rw [sumRange]
    exact add_nonneg (ih (fun j hj => h j (Nat.lt_succ_of_lt hj))) (h n (Nat.lt_succ_self n))

theorem sumRange_pos (f : Nat → ℚ) (n : Nat) (h : ∀ j, j < n → 0 ≤ f j)
    (hex : ∃ j, j < n ∧ 0 < f j) : 0 < sumRange f n := by
  induction n with
  | zero => obtain ⟨j, hj, _⟩ := hex; omega
  | succ n ih =>
    rw [sumRange]
    obtain ⟨j, hj, hpos⟩ := hex
    have h0 := sumRange_nonneg f n (fun j hj => h j (Nat.lt_succ_of_lt hj))
    rcases Nat.eq_or_lt_of_le (Nat.le_of_lt_succ hj) with e | hlt
    · rw [e] at hpos
      linarith
    · have := ih (fun j hj => h j (Nat.lt_succ_of_lt hj)) ⟨j, hlt, hpos⟩
      linarith [h n (Nat.lt_succ_self n)]

theorem sumRange_cross (e q : Vec2) (f : Nat → Vec2) (n : Nat) :
    sumRange (fun j => cross e (f j - q)) n =
      e.x * (sumRange (fun j => (f j).y) n - n * q.y) -
        e.y * (sumRange (fun j => (f j).x) n - n * q.x) := by
  induction n with
  | zero => simp [sumRange]
  | succ n ih =>
    rw [sumRange, ih]
    simp only [sumRange, cross, Vec2.sub_x, Vec2.sub_y]
    push_cast
    ring

theorem cross_mean (vs : List Vec2) (e q : Vec2) (hn : 0 < vs.length) :
    cross e (meanPoint vs - q) =
      (1 / (vs.length : ℚ)) * sumRange (fun j => cross e (vs.getD j 0 - q)) vs.length := by
  have hn0 : (vs.length : ℚ) ≠ 0 := by exact_mod_cast (Nat.pos_iff_ne_zero.1 hn)
  rw [sumRange_cross]
  simp only [meanPoint, cross, Vec2.sub_x, Vec2.sub_y, Vec2.smul_x, Vec2.smul_y]
  field_simp

theorem parallel_cross (e x y : Vec2) (he : e ≠ 0) (hx : cross e x = 0) (hy : cross e y = 0) :
    cross x y = 0 := by
  have h1 : e.x * cross x y = 0 := by
    simp only [cross] at hx hy ⊢
    linear_combination x.x * hy - y.x * hx
  have h2 : e.y * cross x y = 0 := by
    simp only [cross] at hx hy ⊢
    linear_combination x.y * hy - y.y * hx
  by_contra hc
  apply he
  ext
  · simpa [hc] using h1
  · simpa [hc] using h2

/-- The mean of the vertices of a valid convex polygon of positive area is an
interior point. -/
theorem mean_strictlyInside (vs : List Vec2) (hv : validVertices vs = true)
    (hconv : ConvexCCW vs) (harea : 0 < signedArea vs) :
    strictlyInside vs (meanPoint vs) = true := by
  have hn : 0 < vs.length := by have := validVertices_length vs hv; omega
  have hnq : (0 : ℚ) < vs.length := by exact_mod_cast hn
  simp only [strictlyInside, List.all_eq_true, List.mem_range, decide_eq_true_eq]
  intro i hi
  rw [cross_mean _ _ _ hn]
  apply mul_pos (by positivity)
  apply sumRange_pos _ _ (fun j hj => hconv i hi j hj)
  by_contra hcon
  push_neg at hcon
  have hzero : ∀ j, j < vs.length →
      cross (vs.getD (nextIndex vs.length i) 0 - vs.getD i 0) (vs.getD j 0 - vs.getD i 0) = 0 :=
    fun j hj => le_antisymm (hcon j hj) (hconv i hi j hj)
  have he : vs.getD (nextIndex vs.length i) 0 - vs.getD i 0 ≠ 0 :=
    sub_ne_zero_vec _ _ (Ne.symm (valid_adjacent vs hv i hi))
  have hnext : ∀ j, j < vs.length → nextIndex vs.length j < vs.length := by
    intro j hj
    unfold nextIndex
    split_ifs with h
    · exact h
    · exact hn
  have h0 : signedArea vs = 0 := by
    rw [← area_shift vs (vs.getD i 0)]
    rw [sumRange_congr _ (fun _ => 0) _ (fun j hj => by
      rw [parallel_cross _ _ _ he (hzero j hj) (hzero _ (hnext j hj))]; ring)]
    clear hcon hzero hnext harea
    induction vs.length with
    | zero => rfl
    | succ n ih => rw [sumRange, ih]; ring
  linarith

theorem cross_transformed (t : Transform2) (ht : t.Rigid) (a b c : Vec2) :
    cross (t.getTransformed a - t.getTransformed b) (t.getTransformed c - t.getTransformed b) =
      cross (a - b) (c - b) := by
  unfold Transform2.Rigid at ht
  simp only [cross, Transform2.getTransformed, Vec2.sub_x, Vec2.sub_y]
  linear_combination ((a.x - b.x) * (c.y - b.y) - (a.y - b.y) * (c.x - b.x)) * ht

theorem strictlyInside_world (p : Polygon) (t : Transform2) (ht : t.Rigid) (q : Vec2)
    (h : strictlyInside p.vertices q = true) :
    strictlyInside (p.world t) (t.getTransformed q) = true := by
  simp only [strictlyInside, List.all_eq_true, List.mem_range, decide_eq_true_eq,
    Polygon.world, List.length_map] at h ⊢
  intro i hi
  have hn : 0 < p.vertices.length := by omega
  have hnext : nextIndex p.vertices.length i < p.vertices.length := by
    unfold nextIndex
    split_ifs with h1
    · exact h1
    · exact hn
  have e : ∀ j, j < p.vertices.length →
      (p.vertices.map t.getTransformed).getD j 0 = t.getTransformed (p.vertices.getD j 0) := by
    intro j hj
    rw [List.getD_eq_getElem _ _ (by simpa using hj), List.getD_eq_getElem _ _ hj]
    simp
  rw [e _ hi, e _ hnext, cross_transformed t ht]
  exact h i hi

theorem support_self_neg (c : Convex) (t : Transform2) (d : Vec2) :
    MinkowskiSum.getSupportPoint ⟨c, t, c, t⟩ (-d) =
      -MinkowskiSum.getSupportPoint ⟨c, t, c, t⟩ d := by
  simp only [MinkowskiSum.getSupportPoint, Vec2.neg_neg_eq]
  ext <;> simp

theorem firstSegmentNormal_self (c : Convex) (t : Transform2) (direction : Vec2) :
    firstSegmentNormal ⟨c, t, c, t⟩ direction = 0 := by
  simp only [firstSegmentNormal, support_self_neg, tripleProduct_eq]
  ext <;> simp only [cross, perp, Vec2.smul_x, Vec2.smul_y, Vec2.sub_x, Vec2.sub_y, Vec2.neg_x,
    Vec2.neg_y, Vec2.zero_x, Vec2.zero_y] <;> ring

theorem turnAt_eq (vs : List Vec2) (i : Nat) (hi : i < vs.length) :
    turnAt vs i =
      cross (vs.getD i 0 -
          (if i = 0 then vs.getD (vs.length - 1) 0 else vs.getD (i - 1) 0))
        ((if i + 1 = vs.length then vs.getD 0 0 else vs.getD (i + 1) 0) - vs.getD i 0) := by
  have e0 : vs.getD ((i + vs.length - 1) % vs.length) 0 =
      (if i = 0 then vs.getD (vs.length - 1) 0 else vs.getD (i - 1) 0) := by
    by_cases h0 : i = 0
    · rw [if_pos h0, h0, Nat.zero_add, Nat.mod_eq_of_lt (by omega)]
    · rw [if_neg h0]
      have : i + vs.length - 1 = (i - 1) + vs.length := by omega
      rw [this, Nat.add_mod_right, Nat.mod_eq_of_lt (by omega)]
  have e2 : vs.getD ((i + 1) % vs.length) 0 =
      (if i + 1 = vs.length then vs.getD 0 0 else vs.getD (i + 1) 0) := by
    by_cases h1 : i + 1 = vs.length
    · rw [if_pos h1, h1, Nat.mod_self]
    · rw [if_neg h1, Nat.mod_eq_of_lt (by omega)]
  simp only [turnAt, e0, e2]

theorem nextIndex_eq (vs : List Vec2) (i : Nat) (hi : i < vs.length) :
    vs.getD (nextIndex vs.length i) 0 =
      (if i + 1 = vs.length then vs.getD 0 0 else vs.getD (i + 1) 0) := by
  unfold nextIndex
  by_cases h1 : i + 1 = vs.length
  · rw [if_pos h1, if_neg (by omega)]
  · rw [if_neg h1, if_pos (by omega)]

/-- A list that is convex and counter-clockwise in the sense of `ConvexCCW`
has every turn non-negative. -/
theorem convexCCW_turn (vs : List Vec2) (h : ConvexCCW vs) (i : Nat) (hi : i < vs.length) :
    0 ≤ turnAt vs i := by
  rw [turnAt_eq vs i hi]
  have key : ∀ p q r : Vec2, cross (q - p) (r - q) = cross (q - p) (r - p) := by
    intro p q r
    simp only [cross, Vec2.sub_x, Vec2.sub_y]; ring
  rw [key]
  by_cases h0 : i = 0
  · rw [if_pos h0]
    have hp : vs.length - 1 < vs.length := by omega
    have := h (vs.length - 1) hp (nextIndex vs.length i)
      (by unfold nextIndex; split_ifs <;> omega)
    have e : nextIndex vs.length (vs.length - 1) = i := by
      unfold nextIndex; rw [if_neg (by omega), h0]
    rw [e, nextIndex_eq vs i hi] at this
    exact this
  · rw [if_neg h0]
    have hp : i - 1 < vs.length := by omega
    have := h (i - 1) hp (nextIndex vs.length i)
      (by unfold nextIndex; split_ifs <;> omega)
    have e : nextIndex vs.length (i - 1) = i := by
      unfold nextIndex; rw [if_pos (by omega)]; omega
    rw [e, nextIndex_eq vs i hi] at this
    exact this

/-! ## Rounding -/

theorem pow_log2Fuel_le (fuel n : Nat) (h : 1 ≤ n) : 2 ^ log2Fuel fuel n ≤ n := by
  induction fuel generalizing n with
  | zero => simpa [log2Fuel] using h
  | succ fuel ih =>
    simp only [log2Fuel]
    split_ifs with h2
    · simpa using h
    · have h3 : 1 ≤ n / 2 := by omega
      have := ih (n / 2) h3
      rw [pow_succ]
      omega

theorem ulp_pos (f : Format) (a : ℚ) : 0 < ulp f a := by
  unfold ulp
  positivity

theorem ulp_ge (f : Format) (a : ℚ) : 1 / 2 ^ f.minExp ≤ ulp f a := by
  unfold ulp
  apply div_le_div_of_nonneg_right _ (by positivity)
  exact one_le_pow₀ (by norm_num)

/-- At or above the least positive value, the spacing is at most the
magnitude. -/
theorem ulp_le_self (f : Format) (a : ℚ) (hp : 1 ≤ f.prec) (ha : 1 / 2 ^ f.minExp ≤ a) :
    ulp f a ≤ a := by
  have hpow : (0 : ℚ) < 2 ^ f.minExp := by positivity
  have ha0 : 0 ≤ a := le_trans (by positivity) ha
  have h1 : (1 : ℚ) ≤ a * 2 ^ f.minExp := by
    have := mul_le_mul_of_nonneg_right ha (le_of_lt hpow)
    rwa [one_div, inv_mul_cancel₀ (ne_of_gt hpow)] at this
  have ht : 1 ≤ ⌊a * 2 ^ f.minExp⌋₊ := by
    rw [Nat.one_le_iff_ne_zero, Ne, Nat.floor_eq_zero]
    push_neg
    exact h1
  have hlog := pow_log2Fuel_le ⌊a * 2 ^ f.minExp⌋₊ ⌊a * 2 ^ f.minExp⌋₊ ht
  have hfl : ((⌊a * 2 ^ f.minExp⌋₊ : ℕ) : ℚ) ≤ a * 2 ^ f.minExp :=
    Nat.floor_le (mul_nonneg ha0 (le_of_lt hpow))
  have hexp : ilog2 ⌊a * 2 ^ f.minExp⌋₊ + 1 - f.prec ≤ ilog2 ⌊a * 2 ^ f.minExp⌋₊ := by omega
  have h2 : (2 : ℚ) ^ (ilog2 ⌊a * 2 ^ f.minExp⌋₊ + 1 - f.prec) ≤ a * 2 ^ f.minExp := by
    calc (2 : ℚ) ^ (ilog2 ⌊a * 2 ^ f.minExp⌋₊ + 1 - f.prec)
        ≤ 2 ^ ilog2 ⌊a * 2 ^ f.minExp⌋₊ := pow_le_pow_right₀ (by norm_num) hexp
      _ ≤ ((⌊a * 2 ^ f.minExp⌋₊ : ℕ) : ℚ) := by
          unfold ilog2
          exact_mod_cast hlog
      _ ≤ a * 2 ^ f.minExp := hfl
  unfold ulp
  rw [div_le_iff₀ hpow]
  exact h2

theorem roundHalfEven_ge_floor (x : ℚ) : ⌊x⌋ ≤ roundHalfEven x := by
  unfold roundHalfEven
  split_ifs <;> omega

theorem roundHalfEven_nonneg (x : ℚ) (hx : 0 ≤ x) : 0 ≤ roundHalfEven x :=
  le_trans (Int.floor_nonneg.2 hx) (roundHalfEven_ge_floor x)

theorem roundHalfEven_pos (x : ℚ) (hx : 1 ≤ x) : 1 ≤ roundHalfEven x := by
  have : (1 : ℤ) ≤ ⌊x⌋ := Int.le_floor.2 (by simpa using hx)
  exact le_trans this (roundHalfEven_ge_floor x)

theorem roundHalfEven_zero : roundHalfEven 0 = 0 := by
  simp [roundHalfEven]

theorem fl_round_zero (f : Format) : Fl.round f 0 = Fl.fin 0 := by
  have h : ¬ ((2 : ℚ) ^ f.maxExp ≤ 0) := not_le.2 (by positivity)
  simp [Fl.round, roundHalfEven_zero, h]

theorem fl_round_neg (f : Format) (q : ℚ) : Fl.round f (-q) = Fl.neg (Fl.round f q) := by
  rcases lt_trichotomy q 0 with hq | hq | hq
  · have h1 : 0 < -q := by linarith
    have h2 : ¬ 0 < q := by linarith
    have h3 : 0 ≤ -q := by linarith
    have h4 : ¬ 0 ≤ q := by linarith
    simp only [Fl.round, abs_neg, h1, h2, h3, h4, if_true, if_false]
    split_ifs <;> simp [Fl.neg]
  · subst hq
    simp [fl_round_zero, Fl.neg]
  · have h1 : ¬ 0 < -q := by linarith
    have h3 : ¬ 0 ≤ -q := by linarith
    have h4 : 0 ≤ q := by linarith
    simp only [Fl.round, abs_neg, h1, hq, h3, h4, if_true, if_false]
    split_ifs <;> simp [Fl.neg]

/-- Rounding keeps the sign: a non-negative number rounds to a non-negative
value or to positive infinity. -/
theorem fl_round_nonneg (f : Format) (q : ℚ) (hq : 0 ≤ q) :
    Fl.le (Fl.fin 0) (Fl.round f q) = true := by
  rcases eq_or_lt_of_le hq with h0 | hpos
  · rw [← h0, fl_round_zero]
    simp [Fl.le]
  · have hv : (0 : ℚ) ≤ (roundHalfEven (|q| / ulp f |q|) : ℚ) * ulp f |q| := by
      apply mul_nonneg _ (le_of_lt (ulp_pos f _))
      exact_mod_cast roundHalfEven_nonneg _ (div_nonneg (abs_nonneg q) (le_of_lt (ulp_pos f _)))
    simp only [Fl.round, hpos, hq, if_true]
    split_ifs
    · simp [Fl.le]
    · simpa [Fl.le] using hv

/-- A number at or above the least positive value rounds to a positive value
or to positive infinity. -/
theorem fl_round_pos (f : Format) (q : ℚ) (hp : 1 ≤ f.prec) (hq : 1 / 2 ^ f.minExp ≤ q) :
    Fl.lt (Fl.fin 0) (Fl.round f q) = true := by
  have hq0 : 0 < q := lt_of_lt_of_le (by positivity) hq
  have habs : |q| = q := abs_of_pos hq0
  have hu := ulp_le_self f q hp hq
  have hupos := ulp_pos f q
  have hk : (1 : ℤ) ≤ roundHalfEven (q / ulp f q) :=
    roundHalfEven_pos _ ((one_le_div hupos).2 hu)
  have hv : (0 : ℚ) < (roundHalfEven (q / ulp f q) : ℚ) * ulp f q := by
    apply mul_pos _ hupos
    exact_mod_cast lt_of_lt_of_le zero_lt_one hk
  simp only [Fl.round, habs, hq0, le_of_lt hq0, if_true]
  split_ifs
  · simp [Fl.lt]
  · simpa [Fl.lt] using hv

/-- A positive finite value of the rounding is at least the least positive
value. -/
theorem fl_round_fin_pos_ge (f : Format) (q a : ℚ) (h : Fl.round f q = Fl.fin a) (ha : 0 < a) :
    1 / 2 ^ f.minExp ≤ a := by
  have hupos := ulp_pos f |q|
  have key : ∀ k : ℤ, 0 < (k : ℚ) * ulp f |q| → 1 / 2 ^ f.minExp ≤ (k : ℚ) * ulp f |q| := by
    intro k hk
    have hk0 : (0 : ℚ) < k := (mul_pos_iff_of_pos_right hupos).1 hk
    have hk0i : (0 : ℤ) < k := by exact_mod_cast hk0
    have hk1i : (1 : ℤ) ≤ k := hk0i
    have hk1 : (1 : ℚ) ≤ k := by exact_mod_cast hk1i
    calc 1 / 2 ^ f.minExp ≤ ulp f |q| := ulp_ge f _
      _ = 1 * ulp f |q| := (one_mul _).symm
      _ ≤ (k : ℚ) * ulp f |q| := mul_le_mul_of_nonneg_right hk1 (le_of_lt hupos)
  unfold Fl.round at h
  split_ifs at h with h1 h2 h3
  · simp only [Fl.fin.injEq] at h
    rw [← h] at ha ⊢
    exact key _ ha
  · simp only [Fl.fin.injEq] at h
    have hv : (0 : ℚ) ≤ (roundHalfEven (|q| / ulp f |q|) : ℚ) * ulp f |q| := by
      apply mul_nonneg _ (le_of_lt hupos)
      exact_mod_cast roundHalfEven_nonneg _ (div_nonneg (abs_nonneg q) (le_of_lt hupos))
    linarith

/-! ## Validation in float arithmetic -/

theorem fl_add_nonneg (f : Format) (a b : Fl) (ha : Fl.le (Fl.fin 0) a = true)
    (hb : Fl.le (Fl.fin 0) b = true) : Fl.le (Fl.fin 0) (Fl.add f a b) = true := by
  cases a <;> cases b <;> simp_all [Fl.le, Fl.add]
  exact fl_round_nonneg f _ (add_nonneg ha hb)

theorem fl_cast_nonneg (f : Format) (a : Fl) (ha : Fl.le (Fl.fin 0) a = true) :
    Fl.le (Fl.fin 0) (Fl.cast f a) = true := by
  cases a <;> simp_all [Fl.le, Fl.cast]
  exact fl_round_nonneg f _ ha

theorem fl_sign_of_nonneg (x : Fl) (h : Fl.le (Fl.fin 0) x = true) :
    Fl.sign x = Fl.fin 0 ∨ Fl.sign x = Fl.fin 1 := by
  cases x <;> simp_all [Fl.le, Fl.sign, Fl.lt]
  rename_i q
  by_cases hq : 0 < q
  · right; simp [hq]
  · left; simp [hq, not_lt.2 h]

theorem fl_sign_of_large (x : Fl) (h : Fl.le (Fl.fin 0) x = true)
    (hl : Fl.lt Fp.epsilon (Fl.abs x) = true) : Fl.sign x = Fl.fin 1 := by
  cases x <;> simp_all [Fl.le, Fl.sign, Fl.lt, Fl.abs, Fp.epsilon]
  rename_i q
  rw [abs_of_nonneg h] at hl
  have : (0 : ℚ) < 2⁻¹ ^ 23 := by positivity
  have hq : 0 < q := by
    have h2 : ((2 : ℚ) ^ 23)⁻¹ = 2⁻¹ ^ 23 := by rw [inv_pow]
    rw [h2] at hl
    linarith
  simp [hq]

/-- The loop of `Polygon::valid` in float arithmetic answers true from index
`i` on, when from there on no vertex compares equal to its successor and every
computed cross product is non-negative (or positive infinity), the area so far
is non-negative and the stored sign is 0 or 1. -/
theorem fp_validLoop_of_nonneg (f : Format) (vs : List FVec2) (size : Nat) :
    ∀ k i area sgn, Fl.le (Fl.fin 0) area = true → (sgn = Fl.fin 0 ∨ sgn = Fl.fin 1) →
      (∀ j, i ≤ j → j < i + k →
        FVec2.eq (vs.getD j default)
          (if j + 1 = size then vs.getD 0 default else vs.getD (j + 1) default) = false ∧
        Fl.le (Fl.fin 0) (FVec2.cross f
          (FVec2.sub (vs.getD j default)
            (if j = 0 then vs.getD (size - 1) default else vs.getD (j - 1) default))
          (FVec2.sub (if j + 1 = size then vs.getD 0 default else vs.getD (j + 1) default)
            (vs.getD j default))) = true) →
      Fp.validLoop f vs size k i area sgn = true := by
  intro k
  induction k with
  | zero =>
    intro i area sgn harea _ _
    simpa [Fp.validLoop] using harea
  | succ k ih =>
    intro i area sgn harea hsgn h
    obtain ⟨hne, hcr⟩ := h i (le_refl _) (by omega)
    simp only [Fp.validLoop]
    rw [hne]
    simp only [Bool.false_eq_true, if_false]
    have hcond : ¬ (Fl.lt Fp.epsilon (Fl.abs (FVec2.cross f
          (FVec2.sub (vs.getD i default)
            (if i = 0 then vs.getD (size - 1) default else vs.getD (i - 1) default))
          (FVec2.sub (if i + 1 = size then vs.getD 0 default else vs.getD (i + 1) default)
            (vs.getD i default)))) = true ∧
        Fl.eq sgn (Fl.fin 0) = false ∧
        Fl.eq (Fl.sign (FVec2.cross f
          (FVec2.sub (vs.getD i default)
            (if i = 0 then vs.getD (size - 1) default else vs.getD (i - 1) default))
          (FVec2.sub (if i + 1 = size then vs.getD 0 default else vs.getD (i + 1) default)
            (vs.getD i default)))) sgn = false) := by
      rintro ⟨habs, hs0, hs⟩
      rw [fl_sign_of_large _ hcr habs] at hs
      rcases hsgn with h0 | h1
      · rw [h0] at hs0
        simp [Fl.eq] at hs0
      · rw [h1] at hs
        simp [Fl.eq] at hs
    rw [if_neg hcond]
    exact ih (i + 1) _ _ (fl_add_nonneg _ _ _ harea hcr) (fl_sign_of_nonneg _ hcr)
      (fun j hj hjn => h j (by omega) (by omega))

theorem getD_map_toF (vs : List Vec2) (j : Nat) :
    (vs.map Vec2.toF).getD j default = Vec2.toF (vs.getD j 0) := by
  have : (default : FVec2) = Vec2.toF 0 := rfl
  rw [this, List.getD_map]

theorem toF_eq_false (a b : Vec2) (h : a ≠ b) : FVec2.eq a.toF b.toF = false := by
  simp only [FVec2.eq, Vec2.toF, Fl.eq, Bool.and_eq_false_iff, decide_eq_false_iff_not]
  by_contra hcon
  push_neg at hcon
  exact h (Vec2.ext hcon.1 hcon.2)

theorem fl_sub_fin (f : Format) (a b : ℚ) (h : Representable f (a - b)) :
    Fl.sub f (Fl.fin a) (Fl.fin b) = Fl.fin (a - b) := by
  simp only [Fl.sub, Fl.neg, Fl.add, ← sub_eq_add_neg]
  exact h

theorem fl_mul_fin (f : Format) (a b : ℚ) (h : Representable f (a * b)) :
    Fl.mul f (Fl.fin a) (Fl.fin b) = Fl.fin (a * b) := by
  simp only [Fl.mul]
  exact h

/-- With the differences and the products of the turn computed without
rounding, the cross product computed in float has the sign of the exact
turn. -/
theorem cross_of_exactTurn (f : Format) (p0 p1 p2 : Vec2)
    (h1 : Representable binary32 (p1.x - p0.x)) (h2 : Representable binary32 (p1.y - p0.y))
    (h3 : Representable binary32 (p2.x - p1.x)) (h4 : Representable binary32 (p2.y - p1.y))
    (h5 : Representable f ((p1.x - p0.x) * (p2.y - p1.y)))
    (h6 : Representable f ((p1.y - p0.y) * (p2.x - p1.x)))
    (hturn : 0 ≤ cross (p1 - p0) (p2 - p1)) :
    Fl.le (Fl.fin 0)
      (FVec2.cross f (FVec2.sub p1.toF p0.toF) (FVec2.sub p2.toF p1.toF)) = true := by
  simp only [FVec2.cross, FVec2.sub, Vec2.toF, fl_sub_fin _ _ _ h1, fl_sub_fin _ _ _ h2,
    fl_sub_fin _ _ _ h3, fl_sub_fin _ _ _ h4, fl_mul_fin _ _ _ h5, fl_mul_fin _ _ _ h6]
  apply fl_cast_nonneg
  simp only [Fl.sub, Fl.neg, Fl.add]
  apply fl_round_nonneg
  simp only [cross, Vec2.sub_x, Vec2.sub_y] at hturn
  linarith

/-- C21, amended: every vertex list with at least 3 vertices, no two
cyclically adjacent vertices equal and every turn
`cross(p_i - p_{i-1}, p_{i+1} - p_i)` non-negative, whose edge differences
are values of the float format and whose two products in each cross product
are values of the format of `Vector2Util::cross` (they are computed without
rounding), passes `Polygon::valid`, so that `createPolygon` builds the
polygon. -/
theorem valid_complete_float (f : Format) (vs : List Vec2) (hlen : 3 ≤ vs.length)
    (hadj : ∀ i, i < vs.length → vs.getD i 0 ≠ vs.getD (nextIndex vs.length i) 0)
    (hturn : ∀ i, i < vs.length → 0 ≤ turnAt vs i)
    (hexact : ∀ i, i < vs.length → ExactTurn f vs i) :
    Fp.validVertices f (vs.map Vec2.toF) = true ∧
    Fp.createPolygon f (vs.map Vec2.toF) =
      some ⟨vs.map Vec2.toF, Fp.calcAreaWeightedCenter (vs.map Vec2.toF)⟩ := by
  have hv : Fp.validVertices f (vs.map Vec2.toF) = true := by
    unfold Fp.validVertices
    rw [if_neg (by simpa using not_lt.2 hlen)]
    refine fp_validLoop_of_nonneg f _ _ _ 0 _ _ (by simp [Fl.le]) (Or.inl rfl) ?_
    intro j _ hj
    simp only [List.length_map, Nat.zero_add] at hj ⊢
    simp only [getD_map_toF]
    have e1 : (if j + 1 = vs.length then Vec2.toF (vs.getD 0 0) else Vec2.toF (vs.getD (j + 1) 0)) =
        Vec2.toF (if j + 1 = vs.length then vs.getD 0 0 else vs.getD (j + 1) 0) := by
      split_ifs <;> rfl
    have e0 : (if j = 0 then Vec2.toF (vs.getD (vs.length - 1) 0)
        else Vec2.toF (vs.getD (j - 1) 0)) =
        Vec2.toF (if j = 0 then vs.getD (vs.length - 1) 0 else vs.getD (j - 1) 0) := by
      split_ifs <;> rfl
    rw [e1, e0]
    obtain ⟨h1, h2, h3, h4, h5, h6⟩ := hexact j hj
    refine ⟨toF_eq_false _ _ ?_, cross_of_exactTurn f _ _ _ h1 h2 h3 h4 h5 h6 ?_⟩
    · rw [← nextIndex_eq vs j hj]
      exact hadj j hj
    · rw [← turnAt_eq vs j hj]
      exact hturn j hj
  refine ⟨hv, ?_⟩
  simp only [Fp.createPolygon, Fp.Polygon.construct, hv, if_true]

/-- Witness for C21: the quadrilateral of the demonstration is well-formed,
its turns are computed without rounding in float and in double, and it is
accepted with `Vector2Util::cross` in either format. -/
theorem valid_complete_float_witness :
    3 ≤ demoPolygon.vertices.length ∧
    (∀ i, i < demoPolygon.vertices.length →
      demoPolygon.vertices.getD i 0 ≠
        demoPolygon.vertices.getD (nextIndex demoPolygon.vertices.length i) 0) ∧
    (∀ i, i < demoPolygon.vertices.length → 0 ≤ turnAt demoPolygon.vertices i) ∧
    (∀ i, i < demoPolygon.vertices.length → ExactTurn binary32 demoPolygon.vertices i) ∧
    (∀ i, i < demoPolygon.vertices.length → ExactTurn binary64 demoPolygon.vertices i) ∧
    Fp.validVertices binary32 (demoPolygon.vertices.map Vec2.toF) = true ∧
    Fp.validVertices binary64 (demoPolygon.vertices.map Vec2.toF) = true :=
  ⟨by decide!, by decide!, by decide!, by decide!, by decide!,
    (valid_complete_float binary32 demoPolygon.vertices (by decide!) (by decide!) (by decide!)
      (by decide!)).1,
    (valid_complete_float binary64 demoPolygon.vertices (by decide!) (by decide!) (by decide!)
      (by decide!)).1⟩

/-- Counterexample to C21 as stated: the triangle (0,0), (2625648, 2938721.5),
(10502590, 11754884) has float coordinates, distinct vertices and three turns
equal to 626147, yet `Polygon::valid` returns false for it and `createPolygon`
fails: the `fvec2` difference `p2 - p1` at the second vertex rounds 8816162.5
to 8816162, and the cross product computed there is negative, with
`Vector2Util::cross` in float and in double alike (in double it is
-686677). -/
theorem valid_rejects_wellformed :
    (∀ v ∈ ([⟨0, 0⟩, ⟨2625648, 5877443 / 2⟩, ⟨10502590, 11754884⟩] : List Vec2),
      Representable binary32 v.x ∧ Representable binary32 v.y) ∧
    (∀ i, i < 3 →
      turnAt [⟨0, 0⟩, ⟨2625648, 5877443 / 2⟩, ⟨10502590, 11754884⟩] i = 626147) ∧
    Fl.sub binary32 (Fl.fin 11754884) (Fl.fin (5877443 / 2)) = Fl.fin 8816162 ∧
    Fl.lt (FVec2.cross binary32
      (FVec2.sub (Vec2.toF ⟨2625648, 5877443 / 2⟩) (Vec2.toF ⟨0, 0⟩))
      (FVec2.sub (Vec2.toF ⟨10502590, 11754884⟩) (Vec2.toF ⟨2625648, 5877443 / 2⟩)))
      (Fl.fin 0) = true ∧
    FVec2.cross binary64
      (FVec2.sub (Vec2.toF ⟨2625648, 5877443 / 2⟩) (Vec2.toF ⟨0, 0⟩))
      (FVec2.sub (Vec2.toF ⟨10502590, 11754884⟩) (Vec2.toF ⟨2625648, 5877443 / 2⟩)) =
      Fl.fin (-686677) ∧
    Fp.validVertices binary32
      ([⟨0, 0⟩, ⟨2625648, 5877443 / 2⟩, ⟨10502590, 11754884⟩].map Vec2.toF) = false ∧
    Fp.validVertices binary64
      ([⟨0, 0⟩, ⟨2625648, 5877443 / 2⟩, ⟨10502590, 11754884⟩].map Vec2.toF) = false ∧
    Fp.createPolygon binary32
      ([⟨0, 0⟩, ⟨2625648, 5877443 / 2⟩, ⟨10502590, 11754884⟩].map Vec2.toF) = none ∧
    Fp.createPolygon binary64
      ([⟨0, 0⟩, ⟨2625648, 5877443 / 2⟩, ⟨10502590, 11754884⟩].map Vec2.toF) = none := by
  refine ⟨by decide!, by decide!, by decide!, by decide!, by decide!, by decide!, by decide!,
    by decide!, by decide!⟩

/-! ## The rectangle factory in float arithmetic -/

theorem fl_mul_pos (f : Format) (a b : Fl) (ha : Fl.lt (Fl.fin 0) a = true)
    (hb : Fl.lt (Fl.fin 0) b = true) : Fl.le (Fl.fin 0) (Fl.mul f a b) = true := by
  cases a <;> cases b <;> simp_all [Fl.lt, Fl.le, Fl.mul, Fl.infTimes]
  · exact fl_round_nonneg f _ (le_of_lt (mul_pos ha hb))
  · simp [ne_of_gt ha, Fl.le]
  · simp [ne_of_gt hb, Fl.le]

theorem infTimes_neg (p : Bool) (b : ℚ) :
    Fl.infTimes p (-b) = Fl.neg (Fl.infTimes p b) := by
  rcases lt_trichotomy b 0 with hb | hb | hb
  · have h1 : 0 < -b := by linarith
    have h2 : ¬ 0 < b := by linarith
    have h3 : -b ≠ 0 := by linarith
    have h4 : b ≠ 0 := by linarith
    cases p <;> simp [Fl.infTimes, h1, h2, h3, h4, Fl.neg]
  · subst hb
    simp [Fl.infTimes, Fl.neg]
  · have h1 : ¬ 0 < -b := by linarith
    have h3 : -b ≠ 0 := by linarith
    have h4 : b ≠ 0 := by linarith
    cases p <;> simp [Fl.infTimes, h1, hb, h3, h4, Fl.neg]

theorem infTimes_flip (p : Bool) (b : ℚ) :
    Fl.infTimes (!p) b = Fl.neg (Fl.infTimes p b) := by
  by_cases h0 : b = 0
  · simp [Fl.infTimes, h0, Fl.neg]
  · by_cases hb : 0 < b <;> cases p <;> simp [Fl.infTimes, h0, hb, Fl.neg]

theorem fl_mul_neg_left (f : Format) (a b : Fl) :
    Fl.mul f (Fl.neg a) b = Fl.neg (Fl.mul f a b) := by
  cases a <;> cases b <;>
    simp only [Fl.mul, Fl.neg, neg_mul, fl_round_neg, infTimes_neg]
  · exact infTimes_flip true _
  · exact infTimes_flip false _

theorem fl_mul_neg_right (f : Format) (a b : Fl) :
    Fl.mul f a (Fl.neg b) = Fl.neg (Fl.mul f a b) := by
  cases a <;> cases b <;>
    simp only [Fl.mul, Fl.neg, mul_neg, fl_round_neg, infTimes_neg]
  · exact infTimes_flip true _
  · exact infTimes_flip false _

theorem fl_neg_neg (a : Fl) : Fl.neg (Fl.neg a) = a := by
  cases a <;> simp [Fl.neg]

theorem fl_sub_zero_right (f : Format) (x : Fl) (hx : Fl.le (Fl.fin 0) x = true) :
    Fl.le (Fl.fin 0) (Fl.sub f x (Fl.fin 0)) = true := by
  have : Fl.neg (Fl.fin 0) = Fl.fin 0 := by simp [Fl.neg]
  rw [Fl.sub, this]
  exact fl_add_nonneg f _ _ hx (by simp [Fl.le])

theorem fl_zero_sub_neg (f : Format) (x : Fl) (hx : Fl.le (Fl.fin 0) x = true) :
    Fl.le (Fl.fin 0) (Fl.sub f (Fl.fin 0) (Fl.neg x)) = true := by
  rw [Fl.sub, fl_neg_neg]
  exact fl_add_nonneg f _ _ (by simp [Fl.le]) hx

theorem fp_half_neg (x : Fl) : Fp.half (Fl.neg x) = Fl.neg (Fp.half x) := by
  cases x with
  | fin q =>
    show Fl.round binary32 (-q * (1 / 2)) = Fl.neg (Fl.round binary32 (q * (1 / 2)))
    rw [neg_mul, fl_round_neg]
  | pinf => rfl
  | ninf => rfl
  | nan => rfl

theorem fl_sub_self_fin (f : Format) (a : ℚ) : Fl.sub f (Fl.fin a) (Fl.fin a) = Fl.fin 0 := by
  simp only [Fl.sub, Fl.neg, Fl.add, add_neg_cancel, fl_round_zero]

theorem fl_sub_neg_fin (f : Format) (a : ℚ) :
    Fl.sub f (Fl.fin a) (Fl.fin (-a)) = Fl.round f (a + a) := by
  simp only [Fl.sub, Fl.neg, Fl.add, neg_neg]

theorem fl_neg_sub_fin (f : Format) (a : ℚ) :
    Fl.sub f (Fl.fin (-a)) (Fl.fin a) = Fl.neg (Fl.round f (a + a)) := by
  simp only [Fl.sub, Fl.neg, Fl.add, ← neg_add, fl_round_neg]

theorem fl_mul_zero_zero (f : Format) : Fl.mul f (Fl.fin 0) (Fl.fin 0) = Fl.fin 0 := by
  simp only [Fl.mul, mul_zero, fl_round_zero]

/-- The four corners of a rectangle with positive finite float half-sides
`a` and `b` pass `Polygon::valid` in float arithmetic. -/
theorem fp_rectangle_valid (f : Format) (a b : ℚ) (ha : 1 / 2 ^ 149 ≤ a)
    (hb : 1 / 2 ^ 149 ≤ b) :
    Fp.validVertices f [⟨Fl.fin (-a), Fl.fin (-b)⟩, ⟨Fl.fin a, Fl.fin (-b)⟩,
      ⟨Fl.fin a, Fl.fin b⟩, ⟨Fl.fin (-a), Fl.fin b⟩] = true := by
  have hpa : (0 : ℚ) < 1 / 2 ^ 149 := by positivity
  have hW : Fl.lt (Fl.fin 0) (Fl.round binary32 (a + a)) = true :=
    fl_round_pos binary32 _ (by decide) (by show (1 : ℚ) / 2 ^ 149 ≤ a + a; linarith)
  have hH : Fl.lt (Fl.fin 0) (Fl.round binary32 (b + b)) = true :=
    fl_round_pos binary32 _ (by decide) (by show (1 : ℚ) / 2 ^ 149 ≤ b + b; linarith)
  have hWH := fl_mul_pos f _ _ hW hH
  have hHW := fl_mul_pos f _ _ hH hW
  have ha0 : a ≠ -a := by intro h; linarith
  have hb0 : b ≠ -b := by intro h; linarith
  have ha1 : -a ≠ a := by intro h; linarith
  have hb1 : -b ≠ b := by intro h; linarith
  unfold Fp.validVertices
  rw [if_neg (by simp)]
  refine fp_validLoop_of_nonneg f _ _ _ 0 _ _ (by simp [Fl.le]) (Or.inl rfl) ?_
  intro j _ hj
  simp only [List.length_cons, List.length_nil, Nat.zero_add] at hj ⊢
  interval_cases j
  all_goals
    refine ⟨by simp [FVec2.eq, Fl.eq, ha1, ha0, hb0, hb1], ?_⟩
    simp only [List.getD_cons_zero, List.getD_cons_succ, FVec2.sub, FVec2.cross,
      fl_sub_self_fin, fl_sub_neg_fin, fl_neg_sub_fin, fl_mul_zero_zero, fl_mul_neg_left,
      fl_mul_neg_right, fl_neg_neg, if_true, if_false, Nat.reduceAdd, Nat.reduceSub,
      Nat.reduceEqDiff]
    apply fl_cast_nonneg
    first
      | exact fl_zero_sub_neg _ _ hHW
      | exact fl_sub_zero_right _ _ hWH

theorem fl_add_nan_left (f : Format) (x : Fl) : Fl.add f Fl.nan x = Fl.nan := by
  cases x <;> rfl

theorem fl_add_nan_right (f : Format) (x : Fl) : Fl.add f x Fl.nan = Fl.nan := by
  cases x <;> rfl

theorem fl_mul_nan_left (f : Format) (x : Fl) : Fl.mul f Fl.nan x = Fl.nan := by
  cases x <;> rfl

theorem fl_mul_nan_right (f : Format) (x : Fl) : Fl.mul f x Fl.nan = Fl.nan := by
  cases x <;> rfl

theorem fl_sub_nan_left (f : Format) (x : Fl) : Fl.sub f Fl.nan x = Fl.nan := by
  simp only [Fl.sub, fl_add_nan_left]

/-- Once the accumulated area is NaN, the loop of `Polygon::valid` answers
false. -/
theorem fp_validLoop_nan (f : Format) (vs : List FVec2) (size : Nat) :
    ∀ k i sgn, Fp.validLoop f vs size k i Fl.nan sgn = false := by
  intro k
  induction k with
  | zero => intro i sgn; simp [Fp.validLoop, Fl.le]
  | succ k ih =>
    intro i sgn
    simp only [Fp.validLoop, fl_add_nan_left, ih]
    split_ifs <;> rfl

/-- A round of `Polygon::valid` whose cross product is NaN leads to the answer
false. -/
theorem fp_validLoop_cross_nan (f : Format) (vs : List FVec2) (size k i : Nat)
    (area sgn : Fl)
    (h : FVec2.cross f
      (FVec2.sub (vs.getD i default)
        (if i = 0 then vs.getD (size - 1) default else vs.getD (i - 1) default))
      (FVec2.sub (if i + 1 = size then vs.getD 0 default else vs.getD (i + 1) default)
        (vs.getD i default)) = Fl.nan) :
    Fp.validLoop f vs size (k + 1) i area sgn = false := by
  simp only [Fp.validLoop, h, fl_add_nan_right, fp_validLoop_nan]
  split_ifs <;> rfl

/-- A round of `Polygon::valid` at a vertex that compares equal to its
successor answers false. -/
theorem fp_validLoop_eq (f : Format) (vs : List FVec2) (size k i : Nat) (area sgn : Fl)
    (h : FVec2.eq (vs.getD i default)
      (if i + 1 = size then vs.getD 0 default else vs.getD (i + 1) default) = true) :
    Fp.validLoop f vs size (k + 1) i area sgn = false := by
  simp only [Fp.validLoop, h, if_true]

theorem fp_validLoop_eq_next (f : Format) (vs : List FVec2) (size k i : Nat)
    (area sgn : Fl)
    (h : FVec2.eq (vs.getD (i + 1) default)
      (if i + 1 + 1 = size then vs.getD 0 default else vs.getD (i + 1 + 1) default) = true) :
    Fp.validLoop f vs size (k + 1 + 1) i area sgn = false := by
  rw [Fp.validLoop]
  simp only [fp_validLoop_eq f vs size k (i + 1) _ _ h]
  split_ifs <;> rfl

theorem fp_half_nonneg (w : Fl) (h : Fl.lt (Fl.fin 0) w = true) :
    Fl.le (Fl.fin 0) (Fp.half w) = true := by
  cases w with
  | fin q =>
    have hq : 0 < q := by simpa [Fl.lt] using h
    exact fl_round_nonneg binary32 _ (by linarith)
  | pinf => rfl
  | ninf => simp [Fl.lt] at h
  | nan => simp [Fl.lt] at h

theorem fp_half_fin_pos (w : Fl) (a : ℚ) (h : Fp.half w = Fl.fin a) (ha : 0 < a) :
    1 / 2 ^ 149 ≤ a := by
  cases w with
  | fin q => exact fl_round_fin_pos_ge binary32 _ a h ha
  | pinf => simp [Fp.half] at h
  | ninf => simp [Fp.half] at h
  | nan => simp [Fp.half] at h

/-- The corners of `createRectangle` with non-negative half-sides pass
`Polygon::valid` exactly when both half-sides are positive and finite. -/
theorem fp_corners_valid_iff (f : Format) (X Y : Fl) (hX : Fl.le (Fl.fin 0) X = true)
    (hY : Fl.le (Fl.fin 0) Y = true)
    (hXr : ∀ a, X = Fl.fin a → 0 < a → 1 / 2 ^ 149 ≤ a)
    (hYr : ∀ b, Y = Fl.fin b → 0 < b → 1 / 2 ^ 149 ≤ b) :
    Fp.validVertices f [⟨Fl.neg X, Fl.neg Y⟩, ⟨X, Fl.neg Y⟩, ⟨X, Y⟩, ⟨Fl.neg X, Y⟩] = true ↔
      Fl.lt (Fl.fin 0) X = true ∧ Fl.lt X Fl.pinf = true ∧
      Fl.lt (Fl.fin 0) Y = true ∧ Fl.lt Y Fl.pinf = true := by
  unfold Fp.validVertices
  rw [if_neg (by simp)]
  simp only [List.length_cons, List.length_nil, Nat.zero_add]
  cases X with
  | fin a =>
    cases Y with
    | fin b =>
      have ha : 0 ≤ a := by simpa [Fl.le] using hX
      have hb : 0 ≤ b := by simpa [Fl.le] using hY
      by_cases ha0 : a = 0
      · subst ha0
        have : Fp.validLoop f
            [⟨Fl.neg (Fl.fin 0), Fl.neg (Fl.fin b)⟩, ⟨Fl.fin 0, Fl.neg (Fl.fin b)⟩,
              ⟨Fl.fin 0, Fl.fin b⟩, ⟨Fl.neg (Fl.fin 0), Fl.fin b⟩]
            4 4 0 (Fl.fin 0) (Fl.fin 0) = false :=
          fp_validLoop_eq f _ _ _ _ _ _ (by simp [FVec2.eq, Fl.eq, Fl.neg])
        rw [this]
        simp [Fl.lt]
      · by_cases hb0 : b = 0
        · subst hb0
          have : Fp.validLoop f
              [⟨Fl.neg (Fl.fin a), Fl.neg (Fl.fin 0)⟩, ⟨Fl.fin a, Fl.neg (Fl.fin 0)⟩,
                ⟨Fl.fin a, Fl.fin 0⟩, ⟨Fl.neg (Fl.fin a), Fl.fin 0⟩]
              4 4 0 (Fl.fin 0) (Fl.fin 0) = false :=
            fp_validLoop_eq_next f _ _ _ _ _ _ (by simp [FVec2.eq, Fl.eq, Fl.neg])
          rw [this]
          simp [Fl.lt]
        · have hap : 0 < a := lt_of_le_of_ne ha (Ne.symm ha0)
          have hbp : 0 < b := lt_of_le_of_ne hb (Ne.symm hb0)
          have hv := fp_rectangle_valid f a b (hXr a rfl hap) (hYr b rfl hbp)
          unfold Fp.validVertices at hv
          rw [if_neg (by simp)] at hv
          simp only [List.length_cons, List.length_nil, Nat.zero_add] at hv
          simp only [Fl.neg, hv, Fl.lt, hap, hbp, decide_True, and_self]
    | pinf =>
      have : Fp.validLoop f [⟨Fl.neg (Fl.fin a), Fl.neg Fl.pinf⟩, ⟨Fl.fin a, Fl.neg Fl.pinf⟩,
          ⟨Fl.fin a, Fl.pinf⟩, ⟨Fl.neg (Fl.fin a), Fl.pinf⟩] 4 4 0 (Fl.fin 0) (Fl.fin 0) = false :=
        fp_validLoop_cross_nan f _ _ _ _ _ _ (by
          simp [FVec2.cross, FVec2.sub, Fl.neg, Fl.sub, Fl.add, Fl.cast, fl_mul_nan_right,
            fl_add_nan_left])
      rw [this]
      simp [Fl.lt]
    | ninf => simp [Fl.le] at hY
    | nan => simp [Fl.le] at hY
  | pinf =>
    have : Fp.validLoop f [⟨Fl.neg Fl.pinf, Fl.neg Y⟩, ⟨Fl.pinf, Fl.neg Y⟩,
        ⟨Fl.pinf, Y⟩, ⟨Fl.neg Fl.pinf, Y⟩] 4 4 0 (Fl.fin 0) (Fl.fin 0) = false :=
      fp_validLoop_cross_nan f _ _ _ _ _ _ (by
        simp [FVec2.cross, FVec2.sub, Fl.neg, Fl.sub, Fl.add, Fl.cast, fl_mul_nan_left,
          fl_add_nan_left])
    rw [this]
    simp [Fl.lt]
  | ninf => simp [Fl.le] at hX
  | nan => simp [Fl.le] at hX

/-- C11, amended: `createRectangle(width, height)` in float arithmetic
succeeds if and only if `width > 0`, `height > 0` and the float halves
`width * 0.5` and `height * 0.5` are positive and finite (neither rounded to
zero nor infinite), whichever the format of `Vector2Util::cross`. When it
succeeds, the polygon has the corners
`(-w/2,-h/2), (w/2,-h/2), (w/2,h/2), (-w/2,h/2)` with the rounded halves,
passes `Polygon::valid` and has centre `(0,0)`. -/
theorem createRectangle_float (f : Format) (w h : Fl) :
    ((Fp.createRectangle f w h).isSome = true ↔
      Fl.lt (Fl.fin 0) w = true ∧ Fl.lt (Fl.fin 0) h = true ∧
      Fl.lt (Fl.fin 0) (Fp.half w) = true ∧ Fl.lt (Fp.half w) Fl.pinf = true ∧
      Fl.lt (Fl.fin 0) (Fp.half h) = true ∧ Fl.lt (Fp.half h) Fl.pinf = true) ∧
    (∀ p, Fp.createRectangle f w h = some p →
      p.vertices = [⟨Fp.half (Fl.neg w), Fp.half (Fl.neg h)⟩, ⟨Fp.half w, Fp.half (Fl.neg h)⟩,
        ⟨Fp.half w, Fp.half h⟩, ⟨Fp.half (Fl.neg w), Fp.half h⟩] ∧
      p.center = FVec2.zero ∧ p.valid f = true) := by
  constructor
  · by_cases hpos : Fl.lt (Fl.fin 0) w = true ∧ Fl.lt (Fl.fin 0) h = true
    · have hiff := fp_corners_valid_iff f (Fp.half w) (Fp.half h) (fp_half_nonneg w hpos.1)
        (fp_half_nonneg h hpos.2) (fun a => fp_half_fin_pos w a) (fun b => fp_half_fin_pos h b)
      unfold Fp.createRectangle Fp.Polygon.constructCentered
      rw [if_pos hpos, fp_half_neg, fp_half_neg]
      by_cases hv : Fp.validVertices f [⟨Fl.neg (Fp.half w), Fl.neg (Fp.half h)⟩,
          ⟨Fp.half w, Fl.neg (Fp.half h)⟩, ⟨Fp.half w, Fp.half h⟩,
          ⟨Fl.neg (Fp.half w), Fp.half h⟩] = true
      · rw [if_pos hv]
        simp only [Option.isSome_some, true_iff]
        exact ⟨hpos.1, hpos.2, hiff.1 hv⟩
      · rw [if_neg hv]
        simp only [Option.isSome_none, Bool.false_eq_true, false_iff]
        rintro ⟨_, _, h3⟩
        exact hv (hiff.2 h3)
    · unfold Fp.createRectangle
      rw [if_neg hpos]
      simp only [Option.isSome_none, Bool.false_eq_true, false_iff]
      rintro ⟨h1, h2, _⟩
      exact hpos ⟨h1, h2⟩
  · intro p hp
    unfold Fp.createRectangle Fp.Polygon.constructCentered at hp
    split_ifs at hp with h1 h2
    simp only [Option.some.injEq] at hp
    subst hp
    exact ⟨rfl, rfl, h2⟩

/-- Witness for C11: `createRectangle(10, 12)` of the demonstration succeeds
in float arithmetic, its halves 5 and 6 being positive and finite. -/
theorem createRectangle_float_witness :
    (Fp.createRectangle binary32 (Fl.fin 10) (Fl.fin 12)).isSome = true ∧
    (Fp.createRectangle binary64 (Fl.fin 10) (Fl.fin 12)).isSome = true ∧
    Fp.half (Fl.fin 10) = Fl.fin 5 ∧ Fp.half (Fl.fin 12) = Fl.fin 6 :=
  ⟨(createRectangle_float binary32 (Fl.fin 10) (Fl.fin 12)).1.2
    ⟨by decide!, by decide!, by decide!, by decide!, by decide!, by decide!⟩,
    (createRectangle_float binary64 (Fl.fin 10) (Fl.fin 12)).1.2
    ⟨by decide!, by decide!, by decide!, by decide!, by decide!, by decide!⟩,
    by decide!, by decide!⟩

/-- Counterexample to C11 as stated: the least positive float `2^-149` is a
positive width and height, but its half rounds to zero, the four corners
coincide, `Polygon::valid` rejects them and `createRectangle` fails, with
`Vector2Util::cross` in float and in double alike. So it does for the width
and height `+infinity`. -/
theorem createRectangle_rejects_positive :
    Representable binary32 (1 / 2 ^ 149) ∧ Fl.lt (Fl.fin 0) (Fl.fin (1 / 2 ^ 149)) = true ∧
    Fp.half (Fl.fin (1 / 2 ^ 149)) = Fl.fin 0 ∧
    Fp.validVertices binary32 [⟨Fl.fin 0, Fl.fin 0⟩, ⟨Fl.fin 0, Fl.fin 0⟩, ⟨Fl.fin 0, Fl.fin 0⟩,
      ⟨Fl.fin 0, Fl.fin 0⟩] = false ∧
    Fp.createRectangle binary32 (Fl.fin (1 / 2 ^ 149)) (Fl.fin (1 / 2 ^ 149)) = none ∧
    Fp.createRectangle binary64 (Fl.fin (1 / 2 ^ 149)) (Fl.fin (1 / 2 ^ 149)) = none ∧
    Fp.createRectangle binary32 Fl.pinf Fl.pinf = none ∧
    Fp.createRectangle binary64 Fl.pinf Fl.pinf = none := by
  refine ⟨?_, ?_, ?_, ?_, ?_, ?_, ?_, ?_⟩ <;> decide!

/-! ## The support scan in float arithmetic -/

theorem fl_lt_irrefl (a : Fl) : Fl.lt a a = false := by
  cases a <;> simp [Fl.lt]

/-- A value below `b` that is not below `c` shows that `b` is not below `c`. -/
theorem fl_lt_of_lt_of_not_lt (a b c : Fl) (hab : Fl.lt a b = true) (hac : Fl.lt a c = false) :
    Fl.lt b c = false := by
  cases a <;> cases b <;> cases c <;> simp_all [Fl.lt]
  linarith

/-- A value below `b` that is not below `c` shows that `b` is not at most `c`. -/
theorem fl_le_of_lt_of_not_lt (a b c : Fl) (hab : Fl.lt a b = true) (hac : Fl.lt a c = false) :
    Fl.le b c = false := by
  cases a <;> cases b <;> cases c <;> simp_all [Fl.lt, Fl.le]
  linarith

theorem fl_le_of_lt (a b : Fl) (hab : Fl.lt a b = true) : Fl.le b a = false := by
  cases a <;> cases b <;> simp_all [Fl.lt, Fl.le]

/-- The scan of `getFarthestPoint` in float arithmetic, continued from a
position `i` of the vertices `pre` already seen: the vertex it ends on has no
vertex with a greater computed projection, and no earlier vertex with a
computed projection at least as great. -/
theorem fp_scan (localn : FVec2) :
    ∀ (rest pre : List FVec2) (i : Nat), i < pre.length →
      (∀ j, j < pre.length →
        Fl.lt (FVec2.dot localn (pre.getD i default)) (FVec2.dot localn (pre.getD j default)) =
          false) →
      (∀ j, j < i →
        Fl.le (FVec2.dot localn (pre.getD i default)) (FVec2.dot localn (pre.getD j default)) =
          false) →
      ∃ n, n < (pre ++ rest).length ∧
        rest.foldl (Fp.farthestStep localn)
          (pre.getD i default, FVec2.dot localn (pre.getD i default)) =
          ((pre ++ rest).getD n default, FVec2.dot localn ((pre ++ rest).getD n default)) ∧
        (∀ j, j < (pre ++ rest).length →
          Fl.lt (FVec2.dot localn ((pre ++ rest).getD n default))
            (FVec2.dot localn ((pre ++ rest).getD j default)) = false) ∧
        (∀ j, j < n →
          Fl.le (FVec2.dot localn ((pre ++ rest).getD n default))
            (FVec2.dot localn ((pre ++ rest).getD j default)) = false) := by
  intro rest
  induction rest with
  | nil =>
    intro pre i hi ha hb
    refine ⟨i, by simpa using hi, by simp, ?_, ?_⟩
    · intro j hj
      simp only [List.append_nil] at hj ⊢
      exact ha j hj
    · intro j hj
      simp only [List.append_nil]
      exact hb j hj
  | cons v rest ih =>
    intro pre i hi ha hb
    have hpre : ∀ j, j < pre.length → (pre ++ [v]).getD j default = pre.getD j default := by
      intro j hj
      rw [List.getD_append _ _ _ _ hj]
    have hlast : (pre ++ [v]).getD pre.length default = v := by
      rw [List.getD_append_right _ _ _ _ (le_refl _)]
      simp
    have hlen : (pre ++ [v]).length = pre.length + 1 := by simp
    have hassoc : pre ++ v :: rest = (pre ++ [v]) ++ rest := by simp
    rw [hassoc, List.foldl_cons]
    by_cases hlt : Fl.lt (FVec2.dot localn (pre.getD i default)) (FVec2.dot localn v) = true
    · have hstep : Fp.farthestStep localn
          (pre.getD i default, FVec2.dot localn (pre.getD i default)) v =
          ((pre ++ [v]).getD pre.length default,
            FVec2.dot localn ((pre ++ [v]).getD pre.length default)) := by
        rw [hlast]
        simp only [Fp.farthestStep, hlt, if_true]
      rw [hstep]
      refine ih (pre ++ [v]) pre.length (by omega) ?_ ?_
      · intro j hj
        rw [hlast]
        rcases Nat.lt_or_ge j pre.length with h | h
        · rw [hpre j h]
          exact fl_lt_of_lt_of_not_lt _ _ _ hlt (ha j h)
        · have : j = pre.length := by omega
          rw [this, hlast]
          exact fl_lt_irrefl _
      · intro j hj
        rw [hlast, hpre j hj]
        exact fl_le_of_lt_of_not_lt _ _ _ hlt (ha j hj)
    · have hstep : Fp.farthestStep localn
          (pre.getD i default, FVec2.dot localn (pre.getD i default)) v =
          ((pre ++ [v]).getD i default, FVec2.dot localn ((pre ++ [v]).getD i default)) := by
        rw [hpre i hi]
        simp only [Fp.farthestStep, hlt, Bool.false_eq_true, if_false]
      rw [hstep]
      refine ih (pre ++ [v]) i (by omega) ?_ ?_
      · intro j hj
        rw [hpre i hi]
        rcases Nat.lt_or_ge j pre.length with h | h
        · rw [hpre j h]
          exact ha j h
        · have : j = pre.length := by omega
          rw [this, hlast]
          simpa using hlt
      · intro j hj
        rw [hpre i hi, hpre j (by omega)]
        exact hb j hj

/-- The result of `getFarthestPoint` in float arithmetic on a polygon with at
least one vertex. -/
theorem fp_getFarthestPoint_spec (p : Fp.Polygon) (d : FVec2) (t : Fp.Transform2)
    (hne : p.vertices ≠ []) :
    ∃ n, n < p.vertices.length ∧
      p.getFarthestPoint d t = t.getTransformed (p.vertices.getD n default) ∧
      (∀ j, j < p.vertices.length →
        Fl.lt (FVec2.dot (t.getInverseTransformedR d) (p.vertices.getD n default))
          (FVec2.dot (t.getInverseTransformedR d) (p.vertices.getD j default)) = false) ∧
      (∀ j, j < n →
        Fl.le (FVec2.dot (t.getInverseTransformedR d) (p.vertices.getD n default))
          (FVec2.dot (t.getInverseTransformedR d) (p.vertices.getD j default)) = false) := by
  obtain ⟨vs, c⟩ := p
  cases vs with
  | nil => exact absurd rfl hne
  | cons v0 rest =>
    obtain ⟨n, hn, hfold, ha, hb⟩ := fp_scan (t.getInverseTransformedR d) rest [v0] 0
      (by simp) (by
        intro j hj
        have : j = 0 := by simpa using hj
        subst this
        exact fl_lt_irrefl _) (by intro j hj; omega)
    refine ⟨n, by simpa using hn, ?_, by simpa using ha, by simpa using hb⟩
    simp only [Fp.Polygon.getFarthestPoint, List.headD_cons, List.tail_cons]
    simp only [List.getD_cons_zero, List.singleton_append] at hfold
    rw [hfold]

theorem fp_validVertices_ne_nil (f : Format) (vs : List FVec2)
    (h : Fp.validVertices f vs = true) : vs ≠ [] := by
  intro h0
  subst h0
  simp [Fp.validVertices] at h

/-- C8, amended: for every polygon that passes `Polygon::valid`, every
direction and every transform, `getFarthestPoint` in float arithmetic returns
the image `t(v)` of a vertex `v` of the polygon, and no vertex has a float
projection `dot(localn, w)` onto the local-space direction that is greater
than the float projection of `v`. -/
theorem getFarthestPoint_float_max (f : Format) (p : Fp.Polygon) (d : FVec2)
    (t : Fp.Transform2) (hv : p.valid f = true) :
    ∃ n, n < p.vertices.length ∧
      p.getFarthestPoint d t = t.getTransformed (p.vertices.getD n default) ∧
      ∀ j, j < p.vertices.length →
        Fl.lt (FVec2.dot (t.getInverseTransformedR d) (p.vertices.getD n default))
          (FVec2.dot (t.getInverseTransformedR d) (p.vertices.getD j default)) = false := by
  obtain ⟨n, hn, hres, ha, _⟩ :=
    fp_getFarthestPoint_spec p d t (fp_validVertices_ne_nil f _ hv)
  exact ⟨n, hn, hres, ha⟩

/-- Witness for C8: the triangle (4,11),(4,5),(9,9) of the demonstration
passes `Polygon::valid` in float arithmetic, and in direction (1,0) the scan
returns the vertex (9,9). -/
theorem getFarthestPoint_float_max_witness :
    Fp.Polygon.valid ⟨demoTriangle.vertices.map Vec2.toF, FVec2.zero⟩ binary32 = true ∧
    Fp.Polygon.getFarthestPoint ⟨demoTriangle.vertices.map Vec2.toF, FVec2.zero⟩
      ⟨Fl.fin 1, Fl.fin 0⟩ {} = ⟨Fl.fin 9, Fl.fin 9⟩ ∧
    ∃ n, n < (demoTriangle.vertices.map Vec2.toF).length ∧
      Fp.Polygon.getFarthestPoint ⟨demoTriangle.vertices.map Vec2.toF, FVec2.zero⟩
        ⟨Fl.fin 1, Fl.fin 0⟩ {} =
        Fp.Transform2.getTransformed {} ((demoTriangle.vertices.map Vec2.toF).getD n default) ∧
      ∀ j, j < (demoTriangle.vertices.map Vec2.toF).length →
        Fl.lt (FVec2.dot (Fp.Transform2.getInverseTransformedR {} ⟨Fl.fin 1, Fl.fin 0⟩)
            ((demoTriangle.vertices.map Vec2.toF).getD n default))
          (FVec2.dot (Fp.Transform2.getInverseTransformedR {} ⟨Fl.fin 1, Fl.fin 0⟩)
            ((demoTriangle.vertices.map Vec2.toF).getD j default)) = false :=
  ⟨by decide!, by decide!,
    getFarthestPoint_float_max binary32 ⟨demoTriangle.vertices.map Vec2.toF, FVec2.zero⟩
      ⟨Fl.fin 1, Fl.fin 0⟩ {} (by decide!)⟩

/-- Counterexample to C8 as stated: the triangle (16777216,0), (16777216,1),
(0,0) has float coordinates and is accepted by `createTriangle` (with
`Vector2Util::cross` in float and in double); in direction (1,1) under the
identity transform the exact dot products of its first two vertices are
16777216 and 16777217, but the float projection of the second rounds to
16777216, the test `projection > max` fails, and the first vertex is returned
although it does not maximise the dot product. In direction
(2^127, 0) the projections of the vertices (2,0) and (3,1) of the triangle
(2,0),(3,1),(0,1) both overflow to infinity and (2,0) is returned. -/
theorem getFarthestPoint_not_max :
    Representable binary32 16777216 ∧
    (Fp.createTriangle binary64 ⟨Fl.fin 16777216, Fl.fin 0⟩ ⟨Fl.fin 16777216, Fl.fin 1⟩
      ⟨Fl.fin 0, Fl.fin 0⟩).isSome = true ∧
    (Fp.createTriangle binary32 ⟨Fl.fin 16777216, Fl.fin 0⟩ ⟨Fl.fin 16777216, Fl.fin 1⟩
      ⟨Fl.fin 0, Fl.fin 0⟩).map (fun p => p.getFarthestPoint ⟨Fl.fin 1, Fl.fin 1⟩ {}) =
      some ⟨Fl.fin 16777216, Fl.fin 0⟩ ∧
    dot ⟨16777216, 0⟩ ⟨1, 1⟩ < dot ⟨16777216, 1⟩ ⟨1, 1⟩ ∧
    FVec2.dot ⟨Fl.fin 1, Fl.fin 1⟩ ⟨Fl.fin 16777216, Fl.fin 1⟩ = Fl.fin 16777216 ∧
    (Fp.createTriangle binary32 ⟨Fl.fin 2, Fl.fin 0⟩ ⟨Fl.fin 3, Fl.fin 1⟩
      ⟨Fl.fin 0, Fl.fin 1⟩).map (fun p => p.getFarthestPoint ⟨Fl.fin (2 ^ 127), Fl.fin 0⟩ {}) =
      some ⟨Fl.fin 2, Fl.fin 0⟩ ∧
    dot ⟨2, 0⟩ ⟨2 ^ 127, 0⟩ < dot ⟨3, 1⟩ ⟨2 ^ 127, 0⟩ ∧
    FVec2.dot ⟨Fl.fin (2 ^ 127), Fl.fin 0⟩ ⟨Fl.fin 2, Fl.fin 0⟩ = Fl.pinf ∧
    FVec2.dot ⟨Fl.fin (2 ^ 127), Fl.fin 0⟩ ⟨Fl.fin 3, Fl.fin 1⟩ = Fl.pinf := by
  refine ⟨?_, ?_, ?_, ?_, ?_, ?_, ?_, ?_, ?_⟩ <;> decide!

/-- C19, amended: for every polygon that passes `Polygon::valid`, every
direction and every transform, `getFarthestPoint` in float arithmetic returns
the image of the first vertex, in the order of the vertex list, among those
whose float projection onto the local-space direction is maximal: no vertex
has a greater float projection than the returned one, and no earlier vertex
has a float projection at least as great. -/
theorem getFarthestPoint_float_first (f : Format) (p : Fp.Polygon) (d : FVec2)
    (t : Fp.Transform2) (hv : p.valid f = true) :
    ∃ n, n < p.vertices.length ∧
      p.getFarthestPoint d t = t.getTransformed (p.vertices.getD n default) ∧
      (∀ j, j < p.vertices.length →
        Fl.lt (FVec2.dot (t.getInverseTransformedR d) (p.vertices.getD n default))
          (FVec2.dot (t.getInverseTransformedR d) (p.vertices.getD j default)) = false) ∧
      (∀ j, j < n →
        Fl.le (FVec2.dot (t.getInverseTransformedR d) (p.vertices.getD n default))
          (FVec2.dot (t.getInverseTransformedR d) (p.vertices.getD j default)) = false) :=
  fp_getFarthestPoint_spec p d t (fp_validVertices_ne_nil f _ hv)

/-- Witness for C19: the 10x12 rectangle of the demonstration passes
`Polygon::valid` in float arithmetic; in direction (1,0) its second and third
vertices tie at the float projection 5, and the second, (5,-6), is
returned. -/
theorem getFarthestPoint_float_first_witness :
    Fp.Polygon.valid ⟨demoRectangle.vertices.map Vec2.toF, FVec2.zero⟩ binary32 = true ∧
    Fp.Polygon.getFarthestPoint ⟨demoRectangle.vertices.map Vec2.toF, FVec2.zero⟩
      ⟨Fl.fin 1, Fl.fin 0⟩ {} = ⟨Fl.fin 5, Fl.fin (-6)⟩ ∧
    ∃ n, n < (demoRectangle.vertices.map Vec2.toF).length ∧
      Fp.Polygon.getFarthestPoint ⟨demoRectangle.vertices.map Vec2.toF, FVec2.zero⟩
        ⟨Fl.fin 1, Fl.fin 0⟩ {} =
        Fp.Transform2.getTransformed {} ((demoRectangle.vertices.map Vec2.toF).getD n default) ∧
      (∀ j, j < (demoRectangle.vertices.map Vec2.toF).length →
        Fl.lt (FVec2.dot (Fp.Transform2.getInverseTransformedR {} ⟨Fl.fin 1, Fl.fin 0⟩)
            ((demoRectangle.vertices.map Vec2.toF).getD n default))
          (FVec2.dot (Fp.Transform2.getInverseTransformedR {} ⟨Fl.fin 1, Fl.fin 0⟩)
            ((demoRectangle.vertices.map Vec2.toF).getD j default)) = false) ∧
      (∀ j, j < n →
        Fl.le (FVec2.dot (Fp.Transform2.getInverseTransformedR {} ⟨Fl.fin 1, Fl.fin 0⟩)
            ((demoRectangle.vertices.map Vec2.toF).getD n default))
          (FVec2.dot (Fp.Transform2.getInverseTransformedR {} ⟨Fl.fin 1, Fl.fin 0⟩)
            ((demoRectangle.vertices.map Vec2.toF).getD j default)) = false) :=
  ⟨by decide!, by decide!,
    getFarthestPoint_float_first binary32 ⟨demoRectangle.vertices.map Vec2.toF, FVec2.zero⟩
      ⟨Fl.fin 1, Fl.fin 0⟩ {} (by decide!)⟩

/-- Counterexample to C19 as stated: the triangle (5592407,-5), (5592405,1),
(0,0) has float coordinates and is accepted by `createTriangle` (with
`Vector2Util::cross` in float and in double); in direction (3,1) under the
identity transform its first two vertices attain the maximum projection
16777216 exactly, but the float product 3 * 5592407 = 16777221 rounds to
16777220, the float projection of the first vertex is 16777215, and the scan
returns the second vertex, not the one with the smallest index. -/
theorem getFarthestPoint_not_first :
    Representable binary32 5592407 ∧ Representable binary32 5592405 ∧
    (Fp.createTriangle binary64 ⟨Fl.fin 5592407, Fl.fin (-5)⟩ ⟨Fl.fin 5592405, Fl.fin 1⟩
      ⟨Fl.fin 0, Fl.fin 0⟩).isSome = true ∧
    dot ⟨5592407, -5⟩ ⟨3, 1⟩ = 16777216 ∧ dot ⟨5592405, 1⟩ ⟨3, 1⟩ = 16777216 ∧
    dot ⟨0, 0⟩ ⟨3, 1⟩ < 16777216 ∧
    FVec2.dot ⟨Fl.fin 3, Fl.fin 1⟩ ⟨Fl.fin 5592407, Fl.fin (-5)⟩ = Fl.fin 16777215 ∧
    FVec2.dot ⟨Fl.fin 3, Fl.fin 1⟩ ⟨Fl.fin 5592405, Fl.fin 1⟩ = Fl.fin 16777216 ∧
    (Fp.createTriangle binary32 ⟨Fl.fin 5592407, Fl.fin (-5)⟩ ⟨Fl.fin 5592405, Fl.fin 1⟩
      ⟨Fl.fin 0, Fl.fin 0⟩).map (fun p => p.getFarthestPoint ⟨Fl.fin 3, Fl.fin 1⟩ {}) =
      some ⟨Fl.fin 5592405, Fl.fin 1⟩ := by
  refine ⟨?_, ?_, ?_, ?_, ?_, ?_, ?_, ?_, ?_⟩ <;> decide!

/-! ## Runs that reach the segment case -/

/-- After the first round the direction that the segment case has left points
from the segment toward the origin, when its dot product with `ao` is
non-negative. -/
theorem first_towardOrigin_dir (m : MinkowskiSum) (direction : Vec2)
    (h1 : ¬ dot (m.getSupportPoint (firstDirection direction)) (firstDirection direction) ≤ 0)
    (h2 : ¬ dot (m.getSupportPoint (-(firstDirection direction)))
      (-(firstDirection direction)) ≤ 0)
    (hdir : 0 ≤ dot (firstSegmentDirection m direction)
      (-(m.getSupportPoint (-(firstDirection direction))))) :
    TowardOrigin (m.getSupportPoint (firstDirection direction))
      (m.getSupportPoint (-(firstDirection direction))) (firstSegmentDirection m direction) := by
  by_cases h3 : magnitudeSquared (firstSegmentNormal m direction) ≤ epsilonDouble
  · have hne : m.getSupportPoint (firstDirection direction) ≠
        m.getSupportPoint (-(firstDirection direction)) := by
      intro h
      rw [dot_neg_right, ← h] at h2
      linarith
    have hd : dot (m.getSupportPoint (-(firstDirection direction)))
        (firstSegmentDirection m direction) ≤ 0 := by
      have e : dot (firstSegmentDirection m direction)
          (-(m.getSupportPoint (-(firstDirection direction)))) =
          -dot (m.getSupportPoint (-(firstDirection direction)))
            (firstSegmentDirection m direction) := by
        simp only [dot, Vec2.neg_x, Vec2.neg_y]
        ring
      rw [e] at hdir
      linarith
    simp only [firstSegmentDirection, if_pos h3] at hd ⊢
    exact ⟨hne, ⟨-1, by norm_num, left_eq _⟩, hd⟩
  · have hgt := not_le.1 h3
    simp only [firstSegmentDirection, if_neg h3]
    exact (first_towardOrigin m direction h1 h2 (Or.inr hgt)).2 hgt

/-- The loop after the first round, in terms of the direction that the
segment case has left. -/
theorem detectCore_unfold_dir (m : MinkowskiSum) (fuel : Nat) (direction : Vec2) :
    detectCore m (fuel + 1) [] direction =
      if dot (m.getSupportPoint (firstDirection direction)) (firstDirection direction) ≤ 0 then
        some (false, [m.getSupportPoint (firstDirection direction)])
      else if dot (m.getSupportPoint (-(firstDirection direction)))
          (-(firstDirection direction)) ≤ 0 then
        some (false, [m.getSupportPoint (firstDirection direction),
          m.getSupportPoint (-(firstDirection direction))])
      else
        detectLoop m fuel [m.getSupportPoint (firstDirection direction),
          m.getSupportPoint (-(firstDirection direction))] (firstSegmentDirection m direction) := by
  rw [detectCore_unfold]
  unfold firstSegmentDirection
  split_ifs <;> rfl

/-- With every support point strictly on one side of a line through the
origin, the core answers false when the direction left by the segment case
does not point away from the origin. -/
theorem detectCore_false_toward (m : MinkowskiSum) (S : List Vec2)
    (hS : IsSupport S m.getSupportPoint) (nv : Vec2)
    (hsep : ∀ d, dot (m.getSupportPoint d) nv < 0)
    (direction : Vec2) (hdir : SegmentToward m direction) (k : Nat) :
    ∃ simplex, detectCore m (S.length + 4 + k) [] direction = some (false, simplex) := by
  obtain ⟨r, hr⟩ := Option.isSome_iff_exists.1 (detectCore_terminates m S hS direction)
  have hfalse : r.1 = false := by
    have hr2 := hr
    rw [detectCore_unfold_dir] at hr2
    split_ifs at hr2 with h1 h2
    · rw [← Option.some.inj hr2]
    · rw [← Option.some.inj hr2]
    · exact loop_never_true m nv hsep _ _ _ _
        (first_towardOrigin_dir m direction h1 h2 (hdir ⟨not_le.1 h1, not_le.1 h2⟩))
        (hsep _) (hsep _) r hr2
  refine ⟨r.2, ?_⟩
  rw [detectCore_mono m _ k _ _ r hr, ← hfalse]

/-- With every support point on one closed side of a line through the origin,
the core answers false when the direction left by the segment case points to
the side of the origin. -/
theorem detectCore_false_strict (m : MinkowskiSum) (S : List Vec2)
    (hS : IsSupport S m.getSupportPoint) (nv : Vec2) (hnv : nv ≠ 0)
    (hsep : ∀ d, dot (m.getSupportPoint d) nv ≤ 0)
    (direction : Vec2) (hdir : SegmentStrictlyToward m direction) (k : Nat) :
    ∃ simplex, detectCore m (S.length + 4 + k) [] direction = some (false, simplex) := by
  obtain ⟨r, hr⟩ := Option.isSome_iff_exists.1 (detectCore_terminates m S hS direction)
  have hfalse : r.1 = false := by
    have hr2 := hr
    rw [detectCore_unfold_dir] at hr2
    split_ifs at hr2 with h1 h2
    · rw [← Option.some.inj hr2]
    · rw [← Option.some.inj hr2]
    · have hpos := hdir ⟨not_le.1 h1, not_le.1 h2⟩
      have hto := first_towardOrigin_dir m direction h1 h2 (le_of_lt hpos)
      refine loop_never_true_weak m nv hnv hsep _ _ _ _ hto (hsep _) (hsep _) (Or.inl ?_) r hr2
      have e : dot (firstSegmentDirection m direction)
          (-(m.getSupportPoint (-(firstDirection direction)))) =
          -dot (m.getSupportPoint (-(firstDirection direction)))
            (firstSegmentDirection m direction) := by
        simp only [dot, Vec2.neg_x, Vec2.neg_y]
        ring
      rw [e] at hpos
      linarith
  refine ⟨r.2, ?_⟩
  rw [detectCore_mono m _ k _ _ r hr, ← hfalse]

/-- A triple product above the epsilon points to the side of the origin. -/
theorem segmentStrictlyToward_of_clear (m : MinkowskiSum) (direction : Vec2)
    (hclear : epsilonDouble < magnitudeSquared (firstSegmentNormal m direction)) :
    SegmentStrictlyToward m direction := by
  intro _
  have e : magnitudeSquared (firstSegmentNormal m direction) =
      magnitudeSquared (m.getSupportPoint (firstDirection direction) -
          m.getSupportPoint (-(firstDirection direction))) *
        dot (firstSegmentNormal m direction)
          (-(m.getSupportPoint (-(firstDirection direction)))) := by
    simp only [firstSegmentNormal, tripleProduct, magnitudeSquared, dot, Vec2.sub_x,
      Vec2.sub_y, Vec2.neg_x, Vec2.neg_y]
    ring
  simp only [firstSegmentDirection, if_neg (not_le.2 hclear)]
  have hpos : 0 < magnitudeSquared (firstSegmentNormal m direction) :=
    lt_trans epsilonDouble_pos hclear
  rw [e] at hpos
  have hm : 0 ≤ magnitudeSquared (m.getSupportPoint (firstDirection direction) -
      m.getSupportPoint (-(firstDirection direction))) := by
    simp only [magnitudeSquared]
    exact add_nonneg (mul_self_nonneg _) (mul_self_nonneg _)
  by_contra hcon
  have := mul_nonpos_of_nonneg_of_nonpos hm (not_lt.1 hcon)
  linarith

/-! ## Separated and touching polygons -/

/-- On the separated triangles (0,-3),(-1,1),(-1,-1) and (-3,1),(-2,0),(-2,2)
and on the overlapping triangles (-1,1),(0,0),(2,1) and (2,0),(-1,1),(-4,0),
all scaled by 1/2048, the run reaches the segment case and the direction it
leaves there points away from the origin. -/
theorem fallback_points_away :
    (SegmentReached
        ⟨Polygon.toConvex ⟨[⟨0, -3 / 2048⟩, ⟨-1 / 2048, 1 / 2048⟩, ⟨-1 / 2048, -1 / 2048⟩],
          ⟨-1 / 3072, -1 / 2048⟩⟩, {},
        Polygon.toConvex ⟨[⟨-3 / 2048, 1 / 2048⟩, ⟨-2 / 2048, 0⟩, ⟨-2 / 2048, 2 / 2048⟩],
          ⟨-7 / 6144, 1 / 2048⟩⟩, {}⟩
        (calcInitialDirection
          (Polygon.toConvex ⟨[⟨0, -3 / 2048⟩, ⟨-1 / 2048, 1 / 2048⟩, ⟨-1 / 2048, -1 / 2048⟩],
          ⟨-1 / 3072, -1 / 2048⟩⟩) {}
          (Polygon.toConvex ⟨[⟨-3 / 2048, 1 / 2048⟩, ⟨-2 / 2048, 0⟩, ⟨-2 / 2048, 2 / 2048⟩],
          ⟨-7 / 6144, 1 / 2048⟩⟩) {}) ∧
      ¬ SegmentToward
        ⟨Polygon.toConvex ⟨[⟨0, -3 / 2048⟩, ⟨-1 / 2048, 1 / 2048⟩, ⟨-1 / 2048, -1 / 2048⟩],
          ⟨-1 / 3072, -1 / 2048⟩⟩, {},
        Polygon.toConvex ⟨[⟨-3 / 2048, 1 / 2048⟩, ⟨-2 / 2048, 0⟩, ⟨-2 / 2048, 2 / 2048⟩],
          ⟨-7 / 6144, 1 / 2048⟩⟩, {}⟩
        (calcInitialDirection
          (Polygon.toConvex ⟨[⟨0, -3 / 2048⟩, ⟨-1 / 2048, 1 / 2048⟩, ⟨-1 / 2048, -1 / 2048⟩],
          ⟨-1 / 3072, -1 / 2048⟩⟩) {}
          (Polygon.toConvex ⟨[⟨-3 / 2048, 1 / 2048⟩, ⟨-2 / 2048, 0⟩, ⟨-2 / 2048, 2 / 2048⟩],
          ⟨-7 / 6144, 1 / 2048⟩⟩) {})) ∧
    (SegmentReached
        ⟨Polygon.toConvex ⟨[⟨-1 / 2048, 1 / 2048⟩, ⟨0, 0⟩, ⟨2 / 2048, 1 / 2048⟩],
          ⟨1 / 6144, 1 / 3072⟩⟩, {},
        Polygon.toConvex ⟨[⟨2 / 2048, 0⟩, ⟨-1 / 2048, 1 / 2048⟩, ⟨-4 / 2048, 0⟩],
          ⟨-1 / 2048, 1 / 6144⟩⟩, {}⟩
        (calcInitialDirection
          (Polygon.toConvex ⟨[⟨-1 / 2048, 1 / 2048⟩, ⟨0, 0⟩, ⟨2 / 2048, 1 / 2048⟩],
          ⟨1 / 6144, 1 / 3072⟩⟩) {}
          (Polygon.toConvex ⟨[⟨2 / 2048, 0⟩, ⟨-1 / 2048, 1 / 2048⟩, ⟨-4 / 2048, 0⟩],
          ⟨-1 / 2048, 1 / 6144⟩⟩) {}) ∧
      ¬ SegmentToward
        ⟨Polygon.toConvex ⟨[⟨-1 / 2048, 1 / 2048⟩, ⟨0, 0⟩, ⟨2 / 2048, 1 / 2048⟩],
          ⟨1 / 6144, 1 / 3072⟩⟩, {},
        Polygon.toConvex ⟨[⟨2 / 2048, 0⟩, ⟨-1 / 2048, 1 / 2048⟩, ⟨-4 / 2048, 0⟩],
          ⟨-1 / 2048, 1 / 6144⟩⟩, {}⟩
        (calcInitialDirection
          (Polygon.toConvex ⟨[⟨-1 / 2048, 1 / 2048⟩, ⟨0, 0⟩, ⟨2 / 2048, 1 / 2048⟩],
          ⟨1 / 6144, 1 / 3072⟩⟩) {}
          (Polygon.toConvex ⟨[⟨2 / 2048, 0⟩, ⟨-1 / 2048, 1 / 2048⟩, ⟨-4 / 2048, 0⟩],
          ⟨-1 / 2048, 1 / 6144⟩⟩) {})) := by
  refine ⟨⟨?_, ?_⟩, ⟨?_, ?_⟩⟩ <;> decide!

/-! ## The stored centre in float arithmetic -/

/-- C10: the counter-clockwise right triangle (0,0), (1/4096,0), (0,1/4096)
has float coordinates and three distinct vertices, and `createTriangle`
accepts it; its area `2^-25` is positive, and its area-weighted centroid, the
mean of its vertices, is (1/12288, 1/12288). The centre that
`calcAreaWeightedCenter` stores is the first vertex (0,0): the guard
`abs(area) <= epsilon`, which the source takes to mean that all the points are
the same point, fires on the small area. -/
theorem center_guard_on_triangle :
    Representable binary32 (1 / 4096) ∧
    Fp.createTriangle binary32 ⟨Fl.fin 0, Fl.fin 0⟩ ⟨Fl.fin (1 / 4096), Fl.fin 0⟩
        ⟨Fl.fin 0, Fl.fin (1 / 4096)⟩ =
      some ⟨[⟨Fl.fin 0, Fl.fin 0⟩, ⟨Fl.fin (1 / 4096), Fl.fin 0⟩, ⟨Fl.fin 0, Fl.fin (1 / 4096)⟩],
        ⟨Fl.fin 0, Fl.fin 0⟩⟩ ∧
    Fp.createTriangle binary64 ⟨Fl.fin 0, Fl.fin 0⟩ ⟨Fl.fin (1 / 4096), Fl.fin 0⟩
        ⟨Fl.fin 0, Fl.fin (1 / 4096)⟩ =
      some ⟨[⟨Fl.fin 0, Fl.fin 0⟩, ⟨Fl.fin (1 / 4096), Fl.fin 0⟩, ⟨Fl.fin 0, Fl.fin (1 / 4096)⟩],
        ⟨Fl.fin 0, Fl.fin 0⟩⟩ ∧
    signedArea [⟨0, 0⟩, ⟨1 / 4096, 0⟩, ⟨0, 1 / 4096⟩] = 1 / 2 ^ 25 ∧
    centroidSpec [⟨0, 0⟩, ⟨1 / 4096, 0⟩, ⟨0, 1 / 4096⟩] = ⟨1 / 12288, 1 / 12288⟩ ∧
    ((1 : ℚ) / 3) • ((⟨0, 0⟩ : Vec2) + ⟨1 / 4096, 0⟩ + ⟨0, 1 / 4096⟩) = ⟨1 / 12288, 1 / 12288⟩ ∧
    (⟨0, 0⟩ : Vec2) ≠ ⟨1 / 4096, 0⟩ ∧ (⟨1 / 4096, 0⟩ : Vec2) ≠ ⟨0, 1 / 4096⟩ ∧
    (⟨0, 1 / 4096⟩ : Vec2) ≠ ⟨0, 0⟩ := by
  refine ⟨?_, ?_, ?_, ?_, ?_, ?_, ?_, ?_, ?_⟩ <;> decide!

/-- The float centre can be NaN: the triangle (0,0), (2^66,0), (0,2^66) is
accepted by `createTriangle`, the products of its cross products overflow, and
the stored centre is (NaN, NaN). -/
theorem center_overflow_nan :
    (Fp.createTriangle binary32 ⟨Fl.fin 0, Fl.fin 0⟩ ⟨Fl.fin (2 ^ 66), Fl.fin 0⟩
      ⟨Fl.fin 0, Fl.fin (2 ^ 66)⟩).map (fun p => p.center) = some ⟨Fl.nan, Fl.nan⟩ := by
  decide!

/-- The centre stored in float arithmetic for the triangle (4,11),(4,5),(9,9)
of the demonstration is the pair of floats (5.666666507720947265625,
8.33333301544189453125), next to its centroid (17/3, 25/3). -/
theorem center_demo_float :
    (Fp.createTriangle binary32 ⟨Fl.fin 4, Fl.fin 11⟩ ⟨Fl.fin 4, Fl.fin 5⟩
      ⟨Fl.fin 9, Fl.fin 9⟩).map (fun p => p.center) =
      some ⟨Fl.fin (5.666666507720947265625), Fl.fin (8.33333301544189453125)⟩ := by
  decide!

/-! ## The two embeddings on the shapes of the demonstration -/

/-- On the shapes of the demonstration the float embedding of the factories
agrees with the exact one up to the rounding of the computed centres: the
vertices are the same, and the rectangle is the same polygon. -/
theorem fp_demo_shapes :
    Fp.createRectangle binary32 (Fl.fin 10) (Fl.fin 12) =
      some ⟨demoRectangle.vertices.map Vec2.toF, Vec2.toF demoRectangle.center⟩ ∧
    (Fp.createTriangle binary32 ⟨Fl.fin 4, Fl.fin 11⟩ ⟨Fl.fin 4, Fl.fin 5⟩
      ⟨Fl.fin 9, Fl.fin 9⟩).map (fun p => p.vertices) =
      some (demoTriangle.vertices.map Vec2.toF) ∧
    (Fp.createPolygon binary32 (demoPolygon.vertices.map Vec2.toF)).map (fun p => p.vertices) =
      some (demoPolygon.vertices.map Vec2.toF) := by
  refine ⟨?_, ?_, ?_⟩ <;> decide!

/-- The vertex list (0,0),(2,0),(1,3),(1,2),(1,1), whose last vertex is
reflex, is accepted by `Polygon::valid` in float arithmetic as it is in exact
arithmetic, with `Vector2Util::cross` in float and in double. -/
theorem fp_valid_accepts_reflex :
    Fp.validVertices binary32
      ([⟨0, 0⟩, ⟨2, 0⟩, ⟨1, 3⟩, ⟨1, 2⟩, ⟨1, 1⟩].map Vec2.toF) = true ∧
    Fp.validVertices binary64
      ([⟨0, 0⟩, ⟨2, 0⟩, ⟨1, 3⟩, ⟨1, 2⟩, ⟨1, 1⟩].map Vec2.toF) = true := by
  refine ⟨?_, ?_⟩ <;> decide!

/-! ## A run of the loop that does not return -/

/-- One round of the loop that passes the origin test and whose simplex test
answers false continues with the simplex and the direction that the test has
left. -/
theorem fd_detectLoop_step (g : Format) (m : Fd.MinkowskiSum) (n : Nat) (s s1 : List FVec2)
    (d d1 : FVec2)
    (h1 : Fl.le (Fd.dot g ((s ++ [m.getSupportPoint g d]).getLastD default) d) (Fl.fin 0) = false)
    (h2 : Fd.checkSimplex g (s ++ [m.getSupportPoint g d]) d = (false, s1, d1)) :
    Fd.detectLoop g m (n + 1) s d = Fd.detectLoop g m n s1 d1 := by
  simp only [Fd.detectLoop, h1, h2, Bool.false_eq_true, if_false]

/-- A state of the loop that a round leaves unchanged is never left: the loop
does not return, however many rounds it is given. -/
theorem fd_detectLoop_stuck (g : Format) (m : Fd.MinkowskiSum) (s : List FVec2) (d : FVec2)
    (h1 : Fl.le (Fd.dot g ((s ++ [m.getSupportPoint g d]).getLastD default) d) (Fl.fin 0) = false)
    (h2 : Fd.checkSimplex g (s ++ [m.getSupportPoint g d]) d = (false, s, d)) :
    ∀ n, Fd.detectLoop g m n s d = none := by
  intro n
  induction n with
  | zero => rfl
  | succ n ih => rw [fd_detectLoop_step g m n s s d d h1 h2, ih]

/-- The first round of `detect(minkowskiSum, simplex, direction)` on a non-zero
direction whose support point passes the origin test enters the loop. -/
theorem fd_detectCore_step (g : Format) (m : Fd.MinkowskiSum) (n : Nat) (d : FVec2)
    (h0 : Fd.isZero d = false)
    (h1 : Fl.le (Fd.dot g (m.getSupportPoint g d) d) (Fl.fin 0) = false) :
    Fd.detectCore g m n [] d =
      Fd.detectLoop g m n [m.getSupportPoint g d] (Fd.neg d) := by
  simp only [Fd.detectCore, h0, Bool.false_eq_true, if_false, List.nil_append,
    List.getD_cons_zero, h1]

/-- On the rectangle `wideRectangle` against its copy moved by `farLeft` the
loop of `detect` does not return, whichever the format `g` of the detector, as
soon as the three rounds below are as stated: after the second round the
simplex holds the point `(+infinity, 0)` twice and the direction is NaN, and a
round leaves that state unchanged. -/
theorem fd_wide_stuck (g : Format)
    (h0 : Fd.calcInitialDirection g wideRectangle.toConvex {} wideRectangle.toConvex farLeft =
      ⟨Fl.fin (-(5 * 2 ^ 125)), Fl.fin 0⟩)
    (hs0 : Fd.MinkowskiSum.getSupportPoint g
      ⟨wideRectangle.toConvex, {}, wideRectangle.toConvex, farLeft⟩
      ⟨Fl.fin (-(5 * 2 ^ 125)), Fl.fin 0⟩ = ⟨Fl.fin (-(2 ^ 125)), Fl.fin 0⟩)
    (ht0 : Fl.le (Fd.dot g ⟨Fl.fin (-(2 ^ 125)), Fl.fin 0⟩ ⟨Fl.fin (-(5 * 2 ^ 125)), Fl.fin 0⟩)
      (Fl.fin 0) = false)
    (hs1 : Fd.MinkowskiSum.getSupportPoint g
      ⟨wideRectangle.toConvex, {}, wideRectangle.toConvex, farLeft⟩
      (Fd.neg ⟨Fl.fin (-(5 * 2 ^ 125)), Fl.fin 0⟩) = ⟨Fl.pinf, Fl.fin 0⟩)
    (ht1 : Fl.le (Fd.dot g ⟨Fl.pinf, Fl.fin 0⟩ (Fd.neg ⟨Fl.fin (-(5 * 2 ^ 125)), Fl.fin 0⟩))
      (Fl.fin 0) = false)
    (hc1 : Fd.checkSimplex g [⟨Fl.fin (-(2 ^ 125)), Fl.fin 0⟩, ⟨Fl.pinf, Fl.fin 0⟩]
      (Fd.neg ⟨Fl.fin (-(5 * 2 ^ 125)), Fl.fin 0⟩) =
      (false, [⟨Fl.fin (-(2 ^ 125)), Fl.fin 0⟩, ⟨Fl.pinf, Fl.fin 0⟩], ⟨Fl.nan, Fl.nan⟩))
    (hs2 : Fd.MinkowskiSum.getSupportPoint g
      ⟨wideRectangle.toConvex, {}, wideRectangle.toConvex, farLeft⟩ ⟨Fl.nan, Fl.nan⟩ =
      ⟨Fl.pinf, Fl.fin 0⟩)
    (ht2 : Fl.le (Fd.dot g ⟨Fl.pinf, Fl.fin 0⟩ ⟨Fl.nan, Fl.nan⟩) (Fl.fin 0) = false)
    (hc2 : Fd.checkSimplex g
      [⟨Fl.fin (-(2 ^ 125)), Fl.fin 0⟩, ⟨Fl.pinf, Fl.fin 0⟩, ⟨Fl.pinf, Fl.fin 0⟩]
      ⟨Fl.nan, Fl.nan⟩ =
      (false, [⟨Fl.pinf, Fl.fin 0⟩, ⟨Fl.pinf, Fl.fin 0⟩], ⟨Fl.nan, Fl.nan⟩))
    (hc3 : Fd.checkSimplex g
      [⟨Fl.pinf, Fl.fin 0⟩, ⟨Fl.pinf, Fl.fin 0⟩, ⟨Fl.pinf, Fl.fin 0⟩] ⟨Fl.nan, Fl.nan⟩ =
      (false, [⟨Fl.pinf, Fl.fin 0⟩, ⟨Fl.pinf, Fl.fin 0⟩], ⟨Fl.nan, Fl.nan⟩)) :
    ∀ fuel, Fd.detect g fuel wideRectangle.toConvex {} wideRectangle.toConvex farLeft = none := by
  intro fuel
  have hstuck := fd_detectLoop_stuck g
    ⟨wideRectangle.toConvex, {}, wideRectangle.toConvex, farLeft⟩
    [⟨Fl.pinf, Fl.fin 0⟩, ⟨Fl.pinf, Fl.fin 0⟩] ⟨Fl.nan, Fl.nan⟩
    (by rw [hs2]; exact ht2) (by rw [hs2]; exact hc3)
  unfold Fd.detect
  rw [h0, fd_detectCore_step g _ fuel _ (by decide!) (by rw [hs0]; exact ht0), hs0]
  cases fuel with
  | zero => rfl
  | succ n =>
    rw [fd_detectLoop_step g _ n _ _ _ _ (by rw [hs1]; exact ht1) (by rw [hs1]; exact hc1)]
    cases n with
    | zero => rfl
    | succ k =>
      rw [fd_detectLoop_step g _ k _ _ _ _ (by rw [hs2]; exact ht2) (by rw [hs2]; exact hc2),
        hstuck k]
      rfl

/-- C7: `createRectangle(6 * 2^125, 2^126)` succeeds; the rectangle it returns
and a copy of it translated by `(-5 * 2^125, 0)` overlap, and in exact
arithmetic `detect` returns true for them. In floating-point arithmetic the
world-space abscissa `-3 * 2^125 - 5 * 2^125` of a corner of the copy overflows
to `-infinity`; the second support point is `(+infinity, 0)`, the triple
product of the first segment is NaN, and from the third round on the simplex
holds `(+infinity, 0)` three times and the direction is NaN: the test
`dot(lastPoint, direction) <= 0.0` is false, `checkSimplex` answers false
through its two comparisons with NaN, and the loop of `detect` does not
return, however many rounds it is given, with the vectors of the detector in
double and in float alike. -/
theorem detect_never_returns :
    Representable binary32 (6 * 2 ^ 125) ∧ Representable binary32 (2 ^ 126) ∧
    Representable binary32 (5 * 2 ^ 125) ∧
    Fp.createRectangle binary32 (Fl.fin (6 * 2 ^ 125)) (Fl.fin (2 ^ 126)) = some wideRectangle ∧
    Fp.createRectangle binary64 (Fl.fin (6 * 2 ^ 125)) (Fl.fin (2 ^ 126)) = some wideRectangle ∧
    Fp.Transform2.getTransformed farLeft ⟨Fl.fin (-(3 * 2 ^ 125)), Fl.fin (-(2 ^ 125))⟩ =
      ⟨Fl.ninf, Fl.fin (-(2 ^ 125))⟩ ∧
    (∃ r, createRectangle (6 * 2 ^ 125) (2 ^ 126) = some r ∧
      ShareInterior (r.world {}) (r.world { translation := ⟨-(5 * 2 ^ 125), 0⟩ }) ∧
      detect (4 * 4 + 4) r.toConvex {} r.toConvex { translation := ⟨-(5 * 2 ^ 125), 0⟩ } =
        some true) ∧
    (∀ fuel, Fd.detect binary64 fuel wideRectangle.toConvex {} wideRectangle.toConvex farLeft =
      none) ∧
    (∀ fuel, Fd.detect binary32 fuel wideRectangle.toConvex {} wideRectangle.toConvex farLeft =
      none) :=
  ⟨by decide!, by decide!, by decide!, by decide!, by decide!, by decide!,
    ⟨⟨[⟨-(3 * 2 ^ 125), -(2 ^ 125)⟩, ⟨3 * 2 ^ 125, -(2 ^ 125)⟩, ⟨3 * 2 ^ 125, 2 ^ 125⟩,
        ⟨-(3 * 2 ^ 125), 2 ^ 125⟩], 0⟩, by decide!,
      ⟨⟨-(5 * 2 ^ 124), 0⟩, by decide!, by decide!⟩, by decide!⟩,
    fd_wide_stuck binary64 (by decide!) (by decide!) (by decide!) (by decide!) (by decide!)
      (by decide!) (by decide!) (by decide!) (by decide!) (by decide!),
    fd_wide_stuck binary32 (by decide!) (by decide!) (by decide!) (by decide!) (by decide!)
      (by decide!) (by decide!) (by decide!) (by decide!) (by decide!)⟩

end GJK
